import Mathlib

/-!
# Verification of the matchmaking engine core

Shallow embedding of the repository's backend (player records, scoring
functions, candidate games, the AVL-backed sorted player pool, the indexed
min-heap of candidate games, and the match manager's insert / remove /
create-match pipeline), together with proofs settling the specification
claims.

Modelling conventions:

* Python floats are modelled as rationals (`ℚ`).  The norm exponents
  `p_norm` / `q_norm` accept any float `≥ 1` in the source; the spec's
  scenarios and claims exercise only `p = 1` and `p = ∞`, which are exactly
  the exponents at which the source's `x ** (1/p)` stays rational, so the
  embedding models these two exponents (`PNorm.one`, `PNorm.inf`).
* Python exceptions are modelled with `Except String`; the string names the
  Python exception class raised by the source.
* Python `set`s of players compare by `Player.__eq__`, which is id-equality;
  sets are modelled as lists that are deduplicated by id (`punion`, `pdiff`),
  with nodup-by-id invariants carried in the proofs.  Python's set iteration
  order is unspecified; where the source iterates a set, the embedding
  iterates in the order the list was built, and the proved statements are
  insensitive to that order.
* The wall-clock timeout inside the anchor search and the step recorder are
  out of scope of every claim: the embedding models the recorder as disabled
  (`is_recording = False`, the source's default) and the timeout as never
  firing (it only truncates the search after five seconds of real time).
-/

/-! ## Player (backend/player.py) -/

/-- A player record: id, skill, enqueue time, optional dequeue time.
The clock value captured at construction is passed in explicitly (the
process-wide monotonic clock of `backend/_clock.py` is injected). -/
structure Player where
  id : Nat
  skill : Nat
  enqueue_time : ℚ
  dequeue_time : Option ℚ
deriving DecidableEq, Repr

namespace Player

/-- `Player.__lt__`: order by `(skill, id)` ascending. -/
def lt (a b : Player) : Bool :=
  a.skill < b.skill || (a.skill == b.skill && a.id < b.id)

/-- `Player.__gt__`: order by `(skill, id)` descending. -/
def gt (a b : Player) : Bool :=
  b.skill < a.skill || (b.skill == a.skill && b.id < a.id)

/-- `Player.mark_as_exited`: set the dequeue time to the current clock
value (passed in explicitly). -/
def mark_as_exited (p : Player) (now : ℚ) : Player :=
  { p with dequeue_time := some now }

/-- `Player.wait_time`: time spent in the queue, up to `now` while the
player has not been dequeued. -/
def wait_time (p : Player) (now : ℚ) : ℚ :=
  match p.dequeue_time with
  | none => now - p.enqueue_time
  | some d => d - p.enqueue_time

end Player

/-- Membership in a Python `set[Player]` is id-based (`__hash__`/`__eq__`
use the id alone). -/
def pmem (p : Player) (l : List Player) : Bool :=
  l.any (fun q => q.id == p.id)

/-- Python set union `x | y`, keyed by player id. -/
def punion (x y : List Player) : List Player :=
  x ++ y.filter (fun p => !(pmem p x))

/-- Python set difference `x - y`, keyed by player id. -/
def pdiff (x y : List Player) : List Player :=
  x.filter (fun p => !(pmem p y))

/-! ## Scoring functions (common/functions.py) -/

/-- Norm exponent: `1` or `+∞` (see the header note on exponents). -/
inductive PNorm where
  | one
  | inf
deriving DecidableEq, Repr

/-- `team_p_skill`: for `p = ∞` the maximum skill in the team (`max` raises
`ValueError` on an empty team); for `p = 1`, `(Σ s)^(1/1) = Σ s` (an empty
sum is `0.0`, no error). -/
def team_p_skill (team : List Player) (p_norm : PNorm) : Except String ℚ :=
  match p_norm with
  | .inf =>
    match team with
    | [] => .error "ValueError"
    | t :: ts => .ok (ts.foldl (fun m x => max m (x.skill : ℚ)) (t.skill : ℚ))
  | .one => .ok ((team.map (fun x => (x.skill : ℚ))).sum)

/-- `p_fairness`: absolute difference of the two team p-skills. -/
def p_fairness (team_x team_y : List Player) (p_norm : PNorm) :
    Except String ℚ := do
  let a ← team_p_skill team_x p_norm
  let b ← team_p_skill team_y p_norm
  .ok |a - b|

/-- `mean_skill`: mean skill over the game's players (`ZeroDivisionError`
on an empty game). -/
def mean_skill (game_players : List Player) : Except String ℚ :=
  if game_players.length = 0 then .error "ZeroDivisionError"
  else .ok ((game_players.map (fun x => (x.skill : ℚ))).sum / game_players.length)

/-- `q_uniformity`: for `q = ∞` the largest deviation from the mean (`max`
raises `ValueError` on an empty game); for `q = 1` the mean absolute
deviation (`1/len` raises `ZeroDivisionError` on an empty game). -/
def q_uniformity (game_players : List Player) (q_norm : PNorm) :
    Except String ℚ :=
  match q_norm with
  | .inf =>
    match game_players with
    | [] => .error "ValueError"
    | _ :: _ => do
      let μ ← mean_skill game_players
      match game_players.map (fun z => |(z.skill : ℚ) - μ|) with
      | [] => .error "ValueError"
      | d :: ds => .ok (ds.foldl max d)
  | .one =>
    if game_players.length = 0 then .error "ZeroDivisionError"
    else do
      let μ ← mean_skill game_players
      .ok ((1 / (game_players.length : ℚ)) *
        (game_players.map (fun z => |(z.skill : ℚ) - μ|)).sum)

/-- `imbalance`: `α · d_p(X, Y) + v_q(X ∪ Y)`. -/
def imbalance (team_x team_y : List Player) (p_norm q_norm : PNorm)
    (fairness_weight : ℚ) : Except String ℚ := do
  let d ← p_fairness team_x team_y p_norm
  let v ← q_uniformity (punion team_x team_y) q_norm
  .ok (fairness_weight * d + v)

/-- `priority`: imbalance plus `β` times the minimum enqueue time across
both teams (`min` raises `ValueError` when both teams are empty). -/
def priority (team_x team_y : List Player) (queue_weight : ℚ)
    (imb : ℚ) : Except String ℚ :=
  match (punion team_x team_y).map Player.enqueue_time with
  | [] => .error "ValueError"
  | e :: es => .ok (imb + queue_weight * es.foldl min e)

/-! ## Candidate game (backend/candidate_game.py) -/

/-- A candidate game: anchor, two teams, precomputed imbalance and (when a
queue weight was given) precomputed priority. -/
structure CandidateGame where
  anchor_player : Player
  team_x : List Player
  team_y : List Player
  imbalance : ℚ
  priority : Option ℚ
deriving DecidableEq, Repr

/-- `CandidateGame.__init__`: precompute the imbalance, and the priority
iff a queue weight is supplied. -/
def mkCandidateGame (anchor_player : Player) (team_x team_y : List Player)
    (p_norm q_norm : PNorm) (fairness_weight : ℚ)
    (queue_weight : Option ℚ) : Except String CandidateGame := do
  let f ← imbalance team_x team_y p_norm q_norm fairness_weight
  let g ← match queue_weight with
    | none => pure none
    | some β => do
      let g ← priority team_x team_y β f
      pure (some g)
  .ok ⟨anchor_player, team_x, team_y, f, g⟩

/-- `CandidateGame.__lt__`: compare priorities when both games have one,
otherwise compare imbalances. -/
def cgLt (a b : CandidateGame) : Bool :=
  match a.priority, b.priority with
  | some ga, some gb => ga < gb
  | _, _ => a.imbalance < b.imbalance

/-! ## Sorted set (backend/sorted_set.py): AVL tree with subtree sizes -/

/-- `_TreeNode` / the tree shape of `SortedSet`: each node stores a player
and the cached height and size of its subtree. -/
inductive AVLTree where
  | leaf
  | node (player : Player) (left right : AVLTree) (height size : Nat)
deriving DecidableEq, Repr

namespace SortedSet

open AVLTree

/-- `SortedSet.__get_height` (0 for `None`). -/
def get_height : AVLTree → Nat
  | .leaf => 0
  | .node _ _ _ h _ => h

/-- `SortedSet.__get_size` (0 for `None`). -/
def get_size : AVLTree → Nat
  | .leaf => 0
  | .node _ _ _ _ s => s

/-- `SortedSet.__get_min_value_node`: leftmost player of a non-empty
subtree (the source never calls this on `None`; the leaf case returns a
dummy player and is unreachable). -/
def get_min_value_node : AVLTree → Player
  | .leaf => ⟨0, 0, 0, none⟩
  | .node p l _ _ _ =>
    match l with
    | .leaf => p
    | .node .. => get_min_value_node l

/-- `SortedSet.__get_balance`: left height minus right height. -/
def get_balance : AVLTree → Int
  | .leaf => 0
  | .node _ l r _ _ => (get_height l : Int) - (get_height r : Int)

/-- `SortedSet.__update_node`: rebuild a node with recomputed cached height
and size (the imperative source mutates the fields in place). -/
def update_node (p : Player) (l r : AVLTree) : AVLTree :=
  .node p l r (1 + max (get_height l) (get_height r))
    (1 + get_size l + get_size r)

/-- `SortedSet.__left_rotate`.  The source requires a non-`None` right
child (guaranteed by the balance conditions at every call site); the
fallback branch is unreachable. -/
def left_rotate : AVLTree → AVLTree
  | .node p l (.node rp rl rr _ _) _ _ =>
    update_node rp (update_node p l rl) rr
  | t => t

/-- `SortedSet.__right_rotate` (mirror image). -/
def right_rotate : AVLTree → AVLTree
  | .node p (.node lp ll lr _ _) r _ _ =>
    update_node lp ll (update_node p lr r)
  | t => t

/-- The four rebalancing cases at the end of `SortedSet.__insert`.  When
the balance conditions fire, the relevant child is non-`None` (its height
is at least 2); the fallback branches mirror the source falling through
all four `if`s. -/
def insert_rebalance (t : AVLTree) (value : Player) : AVLTree :=
  if get_balance t > 1 then
    match t with
    | .node p (.node lp ll lr lh ls) r h s =>
      if value.lt lp then right_rotate (.node p (.node lp ll lr lh ls) r h s)
      else if value.gt lp then
        right_rotate (update_node p (left_rotate (.node lp ll lr lh ls)) r)
      else .node p (.node lp ll lr lh ls) r h s
    | t => t
  else if get_balance t < -1 then
    match t with
    | .node p l (.node rp rl rr rh rs) h s =>
      if value.gt rp then left_rotate (.node p l (.node rp rl rr rh rs) h s)
      else if value.lt rp then
        left_rotate (update_node p l (right_rotate (.node rp rl rr rh rs)))
      else .node p l (.node rp rl rr rh rs) h s
    | t => t
  else t

/-- `SortedSet.__insert`: descend by the `(skill, id)` order; when the
value compares equal to a stored player, return the subtree unchanged. -/
def insert (root : AVLTree) (value : Player) : AVLTree :=
  match root with
  | .leaf => .node value .leaf .leaf 1 1
  | .node p l r h s =>
    if value.lt p then
      insert_rebalance (update_node p (insert l value) r) value
    else if value.gt p then
      insert_rebalance (update_node p l (insert r value)) value
    else .node p l r h s

/-- The four rebalancing cases at the end of `SortedSet.__delete`. -/
def delete_rebalance (t : AVLTree) : AVLTree :=
  if get_balance t > 1 then
    match t with
    | .node p l r h s =>
      if get_balance l ≥ 0 then right_rotate (.node p l r h s)
      else right_rotate (update_node p (left_rotate l) r)
    | t => t
  else if get_balance t < -1 then
    match t with
    | .node p l r h s =>
      if get_balance r ≤ 0 then left_rotate (.node p l r h s)
      else left_rotate (update_node p l (right_rotate r))
    | t => t
  else t

/-- `SortedSet.__delete`: standard BST deletion (successor replacement)
followed by rebalancing.  The two one-child cases return early without
rebalancing, exactly as in the source. -/
def delete (root : AVLTree) (value : Player) : AVLTree :=
  match root with
  | .leaf => .leaf
  | .node p l r _ _ =>
    if value.lt p then delete_rebalance (update_node p (delete l value) r)
    else if value.gt p then delete_rebalance (update_node p l (delete r value))
    else
      match l, r with
      | .leaf, _ => r
      | .node .., .leaf => l
      | .node .., .node .. =>
        let temp := get_min_value_node r
        delete_rebalance (update_node temp l (delete r temp))

/-- `SortedSet.__len__`. -/
def length (t : AVLTree) : Nat := get_size t

/-- `SortedSet.__get_by_index`: player at a rank, `None` out of range (or
when cached sizes are inconsistent, which cannot happen for trees built by
the operations). -/
def get_by_index : AVLTree → Nat → Option Player
  | .leaf, _ => none
  | .node p l r _ _, idx =>
    let left_size := get_size l
    if idx < left_size then get_by_index l idx
    else if idx = left_size then some p
    else get_by_index r (idx - left_size - 1)

/-- Python's `slice.indices(len)` for a step of 1: clamp both bounds into
`[0, len]`, resolving negative indices from the end. -/
def slice_indices (lo hi : Int) (n : Nat) : Nat × Nat :=
  let start : Int := if lo < 0 then max (lo + n) 0 else min lo n
  let stop : Int := if hi < 0 then max (hi + n) 0 else min hi n
  (start.toNat, stop.toNat)

/-- `SortedSet.__getitem__` with a slice key (step 1, the only step the
repository uses): clamp with `slice.indices` and collect
`__get_by_index` over the resulting range.  Slicing never raises. -/
def getitem_slice (t : AVLTree) (lo hi : Int) : List (Option Player) :=
  let se := slice_indices lo hi (length t)
  (List.range (se.2 - se.1)).map (fun i => get_by_index t (se.1 + i))

/-- `SortedSet.__getitem__` with an integer key: resolve a negative index
from the end, raise `IndexError` out of range. -/
def getitem_int (t : AVLTree) (key : Int) : Except String (Option Player) :=
  let n := length t
  let key' : Int := if key < 0 then key + n else key
  if key' < 0 ∨ (n : Int) ≤ key' then .error "IndexError"
  else .ok (get_by_index t key'.toNat)

/-- `SortedSet.__iter__`: in-order traversal. -/
def inorder : AVLTree → List Player
  | .leaf => []
  | .node p l r _ _ => inorder l ++ p :: inorder r

/-- `SortedSet.__contains__`: at each node, test id-equality first
(`Player.__eq__`), then descend left when `value < player` and right
otherwise. -/
def containsP : AVLTree → Player → Bool
  | .leaf, _ => false
  | .node p l r _ _, value =>
    if value.id == p.id then true
    else if value.lt p then containsP l value
    else containsP r value

/-- The helper inside `SortedSet.index`: accumulate the rank along the
search path, `-1` when the `(skill, id)` key is absent. -/
def index_helper : AVLTree → Player → Nat → Int
  | .leaf, _, _ => -1
  | .node p l r _ _, value, acc =>
    if value.lt p then index_helper l value acc
    else if value.gt p then index_helper r value (acc + get_size l + 1)
    else (acc + get_size l : Nat)

/-- `SortedSet.index`: zero-based rank, `ValueError` when absent. -/
def index (t : AVLTree) (value : Player) : Except String Nat :=
  match index_helper t value 0 with
  | .negSucc _ => .error "ValueError"
  | .ofNat r => .ok r

/-- `SortedSet.add`. -/
def add (t : AVLTree) (value : Player) : AVLTree := insert t value

/-- `SortedSet.remove`: `ValueError` when the player is absent. -/
def remove (t : AVLTree) (value : Player) : Except String AVLTree :=
  if containsP t value then .ok (delete t value)
  else .error "ValueError"

end SortedSet

/-! ## Indexed min-heap (backend/min_heap.py) -/

/-- Association-list model of the Python `dict[int, int]` used as the
anchor-id → array-index map.  `alist_set` and `alist_del` give exactly the
dict's assignment and `del` semantics under `alist_lookup`. -/
def alist_lookup : List (Nat × Nat) → Nat → Option Nat
  | [], _ => none
  | kv :: rest, k => if kv.1 = k then some kv.2 else alist_lookup rest k

/-- `m[k] = v` on the index map. -/
def alist_set (m : List (Nat × Nat)) (k v : Nat) : List (Nat × Nat) :=
  (k, v) :: m.filter (fun kv => kv.1 ≠ k)

/-- `del m[k]` on the index map. -/
def alist_del (m : List (Nat × Nat)) (k : Nat) : List (Nat × Nat) :=
  m.filter (fun kv => kv.1 ≠ k)

/-- The `MinHeap`: an array of candidate games plus the anchor-id → index
map. -/
structure MinHeap where
  heap : List CandidateGame
  index_map : List (Nat × Nat)
deriving DecidableEq, Repr

namespace MinHeap

/-- The empty heap (`MinHeap()` with no iterable). -/
def empty : MinHeap := ⟨[], []⟩

/-- `self.__heap[i] < self.__heap[j]` as a bounds-safe comparison; out of
range (unreachable at every call site) compares false. -/
def cgLtIdx (h : MinHeap) (i j : Nat) : Bool :=
  match h.heap[i]?, h.heap[j]? with
  | some a, some b => cgLt a b
  | _, _ => false

/-- `MinHeap.__swap`: exchange two array slots and re-point both anchor
ids in the index map (the source assigns `map[heap[i].id] = i` and then
`map[heap[j].id] = j` after the exchange). -/
def swap (h : MinHeap) (i j : Nat) : MinHeap :=
  match h.heap[i]?, h.heap[j]? with
  | some a, some b =>
    ⟨(h.heap.set i b).set j a,
      alist_set (alist_set h.index_map b.anchor_player.id i) a.anchor_player.id j⟩
  | _, _ => h

theorem swap_heap_length (h : MinHeap) (i j : Nat) :
    (swap h i j).heap.length = h.heap.length := by
  unfold swap
  cases h.heap[i]? <;> cases h.heap[j]? <;> simp

/-- `MinHeap.__sift_up` as a fuel-indexed loop: each step moves from
`index` to its parent `(index - 1) / 2 < index`, so `index + 1` units of
fuel always reach the `index = 0` exit before running out. -/
def sift_up_fuel : Nat → MinHeap → Nat → MinHeap
  | 0, h, _ => h
  | fuel + 1, h, index =>
    if index = 0 then h
    else
      let parent := (index - 1) / 2
      if cgLtIdx h index parent then sift_up_fuel fuel (swap h index parent) parent
      else h

/-- `MinHeap.__sift_up`: swap with the parent while strictly smaller. -/
def sift_up (h : MinHeap) (index : Nat) : MinHeap :=
  sift_up_fuel (index + 1) h index

/-- `MinHeap.__sift_down` as a fuel-indexed loop.  The source computes
`smallest` by two sequential updates (first against the left child, then
against the right); the nested conditionals here enumerate the same
cases.  Each step moves from `index` to a strictly larger child index
below `heap.length` (which swapping preserves), so `heap.length` units of
fuel always reach an exit before running out. -/
def sift_down_fuel : Nat → MinHeap → Nat → MinHeap
  | 0, h, _ => h
  | fuel + 1, h, index =>
    if 2 * index + 1 < h.heap.length ∧ cgLtIdx h (2 * index + 1) index then
      if 2 * index + 2 < h.heap.length ∧
          cgLtIdx h (2 * index + 2) (2 * index + 1) then
        sift_down_fuel fuel (swap h index (2 * index + 2)) (2 * index + 2)
      else
        sift_down_fuel fuel (swap h index (2 * index + 1)) (2 * index + 1)
    else
      if 2 * index + 2 < h.heap.length ∧ cgLtIdx h (2 * index + 2) index then
        sift_down_fuel fuel (swap h index (2 * index + 2)) (2 * index + 2)
      else h

/-- `MinHeap.__sift_down`: swap with the smaller child while one is
strictly smaller. -/
def sift_down (h : MinHeap) (index : Nat) : MinHeap :=
  sift_down_fuel h.heap.length h index

/-- `MinHeap.__update_position`: from the root sift down; otherwise sift
up or down according to the comparison with the parent. -/
def update_position (h : MinHeap) (index : Nat) : MinHeap :=
  if index = 0 then sift_down h index
  else
    let parent := (index - 1) / 2
    if cgLtIdx h index parent then sift_up h index
    else sift_down h index

/-- `MinHeap.__update_existing`: overwrite the slot of an anchor id that
is already present and restore the heap order from there.  Only called
when the id is in the map; the fallback is unreachable. -/
def update_existing (h : MinHeap) (player_id : Nat) (new_game : CandidateGame) :
    MinHeap :=
  match alist_lookup h.index_map player_id with
  | some index => update_position ⟨h.heap.set index new_game, h.index_map⟩ index
  | none => h

/-- `MinHeap.__remove_at_index`: swap the slot with the last element, pop,
delete the popped game's id from the map, and restore the heap order.
Only called with the index of a mapped id (so the heap is non-empty); the
fallback branches are unreachable. -/
def remove_at_index (h : MinHeap) (index : Nat) : MinHeap :=
  let last_index := h.heap.length - 1
  if index = last_index then
    match h.heap.getLast? with
    | some game => ⟨h.heap.dropLast, alist_del h.index_map game.anchor_player.id⟩
    | none => h
  else
    let h' := swap h index last_index
    match h'.heap.getLast? with
    | some removed_game =>
      update_position
        ⟨h'.heap.dropLast, alist_del h'.index_map removed_game.anchor_player.id⟩
        index
    | none => h'

/-- `MinHeap.peek`. -/
def peek (h : MinHeap) : Option CandidateGame := h.heap.head?

/-- `MinHeap.push`: update in place when the anchor id is present, else
append and sift up. -/
def push (h : MinHeap) (game : CandidateGame) : MinHeap :=
  let player_id := game.anchor_player.id
  match alist_lookup h.index_map player_id with
  | some _ => update_existing h player_id game
  | none =>
    let heap' := h.heap ++ [game]
    let index := heap'.length - 1
    sift_up ⟨heap', alist_set h.index_map player_id index⟩ index

/-- `MinHeap.remove`: remove the game of an anchor id; silently a no-op
when absent. -/
def remove (h : MinHeap) (player_id : Nat) : MinHeap :=
  match alist_lookup h.index_map player_id with
  | some index => remove_at_index h index
  | none => h

/-- `MinHeap.__contains__` (keyed by anchor id). -/
def containsId (h : MinHeap) (player_id : Nat) : Bool :=
  (alist_lookup h.index_map player_id).isSome

/-- `MinHeap.index`: array index of an anchor id, `-1` when absent. -/
def indexOf (h : MinHeap) (player_id : Nat) : Int :=
  match alist_lookup h.index_map player_id with
  | some i => i
  | none => -1

/-- `MinHeap.__len__`. -/
def size (h : MinHeap) : Nat := h.heap.length

end MinHeap

/-! ## Match manager (backend/unrestricted_game_manager.py) -/

/-- The manager's configuration (recording is modelled as off, see the
header; the source validates `1 ≤ k ≤ 5`, `p, q ≥ 1`, `α > 0`, carried
as hypotheses where a proof needs them). -/
structure Config where
  team_size : Nat
  p_norm : PNorm
  q_norm : PNorm
  fairness_weight : ℚ
  approximate : Bool
deriving DecidableEq, Repr

/-- `skill_window = ceil(4 · (1 + α) · k^(1 + 1/q))`: exponent `2` for
`q = 1` and exponent `1` for `q = ∞` (where `1/q = 0`). -/
def skill_window (cfg : Config) : Nat :=
  match cfg.q_norm with
  | .one => (Int.ceil (4 * (1 + cfg.fairness_weight) *
      ((cfg.team_size : ℚ) ^ 2))).toNat
  | .inf => (Int.ceil (4 * (1 + cfg.fairness_weight) *
      (cfg.team_size : ℚ))).toNat

/-- `required_players = 2k - 1`. -/
def required_players (cfg : Config) : Nat := 2 * cfg.team_size - 1

/-- The manager's mutable state: pool, heap, match list. -/
structure MState where
  players : AVLTree
  candidate_games : MinHeap
  created_matches : List CandidateGame
deriving DecidableEq, Repr

/-- The empty manager state. -/
def MState.empty : MState := ⟨.leaf, MinHeap.empty, []⟩

/-- `itertools.combinations`, in the source's lexicographic-by-position
order. -/
def combinations : List α → Nat → List (List α)
  | _, 0 => [[]]
  | [], _ + 1 => []
  | x :: xs, n + 1 =>
    (combinations xs n).map (fun c => x :: c) ++ combinations xs (n + 1)

/-- Slice the pool and fail on a `None` entry (unreachable for trees with
consistent cached sizes: every in-range rank yields a player). -/
def sliceP (t : AVLTree) (lo hi : Int) : Except String (List Player) :=
  (SortedSet.getitem_slice t lo hi).mapM
    (fun x => match x with
      | some p => .ok p
      | none => .error "TypeError")

/-- `UnrestrictedGameManager._create_candidate_game`: no queue weight. -/
def create_candidate_game (cfg : Config) (player : Player)
    (team_x team_y : List Player) : Except String CandidateGame :=
  mkCandidateGame player team_x team_y cfg.p_norm cfg.q_norm
    cfg.fairness_weight none

/-- `curr_game_val < min_game_val` with `min_game_val` starting at
`float('inf')` (`none`). -/
def ltOpt (c : ℚ) : Option ℚ → Bool
  | none => true
  | some m => c < m

/-- The loop of `_brute_force_partition`: enumerate the anchor's possible
`k-1` teammates in combination order, track the first minimum, stop after
an exact zero. -/
def bf_loop (cfg : Config) (anchor_player : Player)
    (remaining_players : List Player) :
    List (List Player) → Option CandidateGame → Option ℚ → Nat →
    Except String (Option CandidateGame × Option ℚ × Nat)
  | [], best, minv, n => .ok (best, minv, n)
  | c :: rest, best, minv, n => do
    let game ← create_candidate_game cfg anchor_player (punion c [anchor_player])
      (pdiff remaining_players (punion c [anchor_player]))
    if ltOpt game.imbalance minv then
      if game.imbalance = 0 then .ok (some game, some game.imbalance, n + 1)
      else
        bf_loop cfg anchor_player remaining_players rest
          (some game) (some game.imbalance) (n + 1)
    else
      if minv = some 0 then .ok (best, minv, n + 1)
      else bf_loop cfg anchor_player remaining_players rest best minv (n + 1)

/-- `UnrestrictedGameManager._brute_force_partition`. -/
def brute_force_partition (cfg : Config) (anchor_player : Player)
    (remaining_players : List Player) :
    Except String (Option CandidateGame × Option ℚ × Nat) :=
  bf_loop cfg anchor_player remaining_players
    (combinations remaining_players (cfg.team_size - 1)) none none 0

/-- The assignment loop of `_greedy_balanced_partition`: route each player
(in descending skill order) to the team whose hypothetical p-fairness is
not worse, while both teams have space; afterwards to the team with
space. -/
def greedy_loop (cfg : Config) :
    List Player → List Player → List Player →
    Except String (List Player × List Player)
  | [], team_x, team_y => .ok (team_x, team_y)
  | p :: rest, team_x, team_y =>
    if team_x.length < cfg.team_size ∧ team_y.length < cfg.team_size then do
      let a ← p_fairness (punion team_x [p]) team_y cfg.p_norm
      let b ← p_fairness team_x (punion team_y [p]) cfg.p_norm
      if a ≤ b then greedy_loop cfg rest (team_x ++ [p]) team_y
      else greedy_loop cfg rest team_x (team_y ++ [p])
    else if team_x.length < cfg.team_size then
      greedy_loop cfg rest (team_x ++ [p]) team_y
    else greedy_loop cfg rest team_x (team_y ++ [p])

/-- `UnrestrictedGameManager._greedy_balanced_partition`: sort
`{anchor} ∪ remaining` descending via a `SortedSet` (which also
deduplicates by `(skill, id)`), run the assignment loop, build one game. -/
def greedy_balanced_partition (cfg : Config) (anchor_player : Player)
    (remaining_players : List Player) :
    Except String (Option CandidateGame × Option ℚ × Nat) := do
  let txy ← greedy_loop cfg
    (SortedSet.inorder
      (List.foldl SortedSet.add .leaf
        (punion [anchor_player] remaining_players))).reverse [] []
  let game ← create_candidate_game cfg anchor_player txy.1 txy.2
  .ok (some game, some game.imbalance, 1)

/-- The strategy choice fixed at construction (`approximate`). -/
def partition_solver (cfg : Config) (anchor_player : Player)
    (remaining_players : List Player) :
    Except String (Option CandidateGame × Option ℚ × Nat) :=
  if cfg.approximate then greedy_balanced_partition cfg anchor_player remaining_players
  else brute_force_partition cfg anchor_player remaining_players

/-- `curr_game_val < min_game_val` where both sides may be
`float('inf')` (`none`); `inf < x` is `False` in Python. -/
def ltOptOpt (c m : Option ℚ) : Bool :=
  match c, m with
  | some _, none => true
  | some c', some m' => c' < m'
  | none, _ => false

/-- The enumeration loop of `_calculate_best_game_including_player`: the
zero-score early break is tested at the top of each iteration; the
wall-clock timeout is modelled as never firing. -/
def cb_loop (cfg : Config) (player : Player) :
    List (List Player) → Option CandidateGame → Option ℚ →
    Except String (Option CandidateGame)
  | [], best, _ => .ok best
  | r :: rest, best, minv =>
    if minv = some 0 then .ok best
    else do
      let gvn ← partition_solver cfg player r
      if ltOptOpt gvn.2.1 minv then cb_loop cfg player rest gvn.1 gvn.2.1
      else cb_loop cfg player rest best minv

/-- `UnrestrictedGameManager._calculate_best_game_including_player`:
`None` for a player outside the pool or with a short window; otherwise
the best game over all `(2k-1)`-subsets of the rank window
`[rank+1, min(n, rank+1+W))`. -/
def calculate_best_game_including_player (cfg : Config) (players : AVLTree)
    (player : Player) : Except String (Option CandidateGame) :=
  if ¬ SortedSet.containsP players player then .ok none
  else do
    let player_index ← SortedSet.index players player
    let window_start_index := player_index + 1
    let window_end_index :=
      min (SortedSet.length players) (window_start_index + skill_window cfg)
    let visible_players ← sliceP players window_start_index window_end_index
    if visible_players.length < required_players cfg then .ok none
    else
      cb_loop cfg player
        (combinations visible_players (required_players cfg)) none none

/-- The loop of `_update_candidate_games_for_list`: recompute each
player's best game; push it, or drop the player's stale heap entry. -/
def ucg_loop (cfg : Config) : MState → List Player → Except String MState
  | s, [] => .ok s
  | s, a :: rest => do
    let best ← calculate_best_game_including_player cfg s.players a
    let s' : MState :=
      match best with
      | some g => { s with candidate_games := s.candidate_games.push g }
      | none =>
        if s.candidate_games.containsId a.id then
          { s with candidate_games := s.candidate_games.remove a.id }
        else s
    ucg_loop cfg s' rest

/-- `UnrestrictedGameManager._update_candidate_games_for_list`: iterate
the affected players in pool order (`SortedSet(affected_players)`). -/
def update_candidate_games_for_list (cfg : Config) (s : MState)
    (affected_players : List Player) : Except String MState :=
  ucg_loop cfg s
    (SortedSet.inorder (List.foldl SortedSet.add .leaf affected_players))

/-- `UnrestrictedGameManager._insert_player`: add to the pool, collect the
affected-below window `[max(0, rank - W), rank)`; when not bulk, publish
the new player's best game and refresh the affected anchors. -/
def insert_player (cfg : Config) (s : MState) (player : Player)
    (bulk : Bool) : Except String (MState × List Player) := do
  let s1 : MState := { s with players := SortedSet.add s.players player }
  let player_index ← SortedSet.index s1.players player
  let affected_players ← sliceP s1.players
    (max 0 ((player_index : Int) - skill_window cfg)) player_index
  if bulk then .ok (s1, affected_players)
  else do
    let best ← calculate_best_game_including_player cfg s1.players player
    let s2 : MState :=
      match best with
      | some g => { s1 with candidate_games := s1.candidate_games.push g }
      | none => s1
    let s3 ← update_candidate_games_for_list cfg s2 affected_players
    .ok (s3, affected_players)

/-- The loop of `_insert_players`: iterate the given players, inserting in
bulk mode and accumulating the union of the affected sets (the source
iterates the original set while rebinding the name to the union). -/
def bulk_insert_loop (cfg : Config) :
    MState → List Player → List Player → Except String (MState × List Player)
  | s, acc, [] => .ok (s, acc)
  | s, acc, p :: rest => do
    let saf ← insert_player cfg s p true
    bulk_insert_loop cfg saf.1 (punion acc saf.2) rest

/-- `UnrestrictedGameManager._insert_players`: bulk-insert, then refresh
every accumulated affected player. -/
def insert_players (cfg : Config) (s : MState) (players : List Player) :
    Except String MState := do
  let sacc ← bulk_insert_loop cfg s players players
  update_candidate_games_for_list cfg sacc.1 sacc.2

/-- `UnrestrictedGameManager._remove_player`: collect the affected-below
window (before mutating), remove from the pool; when not bulk, drop the
player's heap entry and refresh the affected anchors. -/
def remove_player (cfg : Config) (s : MState) (player : Player)
    (bulk : Bool) : Except String (MState × List Player) := do
  let player_index ← SortedSet.index s.players player
  let affected_players ← sliceP s.players
    (max 0 ((player_index : Int) - skill_window cfg)) player_index
  let players' ← SortedSet.remove s.players player
  let s1 : MState := { s with players := players' }
  if bulk then .ok (s1, affected_players)
  else do
    let s2 : MState :=
      if s1.candidate_games.containsId player.id then
        { s1 with candidate_games := s1.candidate_games.remove player.id }
      else s1
    let s3 ← update_candidate_games_for_list cfg s2 affected_players
    .ok (s3, affected_players)

/-- The loop of `_remove_players` (mirror of `bulk_insert_loop`). -/
def bulk_remove_loop (cfg : Config) :
    MState → List Player → List Player → Except String (MState × List Player)
  | s, acc, [] => .ok (s, acc)
  | s, acc, p :: rest => do
    let saf ← remove_player cfg s p true
    bulk_remove_loop cfg saf.1 (punion acc saf.2) rest

/-- `UnrestrictedGameManager._remove_players`. -/
def remove_players (cfg : Config) (s : MState) (players : List Player) :
    Except String MState := do
  let sacc ← bulk_remove_loop cfg s players players
  update_candidate_games_for_list cfg sacc.1 sacc.2

/-- `UnrestrictedGameManager._query_best_game`. -/
def query_best_game (s : MState) : Option CandidateGame :=
  MinHeap.peek s.candidate_games

/-- `UnrestrictedGameManager.create_match`: pop nothing when the heap is
empty; otherwise append the root game to the match list and bulk-remove
its players (`team_x | team_y`). -/
def create_match (cfg : Config) (s : MState) : Except String MState :=
  match query_best_game s with
  | none => .ok s
  | some game => do
    let s1 : MState := { s with created_matches := s.created_matches ++ [game] }
    remove_players cfg s1 (punion game.team_x game.team_y)

/-- `UnrestrictedGameManager.insert_player_manually`: a single non-bulk
insert (the minting of the id and the clock read happen outside the
embedded state). -/
def insert_player_manually (cfg : Config) (s : MState) (player : Player) :
    Except String MState :=
  (insert_player cfg s player false).map (fun x => x.1)

/-! ## Concrete scenarios (spec §8, k = 2, p = q = 1, α = 0.1, exact) -/

/-- A player minted at clock value 0. -/
def mkP (i s : Nat) : Player := ⟨i, s, 0, none⟩

/-- The spec's default configuration: k = 2, p = q = 1, α = 0.1, exact. -/
def cfgA : Config := ⟨2, .one, .one, 1 / 10, false⟩

/-- Scenario A / C prefix: insert (0,1000), (1,1010), (2,1020), (3,1030)
one at a time. -/
def scenarioA : Except String MState := do
  let s ← insert_player_manually cfgA MState.empty (mkP 0 1000)
  let s ← insert_player_manually cfgA s (mkP 1 1010)
  let s ← insert_player_manually cfgA s (mkP 2 1020)
  insert_player_manually cfgA s (mkP 3 1030)

/-- Scenario C: scenario A followed by inserting (4,1005). -/
def scenarioC : Except String MState :=
  scenarioA.bind (fun s => insert_player_manually cfgA s (mkP 4 1005))

/-- Claim C1, counterexample: after the four scenario-A inserts the heap
root is indeed anchored at id 0 with teams {0,3} and {1,2}, but its
imbalance is 10 and not the claimed 7.5 (the deviations from the mean
1015 are 15, 5, 5, 15, so the mean absolute deviation is 10). -/
theorem C1_counterexample :
    scenarioA.map (fun s => (MinHeap.peek s.candidate_games).map
      (fun g => g.imbalance)) = .ok (some 10) ∧ (10 : ℚ) ≠ 15 / 2 := by
  constructor
  · with_unfolding_all rfl
  · with_unfolding_all decide

/-- Claim C1 (amended: the root's imbalance is 10, not 7.5): after the
four scenario-A inserts, the heap root is the candidate game anchored at
id 0 with team_x = {0, 3}, team_y = {1, 2} and imbalance 10, and a
subsequent `create_match` appends exactly this game to the match list and
leaves the pool and the heap empty. -/
theorem C1_scenario_A :
    (scenarioA.map (fun s => (MinHeap.peek s.candidate_games).map
      (fun g => (g.anchor_player.id,
        (g.team_x.map Player.id).mergeSort (fun a b => decide (a ≤ b)),
        (g.team_y.map Player.id).mergeSort (fun a b => decide (a ≤ b)),
        g.imbalance))) = .ok (some (0, [0, 3], [1, 2], 10)))
    ∧ ((scenarioA.bind (create_match cfgA)).map (fun s =>
        (SortedSet.inorder s.players,
         s.candidate_games.heap,
         s.created_matches.map (fun g => (g.anchor_player.id,
           (g.team_x.map Player.id).mergeSort (fun a b => decide (a ≤ b)),
           (g.team_y.map Player.id).mergeSort (fun a b => decide (a ≤ b)),
           g.imbalance))))
      = .ok ([], [], [(0, [0, 3], [1, 2], 10)])) := by
  constructor
  · with_unfolding_all rfl
  · with_unfolding_all rfl

/-- Claim C5: the code never sets the dequeue time.  `Player.mark_as_exited`
exists for exactly that purpose but no removal path
(`_remove_player` / `create_match`) calls it: after scenario A and a
`create_match` that removes all four players from the pool, every player
recorded in the created match still has `dequeue_time = None`, while the
claim (and spec §3) says the dequeue time is set at removal. -/
theorem C5_dequeue_time_never_set :
    ((scenarioA.bind (create_match cfgA)).map (fun s =>
      s.created_matches.map (fun g =>
        (punion g.team_x g.team_y).map Player.dequeue_time))
      = .ok [[none, none, none, none]])
    ∧ (∀ p : Player, ∀ now : ℚ,
        (Player.mark_as_exited p now).dequeue_time = some now) := by
  constructor
  · with_unfolding_all rfl
  · exact fun p now => rfl

/-- Claim C7, counterexample: after scenario C the heap has two entries,
anchored at ids 0 and 4 — there is no entry anchored at player 1 (the
claim says "anchors 0 and 1"; id 1's window holds only two players, so it
anchors nothing; the second anchor is the newly inserted id 4). -/
theorem C7_counterexample :
    scenarioC.map (fun s =>
      (MinHeap.size s.candidate_games,
       MinHeap.containsId s.candidate_games 0,
       MinHeap.containsId s.candidate_games 1,
       MinHeap.containsId s.candidate_games 4))
    = .ok (2, true, false, true) := by
  with_unfolding_all rfl

/-- Claim C7 (amended: the anchors are 0 and 4, not 0 and 1): after
scenario C the heap contains exactly one entry anchored at player 0, its
score is the new best over the updated window (imbalance 27/4 with teams
{0,2} vs {1,4}, replacing the previous 10), and the heap length is 2 with
entries anchored at players 0 and 4. -/
theorem C7_scenario_C :
    scenarioC.map (fun s =>
      ((s.candidate_games.heap.filter
          (fun g => g.anchor_player.id == 0)).map (fun g =>
        (g.imbalance,
         (g.team_x.map Player.id).mergeSort (fun a b => decide (a ≤ b)),
         (g.team_y.map Player.id).mergeSort (fun a b => decide (a ≤ b)))),
       MinHeap.size s.candidate_games,
       (s.candidate_games.heap.map
          (fun g => g.anchor_player.id)).mergeSort (fun a b => decide (a ≤ b))))
    = .ok ([((27 : ℚ) / 4, [0, 2], [1, 4])], 2, [0, 4]) := by
  with_unfolding_all rfl

/-! ## Claims C6 and C10 -/

/-- Scenario D, game A: two teams with skills {10, 20} vs {10, 20}
(imbalance 5: the fairness difference is 0 and every skill deviates 5
from the mean 15), all enqueued at time 0, built with β = 0.1. -/
def scenarioD_A : Except String CandidateGame :=
  mkCandidateGame ⟨100, 10, 0, none⟩ [⟨100, 10, 0, none⟩, ⟨101, 20, 0, none⟩]
    [⟨102, 10, 0, none⟩, ⟨103, 20, 0, none⟩] .one .one (1 / 10) (some (1 / 10))

/-- Scenario D, game B: two teams with skills {12, 18} vs {12, 18}
(imbalance 3), all enqueued at time 100, built with β = 0.1. -/
def scenarioD_B : Except String CandidateGame :=
  mkCandidateGame ⟨200, 12, 100, none⟩ [⟨200, 12, 100, none⟩, ⟨201, 18, 100, none⟩]
    [⟨202, 12, 100, none⟩, ⟨203, 18, 100, none⟩] .one .one (1 / 10) (some (1 / 10))

/-- Claim C6: a candidate game built with a queue weight `β` gets
priority `imbalance + β · min enqueue-time over team_x ∪ team_y`; the
game order compares by priority when both games have one and by imbalance
otherwise; and in scenario D the game with imbalance 5 and oldest
enqueue 0 (priority 5) orders below the game with imbalance 3 and oldest
enqueue 100 (priority 13). -/
theorem C6_priority_and_order :
    (∀ (anchor : Player) (tx ty : List Player) (p q : PNorm) (α β : ℚ)
        (g : CandidateGame) (m : ℚ),
      mkCandidateGame anchor tx ty p q α (some β) = .ok g →
      ((punion tx ty).map Player.enqueue_time).min? = some m →
      g.priority = some (g.imbalance + β * m))
    ∧ (∀ (g₁ g₂ : CandidateGame) (a b : ℚ),
        g₁.priority = some a → g₂.priority = some b →
        (cgLt g₁ g₂ = true ↔ a < b))
    ∧ (∀ g₁ g₂ : CandidateGame, g₁.priority = none ∨ g₂.priority = none →
        (cgLt g₁ g₂ = true ↔ g₁.imbalance < g₂.imbalance))
    ∧ ((do
          let a ← scenarioD_A
          let b ← scenarioD_B
          pure (a.imbalance, a.priority, b.imbalance, b.priority, cgLt a b)
          : Except String (ℚ × Option ℚ × ℚ × Option ℚ × Bool))
        = .ok (5, some 5, 3, some 13, true)) := by
  refine ⟨?_, ?_, ?_, ?_⟩
  · intro anchor tx ty p q α β g m hmk hmin
    unfold mkCandidateGame at hmk
    cases himb : imbalance tx ty p q α with
    | error e => rw [himb] at hmk; exact absurd hmk (by simp [Bind.bind, Except.bind])
    | ok f =>
      rw [himb] at hmk
      unfold priority at hmk
      cases hl : (punion tx ty).map Player.enqueue_time with
      | nil => rw [hl] at hmk; exact absurd hmk (by simp [Bind.bind, Except.bind])
      | cons e es =>
        rw [hl] at hmk
        simp only [Bind.bind, Except.bind, pure, Except.pure] at hmk
        cases hmk
        rw [hl] at hmin
        simp only [List.min?] at hmin
        cases hmin
        rfl
  · intro g₁ g₂ a b h₁ h₂
    simp [cgLt, h₁, h₂]
  · intro g₁ g₂ h
    rcases h with h | h <;> cases h₁ : g₁.priority <;> cases h₂ : g₂.priority <;>
      simp_all [cgLt]
  · with_unfolding_all rfl

/-- The scenario-D games as explicit records (the values
`mkCandidateGame` computes for `scenarioD_A` / `scenarioD_B`). -/
def gameD_A : CandidateGame :=
  ⟨⟨100, 10, 0, none⟩, [⟨100, 10, 0, none⟩, ⟨101, 20, 0, none⟩],
    [⟨102, 10, 0, none⟩, ⟨103, 20, 0, none⟩], 5, some 5⟩

/-- The second scenario-D game as an explicit record. -/
def gameD_B : CandidateGame :=
  ⟨⟨200, 12, 100, none⟩, [⟨200, 12, 100, none⟩, ⟨201, 18, 100, none⟩],
    [⟨202, 12, 100, none⟩, ⟨203, 18, 100, none⟩], 3, some 13⟩

/-- Witness for C6: the priority formula and both comparison rules hold
on the concrete scenario-D games. -/
theorem C6_witness :
    scenarioD_A = .ok gameD_A
    ∧ gameD_A.priority = some (gameD_A.imbalance + (1 / 10) * 0)
    ∧ (cgLt gameD_A gameD_B = true ↔ (5 : ℚ) < 13)
    ∧ (cgLt ⟨⟨0, 1, 0, none⟩, [], [], 2, none⟩ ⟨⟨1, 2, 0, none⟩, [], [], 3, none⟩
        = true ↔ (2 : ℚ) < 3) := by
  refine ⟨by with_unfolding_all rfl, ?_, ?_, ?_⟩
  · exact C6_priority_and_order.1 ⟨100, 10, 0, none⟩
      [⟨100, 10, 0, none⟩, ⟨101, 20, 0, none⟩]
      [⟨102, 10, 0, none⟩, ⟨103, 20, 0, none⟩] .one .one (1 / 10)
      (1 / 10) gameD_A 0 (by with_unfolding_all rfl) (by with_unfolding_all rfl)
  · exact C6_priority_and_order.2.1 gameD_A gameD_B 5 13 rfl rfl
  · exact C6_priority_and_order.2.2.1 _ _ (Or.inl rfl)


/-! Helper facts for C10: the tree built from a non-empty list is
non-empty, so the greedy solver always enters its first iteration. -/

theorem left_rotate_ne_leaf (t : AVLTree) (ht : t ≠ .leaf) :
    SortedSet.left_rotate t ≠ .leaf := by
  unfold SortedSet.left_rotate
  split
  · simp [SortedSet.update_node]
  · exact ht

theorem right_rotate_ne_leaf (t : AVLTree) (ht : t ≠ .leaf) :
    SortedSet.right_rotate t ≠ .leaf := by
  unfold SortedSet.right_rotate
  split
  · simp [SortedSet.update_node]
  · exact ht

theorem insert_rebalance_ne_leaf (t : AVLTree) (v : Player) (ht : t ≠ .leaf) :
    SortedSet.insert_rebalance t v ≠ .leaf := by
  unfold SortedSet.insert_rebalance
  split
  · split
    · split
      · exact right_rotate_ne_leaf _ (by simp)
      · split
        · exact right_rotate_ne_leaf _ (by simp [SortedSet.update_node])
        · simp
    · exact ht
  · split
    · split
      · split
        · exact left_rotate_ne_leaf _ (by simp)
        · split
          · exact left_rotate_ne_leaf _ (by simp [SortedSet.update_node])
          · simp
      · exact ht
    · exact ht

theorem insert_ne_leaf (t : AVLTree) (p : Player) :
    SortedSet.insert t p ≠ .leaf := by
  cases t with
  | leaf => simp [SortedSet.insert]
  | node q l r h s =>
    unfold SortedSet.insert
    split
    · exact insert_rebalance_ne_leaf _ _ (by simp [SortedSet.update_node])
    · split
      · exact insert_rebalance_ne_leaf _ _ (by simp [SortedSet.update_node])
      · simp

theorem foldl_add_ne_leaf (l : List Player) (t : AVLTree) (ht : t ≠ .leaf) :
    List.foldl SortedSet.add t l ≠ .leaf := by
  induction l generalizing t with
  | nil => exact ht
  | cons x xs ih => exact ih _ (insert_ne_leaf t x)

theorem inorder_ne_nil (t : AVLTree) (ht : t ≠ .leaf) :
    SortedSet.inorder t ≠ [] := by
  cases t with
  | leaf => exact absurd rfl ht
  | node p l r h s => simp [SortedSet.inorder]

/-- Claim C10: with `p_norm = ∞`, `team_p_skill` of an empty team raises
`ValueError`, and the greedy solver evaluates `p_fairness` with team_y
still empty on its very first iteration, so greedy partitioning fails
for every anchor and candidate set instead of returning a game. -/
theorem C10_greedy_inf_fails (cfg : Config) (anchor_player : Player)
    (remaining_players : List Player) (hp : cfg.p_norm = .inf)
    (hk : 1 ≤ cfg.team_size) :
    greedy_balanced_partition cfg anchor_player remaining_players
      = .error "ValueError" := by
  unfold greedy_balanced_partition
  have hne : SortedSet.inorder
      (List.foldl SortedSet.add .leaf (punion [anchor_player] remaining_players))
      ≠ [] := by
    apply inorder_ne_nil
    have hpu : punion [anchor_player] remaining_players
        = anchor_player :: remaining_players.filter
            (fun p => !(pmem p [anchor_player])) := rfl
    rw [hpu, List.foldl_cons]
    exact foldl_add_ne_leaf _ _ (insert_ne_leaf _ _)
  have hrev : (SortedSet.inorder
      (List.foldl SortedSet.add .leaf
        (punion [anchor_player] remaining_players))).reverse ≠ [] := by
    simpa using hne
  cases hl : (SortedSet.inorder
      (List.foldl SortedSet.add .leaf
        (punion [anchor_player] remaining_players))).reverse with
  | nil => exact absurd hl hrev
  | cons hd tl =>
    have hloop : greedy_loop cfg (hd :: tl) [] [] = .error "ValueError" := by
      unfold greedy_loop
      rw [if_pos ⟨by simpa using hk, by simpa using hk⟩]
      simp [p_fairness, team_p_skill, hp, punion, pmem, Bind.bind, Except.bind]
    simp only [hl, hloop, Bind.bind, Except.bind]

/-- Witness for C10: the greedy solver with `p = ∞` fails on the concrete
default-sized configuration and a concrete anchor and candidate set. -/
theorem C10_witness :
    greedy_balanced_partition ⟨2, .inf, .one, 1 / 10, true⟩ (mkP 0 5)
      [mkP 1 9, mkP 2 7, mkP 3 8] = .error "ValueError" :=
  C10_greedy_inf_fails ⟨2, .inf, .one, 1 / 10, true⟩ (mkP 0 5)
    [mkP 1 9, mkP 2 7, mkP 3 8] rfl (by decide)

/-! ## Pool infrastructure: the AVL tree implements a sorted list

The `(skill, id)` key order, the invariants of reachable trees (sorted
in-order traversal, consistent cached sizes and heights, AVL balance), and
the characterization of the tree operations on the in-order traversal. -/

/-- The strict `(skill, id)` order as a proposition. -/
def keyLt (a b : Player) : Prop :=
  a.skill < b.skill ∨ (a.skill = b.skill ∧ a.id < b.id)

instance (a b : Player) : Decidable (keyLt a b) := by
  unfold keyLt; infer_instance

/-- Key equality: same skill and id. -/
def keyEq (a b : Player) : Prop := a.skill = b.skill ∧ a.id = b.id

instance (a b : Player) : Decidable (keyEq a b) := by
  unfold keyEq; infer_instance

theorem player_lt_iff (a b : Player) : a.lt b = true ↔ keyLt a b := by
  simp [Player.lt, keyLt]

theorem player_gt_iff (a b : Player) : a.gt b = true ↔ keyLt b a := by
  simp [Player.gt, keyLt]

theorem keyLt_trans {a b c : Player} (h₁ : keyLt a b) (h₂ : keyLt b c) :
    keyLt a c := by
  unfold keyLt at *
  rcases h₁ with h₁ | ⟨e₁, i₁⟩ <;> rcases h₂ with h₂ | ⟨e₂, i₂⟩
  · exact Or.inl (h₁.trans h₂)
  · exact Or.inl (e₂ ▸ h₁)
  · exact Or.inl (e₁ ▸ h₂)
  · exact Or.inr ⟨e₁.trans e₂, i₁.trans i₂⟩

theorem keyLt_irrefl (a : Player) : ¬ keyLt a a := by
  unfold keyLt; omega

theorem keyLt_asymm {a b : Player} (h : keyLt a b) : ¬ keyLt b a := by
  intro h'
  exact keyLt_irrefl a (keyLt_trans h h')

theorem keyLt_trichotomy (a b : Player) :
    keyLt a b ∨ keyEq a b ∨ keyLt b a := by
  unfold keyLt keyEq; omega

/-- Invariant: the in-order traversal is strictly ascending in the key
order (this is what being a binary search tree over `(skill, id)` means
extensionally). -/
def SortedT (t : AVLTree) : Prop :=
  (SortedSet.inorder t).Pairwise keyLt

/-- Invariant: every cached subtree size is consistent. -/
def sizeOK : AVLTree → Bool
  | .leaf => true
  | .node _ l r _ s =>
    (s == SortedSet.get_size l + SortedSet.get_size r + 1) && sizeOK l && sizeOK r

/-- Invariant: every cached subtree height is consistent. -/
def heightOK : AVLTree → Bool
  | .leaf => true
  | .node _ l r h _ =>
    (h == 1 + max (SortedSet.get_height l) (SortedSet.get_height r))
      && heightOK l && heightOK r

/-- Invariant: AVL balance (with respect to the cached heights). -/
def balancedT : AVLTree → Bool
  | .leaf => true
  | .node _ l r _ _ =>
    decide (((SortedSet.get_height l : Int) - (SortedSet.get_height r : Int)).natAbs ≤ 1)
      && balancedT l && balancedT r

theorem sorted_node {p : Player} {l r : AVLTree} {h s : Nat}
    (hs : SortedT (.node p l r h s)) :
    SortedT l ∧ SortedT r
    ∧ (∀ x ∈ SortedSet.inorder l, keyLt x p)
    ∧ (∀ x ∈ SortedSet.inorder r, keyLt p x)
    ∧ (∀ x ∈ SortedSet.inorder l, ∀ y ∈ SortedSet.inorder r, keyLt x y) := by
  unfold SortedT at *
  simp only [SortedSet.inorder] at hs
  rw [List.pairwise_append] at hs
  obtain ⟨hl, hpr, hcross⟩ := hs
  rw [List.pairwise_cons] at hpr
  refine ⟨hl, hpr.2, ?_, hpr.1, ?_⟩
  · intro x hx
    exact hcross x hx p (by simp)
  · intro x hx y hy
    exact hcross x hx y (by simp [hy])

theorem inorder_update_node (p : Player) (l r : AVLTree) :
    SortedSet.inorder (SortedSet.update_node p l r)
      = SortedSet.inorder l ++ p :: SortedSet.inorder r := by
  simp [SortedSet.update_node, SortedSet.inorder]

theorem inorder_left_rotate (t : AVLTree) :
    SortedSet.inorder (SortedSet.left_rotate t) = SortedSet.inorder t := by
  unfold SortedSet.left_rotate
  split
  · simp [inorder_update_node, SortedSet.inorder]
  · rfl

theorem inorder_right_rotate (t : AVLTree) :
    SortedSet.inorder (SortedSet.right_rotate t) = SortedSet.inorder t := by
  unfold SortedSet.right_rotate
  split
  · simp [inorder_update_node, SortedSet.inorder]
  · rfl

theorem inorder_insert_rebalance (t : AVLTree) (v : Player) :
    SortedSet.inorder (SortedSet.insert_rebalance t v) = SortedSet.inorder t := by
  unfold SortedSet.insert_rebalance
  split
  · split
    · split
      · rw [inorder_right_rotate]
      · split
        · rw [inorder_right_rotate, inorder_update_node, inorder_left_rotate]
          simp [SortedSet.inorder]
        · rfl
    · rfl
  · split
    · split
      · split
        · rw [inorder_left_rotate]
        · split
          · rw [inorder_left_rotate, inorder_update_node, inorder_right_rotate]
            simp [SortedSet.inorder]
          · rfl
      · rfl
    · rfl

/-- The reference insertion on the in-order list: walk to the first
position where the key fits; on an exact key match leave the list
unchanged (mirroring the tree insert's no-op branch). -/
def keyInsert : List Player → Player → List Player
  | [], v => [v]
  | x :: xs, v =>
    if keyLt v x then v :: x :: xs
    else if keyLt x v then x :: keyInsert xs v
    else x :: xs

theorem keyInsert_append_left {v p : Player} (A B : List Player)
    (hvp : keyLt v p) :
    keyInsert (A ++ p :: B) v = keyInsert A v ++ p :: B := by
  induction A with
  | nil => simp [keyInsert, hvp]
  | cons x xs ih =>
    simp only [List.cons_append, keyInsert]
    by_cases h₁ : keyLt v x
    · simp [h₁]
    · by_cases h₂ : keyLt x v
      · simp [h₁, h₂, ih]
      · simp [h₁, h₂]

theorem keyInsert_append_right {v p : Player} (A B : List Player)
    (hpv : keyLt p v) (hA : ∀ x ∈ A, keyLt x v) :
    keyInsert (A ++ p :: B) v = A ++ p :: keyInsert B v := by
  induction A with
  | nil =>
    simp only [List.nil_append, keyInsert]
    rw [if_neg (keyLt_asymm hpv), if_pos hpv]
  | cons x xs ih =>
    have hxv : keyLt x v := hA x (by simp)
    simp only [List.cons_append, keyInsert]
    rw [if_neg (keyLt_asymm hxv), if_pos hxv]
    simp only [List.append_eq]
    rw [ih (fun y hy => hA y (by simp [hy]))]

theorem keyInsert_keyEq {v p : Player} (A B : List Player)
    (hvp : keyEq v p) (hA : ∀ x ∈ A, keyLt x p) :
    keyInsert (A ++ p :: B) v = A ++ p :: B := by
  have hkey : v.skill = p.skill ∧ v.id = p.id := hvp
  induction A with
  | nil =>
    simp only [List.nil_append, keyInsert]
    rw [if_neg (by unfold keyLt; omega), if_neg (by unfold keyLt; omega)]
  | cons x xs ih =>
    have hxp : keyLt x p := hA x (by simp)
    have hxv : keyLt x v := by unfold keyLt at *; omega
    simp only [List.cons_append, keyInsert]
    rw [if_neg (keyLt_asymm hxv), if_pos hxv]
    simp only [List.append_eq]
    rw [ih (fun y hy => hA y (by simp [hy]))]

/-- The tree insert acts on the in-order traversal as `keyInsert`. -/
theorem inorder_insert (t : AVLTree) (v : Player) (hs : SortedT t) :
    SortedSet.inorder (SortedSet.insert t v)
      = keyInsert (SortedSet.inorder t) v := by
  induction t with
  | leaf => simp [SortedSet.insert, SortedSet.inorder, keyInsert]
  | node p l r h s ihl ihr =>
    obtain ⟨hsl, hsr, hbl, hbr, _⟩ := sorted_node hs
    unfold SortedSet.insert
    by_cases hlt : v.lt p
    · rw [if_pos hlt, inorder_insert_rebalance, inorder_update_node, ihl hsl]
      have hvp : keyLt v p := (player_lt_iff v p).mp hlt
      simp only [SortedSet.inorder]
      rw [keyInsert_append_left _ _ hvp]
    · rw [if_neg hlt]
      by_cases hgt : v.gt p
      · rw [if_pos hgt, inorder_insert_rebalance, inorder_update_node, ihr hsr]
        have hpv : keyLt p v := (player_gt_iff v p).mp hgt
        simp only [SortedSet.inorder]
        rw [keyInsert_append_right _ _ hpv
          (fun x hx => keyLt_trans (hbl x hx) hpv)]
      · rw [if_neg hgt]
        have hvp : keyEq v p := by
          have h₁ : ¬ keyLt v p := fun hq => hlt ((player_lt_iff v p).mpr hq)
          have h₂ : ¬ keyLt p v := fun hq => hgt ((player_gt_iff v p).mpr hq)
          unfold keyLt keyEq at *
          omega
        simp only [SortedSet.inorder]
        rw [keyInsert_keyEq _ _ hvp hbl]

theorem mem_keyInsert {y v : Player} : ∀ {l : List Player},
    y ∈ keyInsert l v → y ∈ l ∨ y = v := by
  intro l
  induction l with
  | nil => intro h; simp [keyInsert] at h; exact Or.inr h
  | cons x xs ih =>
    intro h
    unfold keyInsert at h
    split at h
    · rcases List.mem_cons.mp h with h | h
      · exact Or.inr h
      · exact Or.inl h
    · split at h
      · rcases List.mem_cons.mp h with h | h
        · exact Or.inl (by simp [h])
        · rcases ih h with h' | h'
          · exact Or.inl (by simp [h'])
          · exact Or.inr h'
      · exact Or.inl h

theorem keyInsert_sorted {v : Player} : ∀ {l : List Player},
    l.Pairwise keyLt → (keyInsert l v).Pairwise keyLt := by
  intro l
  induction l with
  | nil => intro _; simp [keyInsert]
  | cons x xs ih =>
    intro hp
    rw [List.pairwise_cons] at hp
    unfold keyInsert
    split
    · rename_i hvx
      rw [List.pairwise_cons]
      refine ⟨?_, List.pairwise_cons.mpr hp⟩
      intro y hy
      rcases List.mem_cons.mp hy with hy | hy
      · exact hy ▸ hvx
      · exact keyLt_trans hvx (hp.1 y hy)
    · split
      · rename_i hnvx hxv
        rw [List.pairwise_cons]
        refine ⟨?_, ih hp.2⟩
        intro y hy
        rcases mem_keyInsert hy with h' | h'
        · exact hp.1 y h'
        · exact h' ▸ hxv
      · exact List.pairwise_cons.mpr hp

theorem keyInsert_perm_fresh {v : Player} : ∀ {l : List Player},
    (∀ x ∈ l, ¬ keyEq x v) → (keyInsert l v).Perm (v :: l) := by
  intro l
  induction l with
  | nil => intro _; simp [keyInsert]
  | cons x xs ih =>
    intro hf
    unfold keyInsert
    split
    · exact List.Perm.refl _
    · split
      · exact ((ih (fun y hy => hf y (by simp [hy]))).cons x).trans
          (List.Perm.swap v x xs)
      · rename_i h₁ h₂
        exact absurd (by unfold keyLt keyEq at *; omega) (hf x (by simp))

theorem SortedT_insert {t : AVLTree} {v : Player} (hs : SortedT t) :
    SortedT (SortedSet.insert t v) := by
  unfold SortedT
  rw [inorder_insert t v hs]
  exact keyInsert_sorted hs

theorem foldl_keyInsert_perm : ∀ (l acc : List Player),
    (acc ++ l).Pairwise (fun a b => ¬ keyEq a b) →
    (List.foldl keyInsert acc l).Perm (acc ++ l) := by
  intro l
  induction l with
  | nil => intro acc _; simp
  | cons x xs ih =>
    intro acc hp
    have hfresh : ∀ y ∈ acc, ¬ keyEq y x :=
      fun y hy => (List.pairwise_append.mp hp).2.2 y hy x (by simp)
    have hperm : (keyInsert acc x).Perm (x :: acc) := keyInsert_perm_fresh hfresh
    have hsymm : ∀ a b : Player, ¬ keyEq a b → ¬ keyEq b a := by
      intro a b hab hba
      exact hab (by unfold keyEq at *; omega)
    have hmid : ((x :: acc) ++ xs).Perm (acc ++ x :: xs) := by
      show (x :: (acc ++ xs)).Perm (acc ++ x :: xs)
      exact List.perm_middle.symm
    have hp' : (keyInsert acc x ++ xs).Pairwise (fun a b => ¬ keyEq a b) := by
      refine ((hperm.append_right xs).pairwise_iff (hsymm _ _)).mpr ?_
      exact (hmid.pairwise_iff (hsymm _ _)).mpr hp
    exact (ih _ hp').trans ((hperm.append_right xs).trans hmid)

theorem sizeOK_update_node {p : Player} {l r : AVLTree}
    (hl : sizeOK l = true) (hr : sizeOK r = true) :
    sizeOK (SortedSet.update_node p l r) = true := by
  simp only [SortedSet.update_node, sizeOK, Bool.and_eq_true, beq_iff_eq]
  exact ⟨⟨by omega, hl⟩, hr⟩

theorem sizeOK_node_parts {p : Player} {l r : AVLTree} {hh ss : Nat}
    (h : sizeOK (.node p l r hh ss) = true) :
    sizeOK l = true ∧ sizeOK r = true := by
  simp only [sizeOK, Bool.and_eq_true, beq_iff_eq] at h
  exact ⟨h.1.2, h.2⟩

theorem sizeOK_left_rotate {t : AVLTree} (h : sizeOK t = true) :
    sizeOK (SortedSet.left_rotate t) = true := by
  unfold SortedSet.left_rotate
  split
  · rename_i p l rp rl rr rh rs
    obtain ⟨hl, hr⟩ := sizeOK_node_parts h
    obtain ⟨hrl, hrr⟩ := sizeOK_node_parts hr
    exact sizeOK_update_node (sizeOK_update_node hl hrl) hrr
  · exact h

theorem sizeOK_right_rotate {t : AVLTree} (h : sizeOK t = true) :
    sizeOK (SortedSet.right_rotate t) = true := by
  unfold SortedSet.right_rotate
  split
  · rename_i p lp ll lr lh ls r
    obtain ⟨hl, hr⟩ := sizeOK_node_parts h
    obtain ⟨hll, hlr⟩ := sizeOK_node_parts hl
    exact sizeOK_update_node hll (sizeOK_update_node hlr hr)
  · exact h

theorem sizeOK_insert_rebalance {t : AVLTree} {v : Player}
    (h : sizeOK t = true) :
    sizeOK (SortedSet.insert_rebalance t v) = true := by
  unfold SortedSet.insert_rebalance
  split
  · split
    · rename_i heq
      obtain ⟨hl, hr⟩ := sizeOK_node_parts h
      obtain ⟨hll, hlr⟩ := sizeOK_node_parts hl
      split
      · exact sizeOK_right_rotate h
      · split
        · exact sizeOK_right_rotate
            (sizeOK_update_node (sizeOK_left_rotate hl) hr)
        · exact h
    · exact h
  · split
    · split
      · rename_i heq
        obtain ⟨hl, hr⟩ := sizeOK_node_parts h
        obtain ⟨hrl, hrr⟩ := sizeOK_node_parts hr
        split
        · exact sizeOK_left_rotate h
        · split
          · exact sizeOK_left_rotate
              (sizeOK_update_node hl (sizeOK_right_rotate hr))
          · exact h
      · exact h
    · exact h

theorem sizeOK_insert {t : AVLTree} {v : Player} (h : sizeOK t = true) :
    sizeOK (SortedSet.insert t v) = true := by
  induction t with
  | leaf => rfl
  | node p l r hh ss ihl ihr =>
    obtain ⟨hl, hr⟩ := sizeOK_node_parts h
    unfold SortedSet.insert
    split
    · exact sizeOK_insert_rebalance (sizeOK_update_node (ihl hl) hr)
    · split
      · exact sizeOK_insert_rebalance (sizeOK_update_node hl (ihr hr))
      · exact h

theorem get_size_eq {t : AVLTree} (h : sizeOK t = true) :
    SortedSet.get_size t = (SortedSet.inorder t).length := by
  induction t with
  | leaf => rfl
  | node p l r hh ss ihl ihr =>
    obtain ⟨hl, hr⟩ := sizeOK_node_parts h
    have hs : ss = SortedSet.get_size l + SortedSet.get_size r + 1 := by
      simp only [sizeOK, Bool.and_eq_true, beq_iff_eq] at h
      exact h.1.1
    simp only [SortedSet.get_size, SortedSet.inorder, List.length_append,
      List.length_cons]
    rw [hs, ihl hl, ihr hr]
    omega

theorem length_eq {t : AVLTree} (h : sizeOK t = true) :
    SortedSet.length t = (SortedSet.inorder t).length :=
  get_size_eq h

theorem get_by_index_eq {t : AVLTree} (h : sizeOK t = true) (i : Nat) :
    SortedSet.get_by_index t i = (SortedSet.inorder t)[i]? := by
  induction t generalizing i with
  | leaf => simp [SortedSet.get_by_index, SortedSet.inorder]
  | node p l r hh ss ihl ihr =>
    obtain ⟨hl, hr⟩ := sizeOK_node_parts h
    have hlen : SortedSet.get_size l = (SortedSet.inorder l).length :=
      get_size_eq hl
    unfold SortedSet.get_by_index
    simp only [SortedSet.inorder]
    by_cases hi : i < SortedSet.get_size l
    · rw [if_pos hi, ihl hl, List.getElem?_append_left (by omega)]
    · rw [if_neg hi]
      by_cases hie : i = SortedSet.get_size l
      · rw [if_pos hie, List.getElem?_append_right (by omega)]
        subst hie
        rw [hlen]
        simp
      · rw [if_neg hie, ihr hr, List.getElem?_append_right (by omega)]
        obtain ⟨j, rfl⟩ : ∃ j, i = SortedSet.get_size l + 1 + j :=
          ⟨i - SortedSet.get_size l - 1, by omega⟩
        have harith : SortedSet.get_size l + 1 + j - (SortedSet.inorder l).length
            = j + 1 := by omega
        rw [harith, List.getElem?_cons_succ]
        congr 1
        omega

theorem map_range_getElem (l : List Player) (s : Nat) : ∀ c : Nat,
    s + c ≤ l.length →
    (List.range c).map (fun i => l[s + i]?) = ((l.drop s).take c).map some := by
  intro c
  induction c with
  | zero => intro _; simp
  | succ c ih =>
    intro h
    rw [List.range_succ, List.map_append, ih (by omega), List.take_succ,
      List.map_append]
    obtain ⟨v, hv⟩ : ∃ v, (l.drop s)[c]? = some v := by
      have : c < (l.drop s).length := by simp; omega
      exact ⟨(l.drop s)[c], List.getElem?_eq_getElem this⟩
    have hv' : l[s + c]? = some v := by
      rw [← List.getElem?_drop]; exact hv
    simp [hv, hv']

theorem slice_indices_le (lo hi : Int) (n : Nat) :
    (SortedSet.slice_indices lo hi n).1 ≤ n
    ∧ (SortedSet.slice_indices lo hi n).2 ≤ n := by
  unfold SortedSet.slice_indices
  constructor <;> split <;> simp <;> omega

theorem getitem_slice_eq {t : AVLTree} (h : sizeOK t = true) (lo hi : Int) :
    SortedSet.getitem_slice t lo hi =
      (((SortedSet.inorder t).drop
          (SortedSet.slice_indices lo hi (SortedSet.length t)).1).take
        ((SortedSet.slice_indices lo hi (SortedSet.length t)).2
          - (SortedSet.slice_indices lo hi (SortedSet.length t)).1)).map some := by
  unfold SortedSet.getitem_slice
  have hle := slice_indices_le lo hi (SortedSet.length t)
  have hlen : SortedSet.length t = (SortedSet.inorder t).length := length_eq h
  have hcong : ∀ i : Nat,
      SortedSet.get_by_index t
          ((SortedSet.slice_indices lo hi (SortedSet.length t)).1 + i)
        = (SortedSet.inorder t)[(SortedSet.slice_indices lo hi
            (SortedSet.length t)).1 + i]? := fun i => get_by_index_eq h _
  simp only [hcong]
  exact map_range_getElem _ _ _ (by omega)

theorem mapM_loop_map_some (l : List Player) : ∀ acc : List Player,
    List.mapM.loop
      (fun x : Option Player => match x with
        | some p => Except.ok p
        | none => Except.error "TypeError")
      (l.map some) acc
    = (Except.ok (acc.reverse ++ l) : Except String (List Player)) := by
  induction l with
  | nil => intro acc; simp [List.mapM.loop]; rfl
  | cons x xs ih =>
    intro acc
    simp only [List.map_cons, List.mapM.loop]
    show List.mapM.loop
        (fun x : Option Player => match x with
          | some p => Except.ok p
          | none => Except.error "TypeError")
        (List.map some xs) (x :: acc)
      = (Except.ok (acc.reverse ++ x :: xs) : Except String (List Player))
    rw [ih (x :: acc)]
    simp

theorem mapM_map_some (l : List Player) :
    (l.map some).mapM
      (fun x : Option Player => match x with
        | some p => Except.ok p
        | none => Except.error "TypeError")
    = (Except.ok l : Except String (List Player)) := by
  unfold List.mapM
  rw [mapM_loop_map_some l []]
  rfl

theorem sliceP_eq {t : AVLTree} (h : sizeOK t = true) (lo hi : Int) :
    sliceP t lo hi = .ok
      (((SortedSet.inorder t).drop
          (SortedSet.slice_indices lo hi (SortedSet.length t)).1).take
        ((SortedSet.slice_indices lo hi (SortedSet.length t)).2
          - (SortedSet.slice_indices lo hi (SortedSet.length t)).1)) := by
  unfold sliceP
  rw [getitem_slice_eq h]
  exact mapM_map_some _

theorem keyEq_not_lt {a b : Player} (h : keyEq a b) : ¬ keyLt a b := by
  unfold keyEq at h; unfold keyLt; omega

theorem keyEq_lt_left {a b c : Player} (he : keyEq a b) (h : keyLt c a) :
    keyLt c b := by
  unfold keyEq at he; unfold keyLt at *; omega

theorem keyEq_lt_right {a b c : Player} (he : keyEq a b) (h : keyLt a c) :
    keyLt b c := by
  unfold keyEq at he; unfold keyLt at *; omega

theorem index_helper_eq {t : AVLTree} (hs : SortedT t) (hsz : sizeOK t = true)
    {v : Player} (hv : ∃ x ∈ SortedSet.inorder t, keyEq x v) :
    ∀ acc : Nat, SortedSet.index_helper t v acc
      = ((acc + (SortedSet.inorder t).countP (fun x => decide (keyLt x v))
          : Nat) : Int) := by
  induction t with
  | leaf => simp [SortedSet.inorder] at hv
  | node p l r hh ss ihl ihr =>
    intro acc
    obtain ⟨hsl, hsr, hbl, hbr, _⟩ := sorted_node hs
    obtain ⟨hzl, hzr⟩ := sizeOK_node_parts hsz
    have hlsize : SortedSet.get_size l = (SortedSet.inorder l).length :=
      get_size_eq hzl
    unfold SortedSet.index_helper
    simp only [SortedSet.inorder, List.countP_append, List.countP_cons]
    by_cases hlt : v.lt p
    · rw [if_pos hlt]
      have hvp : keyLt v p := (player_lt_iff v p).mp hlt
      have hv' : ∃ x ∈ SortedSet.inorder l, keyEq x v := by
        obtain ⟨x, hx, hxe⟩ := hv
        simp only [SortedSet.inorder, List.mem_append, List.mem_cons] at hx
        rcases hx with hx | hx | hx
        · exact ⟨x, hx, hxe⟩
        · subst hx
          exact absurd hvp (by unfold keyEq at hxe; unfold keyLt; omega)
        · have h1 := hbr x hx
          exact absurd hvp (by unfold keyEq at hxe; unfold keyLt at *; omega)
      have hBzero : (SortedSet.inorder r).countP
          (fun x => decide (keyLt x v)) = 0 := by
        rw [List.countP_eq_zero]
        intro x hx
        simp only [decide_eq_true_eq]
        intro hxv
        exact keyLt_asymm (keyLt_trans hvp (hbr x hx)) hxv
      have hpzero : ¬ keyLt p v := keyLt_asymm hvp
      rw [ihl hsl hzl hv' acc, hBzero]
      simp [hpzero]
    · rw [if_neg hlt]
      by_cases hgt : v.gt p
      · rw [if_pos hgt]
        have hpv : keyLt p v := (player_gt_iff v p).mp hgt
        have hv' : ∃ x ∈ SortedSet.inorder r, keyEq x v := by
          obtain ⟨x, hx, hxe⟩ := hv
          simp only [SortedSet.inorder, List.mem_append, List.mem_cons] at hx
          rcases hx with hx | hx | hx
          · exact absurd (keyEq_lt_right hxe (hbl x hx))
              (keyLt_asymm (by
                unfold keyEq at hxe; unfold keyLt at hpv ⊢
                have := hbl x hx; unfold keyLt at this; omega))
          · subst hx
            exact absurd hpv (keyEq_not_lt (by unfold keyEq at hxe ⊢; omega))
          · exact ⟨x, hx, hxe⟩
        have hAfull : (SortedSet.inorder l).countP
            (fun x => decide (keyLt x v)) = (SortedSet.inorder l).length := by
          rw [List.countP_eq_length]
          intro x hx
          simp only [decide_eq_true_eq]
          exact keyLt_trans (hbl x hx) hpv
        rw [ihr hsr hzr hv' (acc + SortedSet.get_size l + 1), hAfull, hlsize]
        simp [hpv]
        omega
      · rw [if_neg hgt]
        have hvp : keyEq v p := by
          have h₁ : ¬ keyLt v p := fun hq => hlt ((player_lt_iff v p).mpr hq)
          have h₂ : ¬ keyLt p v := fun hq => hgt ((player_gt_iff v p).mpr hq)
          unfold keyLt keyEq at *; omega
        have hAfull : (SortedSet.inorder l).countP
            (fun x => decide (keyLt x v)) = (SortedSet.inorder l).length := by
          rw [List.countP_eq_length]
          intro x hx
          simp only [decide_eq_true_eq]
          have := hbl x hx
          unfold keyEq at hvp; unfold keyLt at *; omega
        have hBzero : (SortedSet.inorder r).countP
            (fun x => decide (keyLt x v)) = 0 := by
          rw [List.countP_eq_zero]
          intro x hx
          simp only [decide_eq_true_eq]
          have := hbr x hx
          unfold keyEq at hvp; unfold keyLt at *; omega
        have hpno : ¬ keyLt p v := by
          unfold keyEq at hvp; unfold keyLt; omega
        rw [hAfull, hBzero, hlsize]
        simp [hpno]

theorem index_eq {t : AVLTree} (hs : SortedT t) (hsz : sizeOK t = true)
    {v : Player} (hv : ∃ x ∈ SortedSet.inorder t, keyEq x v) :
    SortedSet.index t v
      = .ok ((SortedSet.inorder t).countP (fun x => decide (keyLt x v))) := by
  unfold SortedSet.index
  rw [index_helper_eq hs hsz hv 0]
  simp

theorem containsP_of_mem {t : AVLTree} (hs : SortedT t) {v : Player}
    (hv : v ∈ SortedSet.inorder t) : SortedSet.containsP t v = true := by
  induction t with
  | leaf => simp [SortedSet.inorder] at hv
  | node p l r hh ss ihl ihr =>
    obtain ⟨hsl, hsr, hbl, hbr, _⟩ := sorted_node hs
    unfold SortedSet.containsP
    by_cases hid : v.id = p.id
    · simp [hid]
    · rw [if_neg (by simpa using hid)]
      simp only [SortedSet.inorder, List.mem_append, List.mem_cons] at hv
      by_cases hlt : v.lt p
      · rw [if_pos hlt]
        have hvp : keyLt v p := (player_lt_iff v p).mp hlt
        rcases hv with hv | hv | hv
        · exact ihl hsl hv
        · exact absurd (hv ▸ rfl) hid
        · exact absurd (hbr v hv) (keyLt_asymm hvp)
      · rw [if_neg hlt]
        rcases hv with hv | hv | hv
        · exact absurd ((player_lt_iff v p).mpr (hbl v hv)) hlt
        · exact absurd (hv ▸ rfl) hid
        · exact ihr hsr hv

/-! ## Claim C2: partition solver invariants -/

theorem mem_combinations {α : Type} : ∀ (l : List α) (n : Nat) (c : List α),
    c ∈ combinations l n → c.length = n ∧ c.Sublist l := by
  intro l
  induction l with
  | nil =>
    intro n c hc
    cases n with
    | zero => simp [combinations] at hc; simp [hc]
    | succ n => simp [combinations] at hc
  | cons x xs ih =>
    intro n c hc
    cases n with
    | zero => simp [combinations] at hc; simp [hc]
    | succ n =>
      simp only [combinations, List.mem_append, List.mem_map] at hc
      rcases hc with ⟨c', hc', rfl⟩ | hc
      · obtain ⟨hlen, hsub⟩ := ih n c' hc'
        exact ⟨by simp [hlen], List.Sublist.cons₂ x hsub⟩
      · obtain ⟨hlen, hsub⟩ := ih (n + 1) c hc
        exact ⟨hlen, hsub.cons x⟩

theorem length_filter_not_mem_sublist : ∀ {c R : List Player},
    c.Sublist R → R.Nodup →
    (R.filter (fun p => decide (p ∉ c))).length = R.length - c.length := by
  intro c R h
  induction h with
  | slnil => intro _; simp
  | @cons c' R' r hsub ih =>
    intro hnd
    rw [List.nodup_cons] at hnd
    have hrc : r ∉ c' := fun hr => hnd.1 (hsub.subset hr)
    have hlen := hsub.length_le
    simp only [List.filter_cons, hrc, not_false_iff, decide_True,
      if_pos, List.length_cons, ih hnd.2]
    omega
  | @cons₂ c' R' a hsub ih =>
    intro hnd
    rw [List.nodup_cons] at hnd
    have hcong : (R'.filter (fun p => decide (p ∉ a :: c'))).length
        = (R'.filter (fun p => decide (p ∉ c'))).length := by
      rw [List.filter_congr]
      intro p hp
      simp only [decide_eq_decide, List.mem_cons, not_or]
      constructor
      · intro hq; exact hq.2
      · intro hq; exact ⟨fun he => hnd.1 (he ▸ hp), hq⟩
    have hlen := hsub.length_le
    rw [List.filter_cons]
    have hhead : (decide (a ∉ a :: c')) = false := by simp
    rw [hhead]
    simp only [Bool.false_eq_true, if_false]
    rw [hcong, ih hnd.2]
    simp only [List.length_cons]
    omega

theorem nodup_ids_distinct {R : List Player}
    (hnd : (R.map Player.id).Nodup) {p q : Player}
    (hp : p ∈ R) (hq : q ∈ R) (hid : p.id = q.id) : p = q := by
  induction R with
  | nil => simp at hp
  | cons x xs ih =>
    simp only [List.map_cons, List.nodup_cons, List.mem_map] at hnd
    rcases List.mem_cons.mp hp with hp' | hp' <;>
      rcases List.mem_cons.mp hq with hq' | hq'
    · exact hp'.trans hq'.symm
    · exact absurd ⟨q, hq', (hp' ▸ hid).symm⟩ hnd.1
    · exact absurd ⟨p, hp', hq' ▸ hid⟩ hnd.1
    · exact ih hnd.2 hp' hq'

theorem pmem_iff {p : Player} {l : List Player} :
    pmem p l = true ↔ ∃ q ∈ l, q.id = p.id := by
  simp [pmem]

theorem pmem_of_mem {p : Player} {l : List Player} (h : p ∈ l) :
    pmem p l = true :=
  pmem_iff.mpr ⟨p, h, rfl⟩

theorem create_candidate_game_shape {cfg : Config} {a : Player}
    {tx ty : List Player} {g : CandidateGame}
    (h : create_candidate_game cfg a tx ty = .ok g) :
    g.anchor_player = a ∧ g.team_x = tx ∧ g.team_y = ty := by
  unfold create_candidate_game mkCandidateGame at h
  cases himb : imbalance tx ty cfg.p_norm cfg.q_norm cfg.fairness_weight with
  | error e =>
    rw [himb] at h
    exact absurd h (by simp [Bind.bind, Except.bind])
  | ok f =>
    rw [himb] at h
    simp only [Bind.bind, Except.bind, pure, Except.pure, Except.ok.injEq] at h
    subst h
    exact ⟨rfl, rfl, rfl⟩

theorem bf_loop_prop (P : CandidateGame → Prop) (cfg : Config)
    (anchor_player : Player) (remaining_players : List Player) :
    ∀ (cs : List (List Player)) (best : Option CandidateGame)
      (minv : Option ℚ) (n : Nat),
    (∀ c ∈ cs, ∀ g, create_candidate_game cfg anchor_player
        (punion c [anchor_player])
        (pdiff remaining_players (punion c [anchor_player])) = .ok g → P g) →
    (∀ g, best = some g → P g) →
    ∀ g v m, bf_loop cfg anchor_player remaining_players cs best minv n
      = .ok (some g, v, m) → P g := by
  intro cs
  induction cs with
  | nil =>
    intro best minv n _ hbest g v m h
    simp only [bf_loop, Except.ok.injEq, Prod.mk.injEq] at h
    exact hbest g h.1
  | cons c rest ih =>
    intro best minv n hcs hbest g v m h
    unfold bf_loop at h
    cases hcr : create_candidate_game cfg anchor_player
        (punion c [anchor_player])
        (pdiff remaining_players (punion c [anchor_player])) with
    | error e =>
      rw [hcr] at h
      exact absurd h (by simp [Bind.bind, Except.bind])
    | ok gm =>
      rw [hcr] at h
      simp only [Bind.bind, Except.bind] at h
      have hgm : P gm := hcs c (by simp) gm hcr
      split at h
      · split at h
        · simp only [Except.ok.injEq, Prod.mk.injEq] at h
          cases h.1.symm
          exact hgm
        · exact ih _ _ _ (fun c' hc' => hcs c' (by simp [hc']))
            (fun g' hg' => by cases hg'; exact hgm) g v m h
      · split at h
        · simp only [Except.ok.injEq, Prod.mk.injEq] at h
          exact hbest g h.1
        · exact ih _ _ _ (fun c' hc' => hcs c' (by simp [hc'])) hbest g v m h

theorem brute_force_game_shape (cfg : Config) (anchor_player : Player)
    (R : List Player) (hk : 1 ≤ cfg.team_size)
    (hR : R.length = 2 * cfg.team_size - 1)
    (hnd : ((anchor_player :: R).map Player.id).Nodup)
    (g : CandidateGame) (v : Option ℚ) (m : Nat)
    (h : brute_force_partition cfg anchor_player R = .ok (some g, v, m)) :
    g.anchor_player = anchor_player
    ∧ g.team_x.length = cfg.team_size
    ∧ g.team_y.length = cfg.team_size
    ∧ (∀ p ∈ g.team_x, p ∉ g.team_y)
    ∧ anchor_player ∈ g.team_x := by
  simp only [List.map_cons, List.nodup_cons, List.mem_map] at hnd
  have hanchor : ∀ p ∈ R, p.id ≠ anchor_player.id :=
    fun p hp he => hnd.1 ⟨p, hp, he⟩
  have hndR : (R.map Player.id).Nodup := hnd.2
  refine bf_loop_prop (fun gg => gg.anchor_player = anchor_player
      ∧ gg.team_x.length = cfg.team_size ∧ gg.team_y.length = cfg.team_size
      ∧ (∀ p ∈ gg.team_x, p ∉ gg.team_y) ∧ anchor_player ∈ gg.team_x)
    cfg anchor_player R
    (combinations R (cfg.team_size - 1)) none none 0 ?_ (by simp) g v m h
  intro c hc gm hcr
  obtain ⟨hclen, hcsub⟩ := mem_combinations R (cfg.team_size - 1) c hc
  obtain ⟨hga, hgx, hgy⟩ := create_candidate_game_shape hcr
  have hpm : pmem anchor_player c = false := by
    rw [Bool.eq_false_iff]
    intro hp
    obtain ⟨q, hq, hqe⟩ := pmem_iff.mp hp
    exact hanchor q (hcsub.subset hq) hqe
  have hX : punion c [anchor_player] = c ++ [anchor_player] := by
    have hkeep : (!(pmem anchor_player c)) = true := by rw [hpm]; rfl
    simp [punion, hkeep]
  have hYeq : pdiff R (punion c [anchor_player])
      = R.filter (fun p => decide (p ∉ c)) := by
    unfold pdiff
    apply List.filter_congr
    intro p hp
    have hpa : (anchor_player.id == p.id) = false := by
      simpa using fun he => hanchor p hp he.symm
    have hmem : pmem p (punion c [anchor_player]) = pmem p c := by
      rw [hX]
      simp only [pmem, List.any_append, List.any_cons, List.any_nil,
        Bool.or_false]
      rw [hpa]
      simp
    rw [hmem]
    by_cases hpc : p ∈ c
    · simp [pmem_of_mem hpc, hpc]
    · have hnone : pmem p c = false := by
        rw [Bool.eq_false_iff]
        intro hq
        obtain ⟨q, hq', hqe⟩ := pmem_iff.mp hq
        have hqR : q ∈ R := hcsub.subset hq'
        have hqp : q = p := nodup_ids_distinct hndR hqR hp hqe
        exact hpc (hqp ▸ hq')
      simp [hnone, hpc]
  refine ⟨hga, ?_, ?_, ?_, ?_⟩
  · rw [hgx, hX]
    simp [hclen]
    omega
  · rw [hgy, hYeq, length_filter_not_mem_sublist hcsub (hndR.of_map _)]
    omega
  · intro p hp hpy
    rw [hgy] at hpy
    rw [hgx] at hp
    have hmf := List.mem_filter.mp hpy
    have hpmX : pmem p (punion c [anchor_player]) = true := pmem_of_mem hp
    simp [hpmX] at hmf
  · rw [hgx, hX]
    simp

theorem greedy_loop_spec (cfg : Config) :
    ∀ (L X Y tx ty : List Player),
    X.length ≤ cfg.team_size → Y.length ≤ cfg.team_size →
    X.length + Y.length + L.length = 2 * cfg.team_size →
    greedy_loop cfg L X Y = .ok (tx, ty) →
    tx.length = cfg.team_size ∧ ty.length = cfg.team_size
    ∧ (tx ++ ty).Perm (X ++ Y ++ L) := by
  intro L
  induction L with
  | nil =>
    intro X Y tx ty hx hy hsum h
    simp only [greedy_loop, Except.ok.injEq, Prod.mk.injEq] at h
    obtain ⟨h1, h2⟩ := h
    subst h1
    subst h2
    simp only [List.length_nil] at hsum
    refine ⟨by omega, by omega, by simp⟩
  | cons p rest ih =>
    intro X Y tx ty hx hy hsum h
    have hshift : ∀ (X' Y' : List Player),
        (tx ++ ty).Perm (X' ++ Y' ++ rest) →
        ((X' ++ Y' ++ rest).Perm (X ++ Y ++ (p :: rest)) →
        (tx ++ ty).Perm (X ++ Y ++ (p :: rest))) :=
      fun X' Y' hp hq => hp.trans hq
    unfold greedy_loop at h
    split at h
    · rename_i hboth
      cases ha : p_fairness (punion X [p]) Y cfg.p_norm with
      | error e =>
        rw [ha] at h
        exact absurd h (by simp [Bind.bind, Except.bind])
      | ok a =>
        rw [ha] at h
        cases hb : p_fairness X (punion Y [p]) cfg.p_norm with
        | error e =>
          rw [hb] at h
          exact absurd h (by simp [Bind.bind, Except.bind])
        | ok b =>
          rw [hb] at h
          simp only [Bind.bind, Except.bind] at h
          split at h
          · obtain ⟨h1, h2, h3⟩ := ih (X ++ [p]) Y tx ty
              (by simp; omega) (by omega) (by simp at hsum ⊢; omega) h
            refine ⟨h1, h2, h3.trans ?_⟩
            rw [List.perm_iff_count]
            intro x
            simp [List.count_append, List.count_cons]
            try omega
          · obtain ⟨h1, h2, h3⟩ := ih X (Y ++ [p]) tx ty
              (by omega) (by simp; omega) (by simp at hsum ⊢; omega) h
            refine ⟨h1, h2, h3.trans ?_⟩
            rw [List.perm_iff_count]
            intro x
            simp [List.count_append, List.count_cons]
            try omega
    · rename_i hnboth
      split at h
      · rename_i hxlt
        obtain ⟨h1, h2, h3⟩ := ih (X ++ [p]) Y tx ty
          (by simp; omega) (by omega) (by simp at hsum ⊢; omega) h
        refine ⟨h1, h2, h3.trans ?_⟩
        rw [List.perm_iff_count]
        intro x
        simp [List.count_append, List.count_cons]
        try omega
      · rename_i hxge
        have hxk : X.length = cfg.team_size := by omega
        have hyk : Y.length + 1 ≤ cfg.team_size := by
          simp only [List.length_cons] at hsum
          omega
        obtain ⟨h1, h2, h3⟩ := ih X (Y ++ [p]) tx ty
          (by omega) (by simp; omega) (by simp at hsum ⊢; omega) h
        refine ⟨h1, h2, h3.trans ?_⟩
        rw [List.perm_iff_count]
        intro x
        simp [List.count_append, List.count_cons]
        try omega

theorem inorder_foldl_add : ∀ (l : List Player) (t : AVLTree), SortedT t →
    SortedSet.inorder (List.foldl SortedSet.add t l)
      = List.foldl keyInsert (SortedSet.inorder t) l := by
  intro l
  induction l with
  | nil => intro t _; simp
  | cons x xs ih =>
    intro t ht
    simp only [List.foldl_cons]
    have hadd : SortedSet.add t x = SortedSet.insert t x := rfl
    rw [hadd, ih _ (SortedT_insert ht), inorder_insert t x ht]

theorem greedy_game_shape (cfg : Config) (anchor_player : Player)
    (R : List Player) (hR : R.length = 2 * cfg.team_size - 1)
    (hk : 1 ≤ cfg.team_size)
    (hnd : ((anchor_player :: R).map Player.id).Nodup)
    (g : CandidateGame) (v : Option ℚ) (m : Nat)
    (h : greedy_balanced_partition cfg anchor_player R = .ok (some g, v, m)) :
    g.anchor_player = anchor_player
    ∧ g.team_x.length = cfg.team_size
    ∧ g.team_y.length = cfg.team_size
    ∧ (∀ p ∈ g.team_x, p ∉ g.team_y)
    ∧ anchor_player ∈ g.team_x ++ g.team_y := by
  have hanchor : ∀ p ∈ R, p.id ≠ anchor_player.id := by
    simp only [List.map_cons, List.nodup_cons, List.mem_map] at hnd
    exact fun p hp he => hnd.1 ⟨p, hp, he⟩
  have hpu : punion [anchor_player] R = anchor_player :: R := by
    unfold punion
    have hfilter : R.filter (fun p => !(pmem p [anchor_player])) = R := by
      rw [List.filter_eq_self]
      intro p hp
      simp only [pmem, List.any_cons, List.any_nil, Bool.or_false,
        Bool.not_eq_true']
      simpa using fun he => hanchor p hp he.symm
    rw [hfilter]
    rfl
  have hperm : (SortedSet.inorder (List.foldl SortedSet.add .leaf
      (punion [anchor_player] R))).Perm (anchor_player :: R) := by
    rw [hpu, inorder_foldl_add _ .leaf (by simp [SortedT, SortedSet.inorder])]
    refine (foldl_keyInsert_perm _ [] ?_).trans (by simp)
    simp only [List.nil_append]
    exact (List.pairwise_map.mp hnd).imp (fun hne hkeq => hne hkeq.2)
  have hrevperm : ((SortedSet.inorder (List.foldl SortedSet.add .leaf
      (punion [anchor_player] R))).reverse).Perm (anchor_player :: R) :=
    (List.reverse_perm _).trans hperm
  unfold greedy_balanced_partition at h
  cases hloop : greedy_loop cfg
      (SortedSet.inorder (List.foldl SortedSet.add .leaf
        (punion [anchor_player] R))).reverse [] [] with
  | error e =>
    rw [hloop] at h
    exact absurd h (by simp [Bind.bind, Except.bind])
  | ok txy =>
    rw [hloop] at h
    obtain ⟨tx, ty⟩ := txy
    simp only [Bind.bind, Except.bind] at h
    cases hcr : create_candidate_game cfg anchor_player (tx, ty).1 (tx, ty).2 with
    | error e =>
      rw [hcr] at h
      exact absurd h (by simp)
    | ok gm =>
      rw [hcr] at h
      simp only [Except.ok.injEq, Prod.mk.injEq, Option.some.injEq] at h
      obtain ⟨hgm, _, _⟩ := h
      subst hgm
      obtain ⟨hga, hgx, hgy⟩ := create_candidate_game_shape hcr
      have hlen : (SortedSet.inorder (List.foldl SortedSet.add .leaf
          (punion [anchor_player] R))).reverse.length = 2 * cfg.team_size := by
        rw [hrevperm.length_eq]
        simp [hR]
        omega
      obtain ⟨h1, h2, h3⟩ := greedy_loop_spec cfg _ [] [] tx ty
        (by simp) (by simp) (by simpa using hlen) hloop
      have htxty : (tx ++ ty).Perm (anchor_player :: R) := by
        refine h3.trans ?_
        simpa using hrevperm
      have hndtt : ((tx ++ ty).map Player.id).Nodup :=
        ((htxty.map Player.id).nodup_iff).mpr hnd
      refine ⟨hga, by rw [hgx]; exact h1, by rw [hgy]; exact h2, ?_, ?_⟩
      · intro p hp hpy
        rw [hgx] at hp
        rw [hgy] at hpy
        rw [List.map_append, List.nodup_append] at hndtt
        exact hndtt.2.2 (List.mem_map_of_mem Player.id hp)
          (List.mem_map_of_mem Player.id hpy)
      · rw [hgx, hgy]
        exact (htxty.mem_iff).mpr (by simp)

/-- Claim C2, counterexample: the greedy strategy can place the anchor in
team_y.  With k = 2 and all four skills 0, the greedy loop fills team_x
with the two highest-ordered players (ids 3 and 2, since ties route to
team_x) and the anchor (id 0, processed last) lands in team_y — a
candidate game produced by a partition strategy whose anchor is not a
member of team_x. -/
theorem C2_counterexample :
    (greedy_balanced_partition ⟨2, .one, .one, 1 / 10, true⟩ (mkP 0 0)
      [mkP 1 0, mkP 2 0, mkP 3 0]).map (fun r => r.1.map (fun g =>
        (g.anchor_player, g.team_x.map Player.id, g.team_y.map Player.id,
          decide (g.anchor_player ∈ g.team_x))))
    = .ok (some (mkP 0 0, [3, 2], [1, 0], false)) := by
  with_unfolding_all rfl

/-- Claim C2 (amended: the anchor-membership clause holds for the exact
strategy; for the greedy strategy the anchor is only guaranteed to be a
member of team_x ∪ team_y): every candidate game produced by either
partition strategy on a valid input (a candidate set of 2k-1 players with
pairwise-distinct ids, none equal to the anchor's) has exactly k players
per team and disjoint teams; brute force additionally puts the anchor in
team_x. -/
theorem C2_team_shape :
    (∀ (cfg : Config) (anchor_player : Player) (R : List Player)
        (g : CandidateGame) (v : Option ℚ) (m : Nat),
      1 ≤ cfg.team_size → R.length = 2 * cfg.team_size - 1 →
      ((anchor_player :: R).map Player.id).Nodup →
      brute_force_partition cfg anchor_player R = .ok (some g, v, m) →
      g.anchor_player = anchor_player
        ∧ g.team_x.length = cfg.team_size
        ∧ g.team_y.length = cfg.team_size
        ∧ (∀ p ∈ g.team_x, p ∉ g.team_y)
        ∧ anchor_player ∈ g.team_x)
    ∧ (∀ (cfg : Config) (anchor_player : Player) (R : List Player)
        (g : CandidateGame) (v : Option ℚ) (m : Nat),
      1 ≤ cfg.team_size → R.length = 2 * cfg.team_size - 1 →
      ((anchor_player :: R).map Player.id).Nodup →
      greedy_balanced_partition cfg anchor_player R = .ok (some g, v, m) →
      g.anchor_player = anchor_player
        ∧ g.team_x.length = cfg.team_size
        ∧ g.team_y.length = cfg.team_size
        ∧ (∀ p ∈ g.team_x, p ∉ g.team_y)
        ∧ anchor_player ∈ g.team_x ++ g.team_y) := by
  constructor
  · intro cfg anchor_player R g v m hk hR hnd h
    exact brute_force_game_shape cfg anchor_player R hk hR hnd g v m h
  · intro cfg anchor_player R g v m hk hR hnd h
    exact greedy_game_shape cfg anchor_player R hR hk hnd g v m h

/-- The game the exact strategy returns on the scenario-A window for
anchor 0 (used as the witness input for C2). -/
def bruteWitnessGame : CandidateGame :=
  ⟨mkP 0 1000, [mkP 3 1030, mkP 0 1000], [mkP 1 1010, mkP 2 1020], 10, none⟩

/-- The game the greedy strategy returns on the all-zero-skill input
(used as the witness input for C2). -/
def greedyWitnessGame : CandidateGame :=
  ⟨mkP 0 0, [mkP 3 0, mkP 2 0], [mkP 1 0, mkP 0 0], 0, none⟩

/-- Witness for C2: both parts instantiated at concrete inputs. -/
theorem C2_witness :
    bruteWitnessGame.team_x.length = 2
    ∧ bruteWitnessGame.team_y.length = 2
    ∧ mkP 3 1030 ∉ bruteWitnessGame.team_y
    ∧ mkP 0 1000 ∈ bruteWitnessGame.team_x
    ∧ greedyWitnessGame.team_x.length = 2
    ∧ greedyWitnessGame.team_y.length = 2
    ∧ mkP 3 0 ∉ greedyWitnessGame.team_y
    ∧ mkP 0 0 ∈ greedyWitnessGame.team_x ++ greedyWitnessGame.team_y := by
  have h1 := C2_team_shape.1 cfgA (mkP 0 1000)
    [mkP 1 1010, mkP 2 1020, mkP 3 1030] bruteWitnessGame (some 10) 3
    (by decide) (by decide) (by decide) (by with_unfolding_all rfl)
  have h2 := C2_team_shape.2 ⟨2, .one, .one, 1 / 10, true⟩ (mkP 0 0)
    [mkP 1 0, mkP 2 0, mkP 3 0] greedyWitnessGame (some 0) 1
    (by decide) (by decide) (by decide) (by with_unfolding_all rfl)
  exact ⟨h1.2.1, h1.2.2.1, h1.2.2.2.1 (mkP 3 1030) (by decide), h1.2.2.2.2,
    h2.2.1, h2.2.2.1, h2.2.2.2.1 (mkP 3 0) (by decide), h2.2.2.2.2⟩

/-! ## Claims C8 and C9: slice clamping and duplicate insertion -/

/-- A one-player pool used as concrete input for C8. -/
def poolOne : AVLTree := SortedSet.add .leaf (mkP 0 5)

/-- Claim C8, counterexample: slicing with an upper bound far beyond the
valid ranks does not fail — `__getitem__` clamps with `slice.indices` and
returns the players of the clamped range (here the whole one-player
pool); negative bounds are resolved and clamped the same way. -/
theorem C8_counterexample :
    SortedSet.getitem_slice poolOne 0 5 = [some (mkP 0 5)]
    ∧ SortedSet.getitem_slice poolOne (-7) 99 = [some (mkP 0 5)]
    ∧ SortedSet.getitem_slice poolOne 3 9 = [] := by
  refine ⟨?_, ?_, ?_⟩ <;> with_unfolding_all rfl

/-- Claim C8 (amended: the rank-range slice clamps out-of-range bounds —
Python `slice.indices` semantics — and never fails; it is integer
indexing `at(i)` that fails with `IndexError` out of range): for every
pool with consistent cached sizes and any bounds, the slice returns
exactly the players whose ranks lie in the clamped range. -/
theorem C8_slice_clamps :
    (∀ (t : AVLTree) (lo hi : Int), sizeOK t = true →
      SortedSet.getitem_slice t lo hi
        = (((SortedSet.inorder t).drop
              (SortedSet.slice_indices lo hi (SortedSet.length t)).1).take
            ((SortedSet.slice_indices lo hi (SortedSet.length t)).2
              - (SortedSet.slice_indices lo hi (SortedSet.length t)).1)).map
            some)
    ∧ (∀ (t : AVLTree) (key : Int),
        key < -(SortedSet.length t : Int) ∨ (SortedSet.length t : Int) ≤ key →
        SortedSet.getitem_int t key = .error "IndexError") := by
  constructor
  · intro t lo hi h
    exact getitem_slice_eq h lo hi
  · intro t key hk
    simp only [SortedSet.getitem_int]
    by_cases hneg : key < 0
    · rw [if_pos hneg, if_pos (by omega)]
    · rw [if_neg hneg, if_pos (by omega)]

/-- Witness for C8: the clamping equation and the indexing error at the
concrete one-player pool. -/
theorem C8_witness :
    SortedSet.getitem_slice poolOne (-7) 99 = [some (mkP 0 5)]
    ∧ SortedSet.getitem_int poolOne 5 = .error "IndexError" := by
  constructor
  · rw [C8_slice_clamps.1 poolOne (-7) 99 (by with_unfolding_all decide)]
    with_unfolding_all rfl
  · exact C8_slice_clamps.2 poolOne 5 (by with_unfolding_all decide)

/-- A two-element pool containing id 0 with skill 10. -/
def poolTwo : AVLTree :=
  SortedSet.add (SortedSet.add .leaf (mkP 0 10)) (mkP 1 20)

/-- Claim C9, counterexample: adding a player whose id is already present
but whose skill differs is *not* a no-op — `__insert` descends by the
`(skill, id)` order, never sees the equal-id node, and inserts a second
element, leaving two players with id 0 in the pool. -/
theorem C9_counterexample :
    ((SortedSet.inorder (SortedSet.add poolTwo ⟨0, 30, 0, none⟩)).map
        (fun p => (p.id, p.skill)) = [(0, 10), (1, 20), (0, 30)])
    ∧ (SortedSet.inorder poolTwo).map (fun p => (p.id, p.skill))
        = [(0, 10), (1, 20)] := by
  constructor <;> with_unfolding_all rfl

theorem heightOK_node_parts {p : Player} {l r : AVLTree} {hh ss : Nat}
    (h : heightOK (.node p l r hh ss) = true) :
    hh = 1 + max (SortedSet.get_height l) (SortedSet.get_height r)
    ∧ heightOK l = true ∧ heightOK r = true := by
  simp only [heightOK, Bool.and_eq_true, beq_iff_eq] at h
  exact ⟨h.1.1, h.1.2, h.2⟩

theorem balancedT_node_parts {p : Player} {l r : AVLTree} {hh ss : Nat}
    (h : balancedT (.node p l r hh ss) = true) :
    ((SortedSet.get_height l : Int) - SortedSet.get_height r).natAbs ≤ 1
    ∧ balancedT l = true ∧ balancedT r = true := by
  simp only [balancedT, Bool.and_eq_true, decide_eq_true_eq] at h
  exact ⟨h.1.1, h.1.2, h.2⟩

theorem insert_rebalance_of_balanced {p : Player} {l r : AVLTree}
    {hh ss : Nat} {v : Player}
    (hb : ((SortedSet.get_height l : Int) - SortedSet.get_height r).natAbs
      ≤ 1) :
    SortedSet.insert_rebalance (.node p l r hh ss) v = .node p l r hh ss := by
  unfold SortedSet.insert_rebalance
  have hbal : SortedSet.get_balance (.node p l r hh ss)
      = (SortedSet.get_height l : Int) - SortedSet.get_height r := rfl
  rw [if_neg (by rw [hbal]; omega), if_neg (by rw [hbal]; omega)]

theorem sizeOK_node_size {p : Player} {l r : AVLTree} {hh ss : Nat}
    (h : sizeOK (.node p l r hh ss) = true) :
    ss = SortedSet.get_size l + SortedSet.get_size r + 1 := by
  simp only [sizeOK, Bool.and_eq_true, beq_iff_eq] at h
  exact h.1.1

/-- Claim C9 (amended: `add` is a no-op only when a player with the same
skill *and* id is already present; a player with an existing id but a
different skill is inserted as a second element — see the
counterexample): on a well-formed pool (sorted, consistent cached sizes
and heights, AVL-balanced), adding a player whose `(skill, id)` key is
already present leaves the tree unchanged. -/
theorem C9_add_duplicate_noop (t : AVLTree) (v : Player)
    (hs : SortedT t) (hsz : sizeOK t = true) (hht : heightOK t = true)
    (hb : balancedT t = true)
    (hv : ∃ x ∈ SortedSet.inorder t, keyEq x v) :
    SortedSet.add t v = t := by
  induction t with
  | leaf => simp [SortedSet.inorder] at hv
  | node p l r hh ss ihl ihr =>
    obtain ⟨hsl, hsr, hbl, hbr, _⟩ := sorted_node hs
    obtain ⟨hzl, hzr⟩ := sizeOK_node_parts hsz
    obtain ⟨hheq, hhl, hhr⟩ := heightOK_node_parts hht
    obtain ⟨hbal, hb_l, hb_r⟩ := balancedT_node_parts hb
    have hzeq := sizeOK_node_size hsz
    show SortedSet.insert (.node p l r hh ss) v = .node p l r hh ss
    unfold SortedSet.insert
    by_cases hlt : v.lt p
    · rw [if_pos hlt]
      have hvp : keyLt v p := (player_lt_iff v p).mp hlt
      have hv' : ∃ x ∈ SortedSet.inorder l, keyEq x v := by
        obtain ⟨x, hx, hxe⟩ := hv
        simp only [SortedSet.inorder, List.mem_append, List.mem_cons] at hx
        rcases hx with hx | hx | hx
        · exact ⟨x, hx, hxe⟩
        · subst hx
          exact absurd hvp (by unfold keyEq at hxe; unfold keyLt; omega)
        · have h1 := hbr x hx
          exact absurd hvp (by unfold keyEq at hxe; unfold keyLt at *; omega)
      rw [show SortedSet.insert l v = l from ihl hsl hzl hhl hb_l hv']
      rw [show SortedSet.update_node p l r = .node p l r hh ss from by
        unfold SortedSet.update_node
        congr 1 <;> omega]
      exact insert_rebalance_of_balanced hbal
    · rw [if_neg hlt]
      by_cases hgt : v.gt p
      · rw [if_pos hgt]
        have hpv : keyLt p v := (player_gt_iff v p).mp hgt
        have hv' : ∃ x ∈ SortedSet.inorder r, keyEq x v := by
          obtain ⟨x, hx, hxe⟩ := hv
          simp only [SortedSet.inorder, List.mem_append, List.mem_cons] at hx
          rcases hx with hx | hx | hx
          · have h1 := hbl x hx
            exact absurd hpv (by unfold keyEq at hxe; unfold keyLt at *; omega)
          · subst hx
            exact absurd hpv (by unfold keyEq at hxe; unfold keyLt; omega)
          · exact ⟨x, hx, hxe⟩
        rw [show SortedSet.insert r v = r from ihr hsr hzr hhr hb_r hv']
        rw [show SortedSet.update_node p l r = .node p l r hh ss from by
          unfold SortedSet.update_node
          congr 1 <;> omega]
        exact insert_rebalance_of_balanced hbal
      · rw [if_neg hgt]

instance (t : AVLTree) : Decidable (SortedT t) := by
  unfold SortedT
  infer_instance

/-- A three-player pool used as the witness input for C9. -/
def poolThree : AVLTree :=
  List.foldl SortedSet.add .leaf [mkP 0 10, mkP 1 20, mkP 2 30]

/-- Witness for C9: re-adding the already-present player (1, 20) leaves
the concrete pool unchanged. -/
theorem C9_witness :
    SortedSet.add poolThree ⟨1, 20, 0, none⟩ = poolThree :=
  C9_add_duplicate_noop poolThree ⟨1, 20, 0, none⟩
    (by with_unfolding_all decide) (by with_unfolding_all decide)
    (by with_unfolding_all decide) (by with_unfolding_all decide)
    (by with_unfolding_all decide)

/-! ## The heap's index-map invariant (claim C3) -/

/-- A list lookup that returns `some` sees an in-range index. -/
theorem getElem?_some_lt {α : Type} {l : List α} {n : Nat} {a : α}
    (h : l[n]? = some a) : n < l.length := by
  by_contra hn
  rw [List.getElem?_eq_none_iff.mpr (Nat.le_of_not_lt hn)] at h
  exact Option.noConfusion h

/-- Lookup after `m[k] = v`. -/
theorem alist_lookup_del (m : List (Nat × Nat)) (k k' : Nat) :
    alist_lookup (alist_del m k) k' =
    if k = k' then none else alist_lookup m k' := by
  induction m with
  | nil => by_cases h : k = k' <;> simp [alist_del, alist_lookup, h]
  | cons kv rest ih =>
    by_cases h1 : kv.1 = k <;> by_cases h2 : k = k' <;> by_cases h3 : kv.1 = k' <;>
      simp_all [alist_del, alist_lookup, List.filter_cons]

/-- Lookup after `del m[k]`. -/
theorem alist_lookup_set (m : List (Nat × Nat)) (k v k' : Nat) :
    alist_lookup (alist_set m k v) k' =
    if k = k' then some v else alist_lookup m k' := by
  show alist_lookup ((k, v) :: alist_del m k) k' = _
  by_cases h : k = k' <;> simp [alist_lookup, alist_lookup_del, h]

/-- The index map and the array agree: every mapped id points at a slot
holding a game with that anchor id, and every slot's anchor id maps back
to that slot. -/
def HeapInv (h : MinHeap) : Prop :=
  (∀ m i, alist_lookup h.index_map m = some i →
    ∃ g, h.heap[i]? = some g ∧ g.anchor_player.id = m) ∧
  (∀ i g, h.heap[i]? = some g →
    alist_lookup h.index_map g.anchor_player.id = some i)

theorem HeapInv_empty : HeapInv MinHeap.empty := by
  constructor
  · intro m i hml
    exact absurd hml (by simp [MinHeap.empty, alist_lookup])
  · intro i g hg
    simp [MinHeap.empty] at hg

/-- The array of `swap h i j` slot by slot (non-degenerate case). -/
theorem swap_getElem (h : MinHeap) (i j : Nat) (a b : CandidateGame)
    (hhi : h.heap[i]? = some a) (hhj : h.heap[j]? = some b) (n : Nat) :
    (MinHeap.swap h i j).heap[n]? =
    if j = n then some a else if i = n then some b else h.heap[n]? := by
  have hilen : i < h.heap.length := getElem?_some_lt hhi
  have hjlen : j < h.heap.length := getElem?_some_lt hhj
  unfold MinHeap.swap
  rw [hhi, hhj]
  by_cases hj : j = n
  · subst hj
    rw [if_pos rfl]
    exact List.getElem?_set_self (by simpa using hjlen)
  · rw [if_neg hj, List.getElem?_set_ne hj]
    by_cases hi : i = n
    · subst hi
      rw [if_pos rfl]
      exact List.getElem?_set_self hilen
    · rw [if_neg hi, List.getElem?_set_ne hi]

/-- The index map of `swap h i j` key by key (non-degenerate case). -/
theorem swap_lookup (h : MinHeap) (i j : Nat) (a b : CandidateGame)
    (hhi : h.heap[i]? = some a) (hhj : h.heap[j]? = some b) (m : Nat) :
    alist_lookup (MinHeap.swap h i j).index_map m =
    if a.anchor_player.id = m then some j
    else if b.anchor_player.id = m then some i
    else alist_lookup h.index_map m := by
  unfold MinHeap.swap
  rw [hhi, hhj]
  show alist_lookup
    (alist_set (alist_set h.index_map b.anchor_player.id i) a.anchor_player.id j) m = _
  rw [alist_lookup_set, alist_lookup_set]

/-- `__swap` preserves the invariant. -/
theorem HeapInv_swap (h : MinHeap) (i j : Nat) (hI : HeapInv h) :
    HeapInv (MinHeap.swap h i j) := by
  obtain ⟨h1, h2⟩ := hI
  cases hhi : h.heap[i]? with
  | none =>
    have : MinHeap.swap h i j = h := by
      unfold MinHeap.swap
      rw [hhi]
    rw [this]
    exact ⟨h1, h2⟩
  | some a =>
    cases hhj : h.heap[j]? with
    | none =>
      have : MinHeap.swap h i j = h := by
        unfold MinHeap.swap
        rw [hhi, hhj]
      rw [this]
      exact ⟨h1, h2⟩
    | some b =>
      have hilen : i < h.heap.length := getElem?_some_lt hhi
      have hjlen : j < h.heap.length := getElem?_some_lt hhj
      have ha := h2 i a hhi
      have hb := h2 j b hhj
      have hij : a.anchor_player.id = b.anchor_player.id → i = j := by
        intro hid
        have h' : some i = some j := by rw [← ha, hid, hb]
        exact Option.some_inj.mp h'
      constructor
      · intro m idx hml
        rw [swap_lookup h i j a b hhi hhj m] at hml
        by_cases hma : a.anchor_player.id = m
        · rw [if_pos hma] at hml
          obtain rfl : j = idx := Option.some_inj.mp hml
          exact ⟨a, by rw [swap_getElem h i j a b hhi hhj, if_pos rfl], hma⟩
        · rw [if_neg hma] at hml
          by_cases hmb : b.anchor_player.id = m
          · rw [if_pos hmb] at hml
            obtain rfl : i = idx := Option.some_inj.mp hml
            have hji : j ≠ i := by
              intro hji
              rw [hji, hhi] at hhj
              have e : a = b := Option.some_inj.mp hhj
              exact hma (by rw [e]; exact hmb)
            exact ⟨b, by rw [swap_getElem h i j a b hhi hhj, if_neg hji, if_pos rfl], hmb⟩
          · rw [if_neg hmb] at hml
            obtain ⟨g, hg, hgid⟩ := h1 m idx hml
            have hidxj : j ≠ idx := by
              intro e
              rw [← e, hhj] at hg
              have e2 : b = g := Option.some_inj.mp hg
              exact hmb (by rw [e2]; exact hgid)
            have hidxi : i ≠ idx := by
              intro e
              rw [← e, hhi] at hg
              have e2 : a = g := Option.some_inj.mp hg
              exact hma (by rw [e2]; exact hgid)
            refine ⟨g, ?_, hgid⟩
            rw [swap_getElem h i j a b hhi hhj, if_neg hidxj, if_neg hidxi]
            exact hg
      · intro n g hg
        rw [swap_getElem h i j a b hhi hhj n] at hg
        rw [swap_lookup h i j a b hhi hhj]
        by_cases hjn : j = n
        · rw [if_pos hjn] at hg
          have e : a = g := Option.some_inj.mp hg
          subst e
          simp [hjn]
        · rw [if_neg hjn] at hg
          by_cases hin : i = n
          · rw [if_pos hin] at hg
            have e : b = g := Option.some_inj.mp hg
            subst e
            have hne : a.anchor_player.id ≠ b.anchor_player.id := by
              intro e
              exact hjn ((hij e) ▸ hin)
            simp [hne, hin]
          · rw [if_neg hin] at hg
            have hold := h2 n g hg
            have hga : a.anchor_player.id ≠ g.anchor_player.id := by
              intro e
              rw [← e] at hold
              exact hin (Option.some_inj.mp (ha.symm.trans hold))
            have hgb : b.anchor_player.id ≠ g.anchor_player.id := by
              intro e
              rw [← e] at hold
              exact hjn (Option.some_inj.mp (hb.symm.trans hold))
            rw [if_neg hga, if_neg hgb]
            exact hold

/-- `__sift_up` preserves the invariant (fuel form). -/
theorem HeapInv_sift_up_fuel (fuel : Nat) :
    ∀ (h : MinHeap) (index : Nat), HeapInv h →
    HeapInv (MinHeap.sift_up_fuel fuel h index) := by
  induction fuel with
  | zero => intro h index hI; exact hI
  | succ fuel ih =>
    intro h index hI
    simp only [MinHeap.sift_up_fuel]
    split
    · exact hI
    · split
      · exact ih _ _ (HeapInv_swap _ _ _ hI)
      · exact hI

theorem HeapInv_sift_up (h : MinHeap) (index : Nat) (hI : HeapInv h) :
    HeapInv (MinHeap.sift_up h index) :=
  HeapInv_sift_up_fuel _ h index hI

/-- `__sift_down` preserves the invariant (fuel form). -/
theorem HeapInv_sift_down_fuel (fuel : Nat) :
    ∀ (h : MinHeap) (index : Nat), HeapInv h →
    HeapInv (MinHeap.sift_down_fuel fuel h index) := by
  induction fuel with
  | zero => intro h index hI; exact hI
  | succ fuel ih =>
    intro h index hI
    unfold MinHeap.sift_down_fuel
    split
    · split
      · exact ih _ _ (HeapInv_swap _ _ _ hI)
      · exact ih _ _ (HeapInv_swap _ _ _ hI)
    · split
      · exact ih _ _ (HeapInv_swap _ _ _ hI)
      · exact hI

theorem HeapInv_sift_down (h : MinHeap) (index : Nat) (hI : HeapInv h) :
    HeapInv (MinHeap.sift_down h index) :=
  HeapInv_sift_down_fuel _ h index hI

/-- `__update_position` preserves the invariant. -/
theorem HeapInv_update_position (h : MinHeap) (index : Nat) (hI : HeapInv h) :
    HeapInv (MinHeap.update_position h index) := by
  simp only [MinHeap.update_position]
  split
  · exact HeapInv_sift_down _ _ hI
  · split
    · exact HeapInv_sift_up _ _ hI
    · exact HeapInv_sift_down _ _ hI

/-- `__update_existing` preserves the invariant when the new game carries
the anchor id it is filed under (as at its call site in `push`). -/
theorem HeapInv_update_existing (h : MinHeap) (pid : Nat) (g : CandidateGame)
    (hgid : g.anchor_player.id = pid) (hI : HeapInv h) :
    HeapInv (MinHeap.update_existing h pid g) := by
  obtain ⟨h1, h2⟩ := hI
  unfold MinHeap.update_existing
  cases hl : alist_lookup h.index_map pid with
  | none => exact ⟨h1, h2⟩
  | some index =>
    apply HeapInv_update_position
    obtain ⟨gold, hgold, hgoldid⟩ := h1 pid index hl
    have hlen : index < h.heap.length := getElem?_some_lt hgold
    constructor
    · intro m idx hml
      obtain ⟨g0, hg0, hg0id⟩ := h1 m idx hml
      by_cases hii : index = idx
      · subst hii
        have e : gold = g0 := Option.some_inj.mp (hgold.symm.trans hg0)
        have hmp : m = pid := by rw [← hg0id, ← e, hgoldid]
        refine ⟨g, ?_, by rw [hgid, hmp]⟩
        show (h.heap.set index g)[index]? = some g
        exact List.getElem?_set_self hlen
      · refine ⟨g0, ?_, hg0id⟩
        show (h.heap.set index g)[idx]? = some g0
        rw [List.getElem?_set_ne hii]
        exact hg0
    · intro n g' hg'
      rw [show (⟨h.heap.set index g, h.index_map⟩ : MinHeap).heap =
        h.heap.set index g from rfl] at hg'
      by_cases hii : index = n
      · subst hii
        rw [List.getElem?_set_self hlen] at hg'
        have e : g = g' := Option.some_inj.mp hg'
        rw [← e, hgid]
        exact hl
      · rw [List.getElem?_set_ne hii] at hg'
        exact h2 n g' hg'

/-- Popping the last slot and deleting its id preserves the invariant. -/
theorem HeapInv_droplast_del (h : MinHeap) (g : CandidateGame)
    (hg : h.heap.getLast? = some g) (hI : HeapInv h) :
    HeapInv ⟨h.heap.dropLast, alist_del h.index_map g.anchor_player.id⟩ := by
  obtain ⟨h1, h2⟩ := hI
  rw [List.getLast?_eq_getElem?] at hg
  have hglast := h2 _ g hg
  have hlen : h.heap.length - 1 < h.heap.length := getElem?_some_lt hg
  constructor
  · intro m idx hml
    rw [show (⟨h.heap.dropLast, alist_del h.index_map g.anchor_player.id⟩ :
      MinHeap).index_map = alist_del h.index_map g.anchor_player.id from rfl,
      alist_lookup_del] at hml
    by_cases hgm : g.anchor_player.id = m
    · rw [if_pos hgm] at hml
      exact Option.noConfusion hml
    · rw [if_neg hgm] at hml
      obtain ⟨g0, hg0, hg0id⟩ := h1 m idx hml
      have hne : idx ≠ h.heap.length - 1 := by
        intro e
        rw [e, hg] at hg0
        have e2 : g = g0 := Option.some_inj.mp hg0
        exact hgm (by rw [e2]; exact hg0id)
      refine ⟨g0, ?_, hg0id⟩
      show h.heap.dropLast[idx]? = some g0
      rw [List.getElem?_dropLast, if_pos (by
        have := getElem?_some_lt hg0
        omega)]
      exact hg0
  · intro n g' hg'
    rw [show (⟨h.heap.dropLast, alist_del h.index_map g.anchor_player.id⟩ :
      MinHeap).heap = h.heap.dropLast from rfl, List.getElem?_dropLast] at hg'
    by_cases hn : n < h.heap.length - 1
    · rw [if_pos hn] at hg'
      have hold := h2 n g' hg'
      show alist_lookup (alist_del h.index_map g.anchor_player.id)
        g'.anchor_player.id = some n
      rw [alist_lookup_del]
      have hne : g.anchor_player.id ≠ g'.anchor_player.id := by
        intro e
        rw [← e] at hold
        have : h.heap.length - 1 = n := Option.some_inj.mp (hglast.symm.trans hold)
        omega
      rw [if_neg hne]
      exact hold
    · rw [if_neg hn] at hg'
      exact Option.noConfusion hg'

/-- `__remove_at_index` preserves the invariant at any in-range index. -/
theorem HeapInv_remove_at_index (h : MinHeap) (index : Nat)
    (hI : HeapInv h) : HeapInv (MinHeap.remove_at_index h index) := by
  simp only [MinHeap.remove_at_index]
  split
  · split
    · next game hg => exact HeapInv_droplast_del h game hg hI
    · exact hI
  · split
    · next removed hg =>
      exact HeapInv_update_position _ _
        (HeapInv_droplast_del _ removed hg (HeapInv_swap _ _ _ hI))
    · exact HeapInv_swap _ _ _ hI

/-- `push` preserves the invariant. -/
theorem HeapInv_push (h : MinHeap) (g : CandidateGame) (hI : HeapInv h) :
    HeapInv (MinHeap.push h g) := by
  obtain ⟨h1, h2⟩ := hI
  simp only [MinHeap.push]
  cases hl : alist_lookup h.index_map g.anchor_player.id with
  | some i => exact HeapInv_update_existing h _ g rfl ⟨h1, h2⟩
  | none =>
    apply HeapInv_sift_up
    have hidx : (h.heap ++ [g]).length - 1 = h.heap.length := by simp
    rw [hidx]
    constructor
    · intro m idx hml
      rw [show (⟨h.heap ++ [g], alist_set h.index_map g.anchor_player.id
          h.heap.length⟩ : MinHeap).index_map =
          alist_set h.index_map g.anchor_player.id h.heap.length from rfl,
        alist_lookup_set] at hml
      by_cases hm : g.anchor_player.id = m
      · rw [if_pos hm] at hml
        obtain rfl : h.heap.length = idx := Option.some_inj.mp hml
        exact ⟨g, List.getElem?_concat_length h.heap g, hm⟩
      · rw [if_neg hm] at hml
        obtain ⟨g0, hg0, hg0id⟩ := h1 m idx hml
        refine ⟨g0, ?_, hg0id⟩
        show (h.heap ++ [g])[idx]? = some g0
        rw [List.getElem?_append_left (getElem?_some_lt hg0)]
        exact hg0
    · intro n g' hg'
      rw [show (⟨h.heap ++ [g], alist_set h.index_map g.anchor_player.id
          h.heap.length⟩ : MinHeap).heap = h.heap ++ [g] from rfl] at hg'
      show alist_lookup (alist_set h.index_map g.anchor_player.id
        h.heap.length) g'.anchor_player.id = some n
      rw [alist_lookup_set]
      by_cases hn : n < h.heap.length
      · rw [List.getElem?_append_left hn] at hg'
        have hold := h2 n g' hg'
        have hne : g.anchor_player.id ≠ g'.anchor_player.id := by
          intro e
          rw [← e, hl] at hold
          exact Option.noConfusion hold
        rw [if_neg hne]
        exact hold
      · rw [List.getElem?_append_right (Nat.le_of_not_lt hn)] at hg'
        have hlt : n - h.heap.length < 1 := by simpa using getElem?_some_lt hg'
        have hn' : n = h.heap.length := by omega
        have hn0 : n - h.heap.length = 0 := by omega
        rw [hn0] at hg'
        have e : g = g' := Option.some_inj.mp (by simpa using hg')
        rw [← e, if_pos rfl, hn']

/-- `remove` preserves the invariant. -/
theorem HeapInv_remove (h : MinHeap) (pid : Nat) (hI : HeapInv h) :
    HeapInv (MinHeap.remove h pid) := by
  unfold MinHeap.remove
  cases hl : alist_lookup h.index_map pid with
  | none => exact hI
  | some index => exact HeapInv_remove_at_index h index hI

/-- A public heap mutation: `push` a game, or `remove` an anchor id. -/
inductive HeapOp where
  | push (game : CandidateGame)
  | remove (player_id : Nat)
deriving DecidableEq, Repr

/-- Apply one heap mutation. -/
def applyHeapOp (h : MinHeap) : HeapOp → MinHeap
  | .push g => h.push g
  | .remove pid => h.remove pid

/-- Run a sequence of heap mutations from the fresh (empty) heap. -/
def runHeapOps (ops : List HeapOp) : MinHeap :=
  ops.foldl applyHeapOp MinHeap.empty

theorem HeapInv_runHeapOps (ops : List HeapOp) : HeapInv (runHeapOps ops) := by
  suffices h : ∀ h0, HeapInv h0 → HeapInv (ops.foldl applyHeapOp h0) from
    h MinHeap.empty HeapInv_empty
  induction ops with
  | nil => intro h0 hI; exact hI
  | cons op rest ih =>
    intro h0 hI
    cases op with
    | push g => exact ih _ (HeapInv_push h0 g hI)
    | remove pid => exact ih _ (HeapInv_remove h0 pid hI)

/-- **C3.** After any sequence of heap operations (`push` and `remove`)
starting from the empty heap, the anchor-id index map is a bijection with
the heap array — every mapped id points at the slot holding its game, and
every slot's anchor id maps back to that slot — and no two heap entries
share an anchor id. -/
theorem C3_heap_bijection (ops : List HeapOp) :
    (∀ m i, alist_lookup (runHeapOps ops).index_map m = some i →
      ∃ g, (runHeapOps ops).heap[i]? = some g ∧ g.anchor_player.id = m) ∧
    (∀ i g, (runHeapOps ops).heap[i]? = some g →
      alist_lookup (runHeapOps ops).index_map g.anchor_player.id = some i) ∧
    (∀ (i j : Nat) (gi gj : CandidateGame), (runHeapOps ops).heap[i]? = some gi →
      (runHeapOps ops).heap[j]? = some gj →
      gi.anchor_player.id = gj.anchor_player.id → i = j) := by
  obtain ⟨h1, h2⟩ := HeapInv_runHeapOps ops
  refine ⟨h1, h2, ?_⟩
  intro i j gi gj hi hj hid
  have ha := h2 i gi hi
  have hb := h2 j gj hj
  rw [hid] at ha
  exact Option.some_inj.mp (ha.symm.trans hb)

/-- A throwaway candidate game with a given anchor id and imbalance, for
exercising the heap on its own. -/
def cgW (i : Nat) (f : ℚ) : CandidateGame := ⟨mkP i (1000 + i), [], [], f, none⟩

/-- A concrete mutation sequence exercising both `push` paths and
`remove`. -/
def opsW : List HeapOp :=
  [.push (cgW 0 5), .push (cgW 1 3), .push (cgW 2 4), .remove 1, .push (cgW 3 1)]

theorem C3_witness :
    ∃ g, (runHeapOps opsW).heap[0]? = some g ∧ g.anchor_player.id = 3 :=
  (C3_heap_bijection opsW).1 3 0 (by with_unfolding_all decide)

/-! ## Claim C4: bulk insertion vs. one-at-a-time insertion

The heap observed as a map from anchor id to stored game: this is the
heap's interface content (what `peek`/membership/updates act on), as
opposed to the array layout, which depends on the push order. -/

/-- The game stored for an anchor id, through the index map. -/
def observe (h : MinHeap) (m : Nat) : Option CandidateGame :=
  match alist_lookup h.index_map m with
  | some i => h.heap[i]?
  | none => none

theorem observe_def (h : MinHeap) (m : Nat) :
    observe h m = match alist_lookup h.index_map m with
      | some i => h.heap[i]?
      | none => none := rfl

theorem observe_mk (l : List CandidateGame) (M : List (Nat × Nat)) (m : Nat) :
    observe ⟨l, M⟩ m = match alist_lookup M m with
      | some i => l[i]?
      | none => none := rfl

/-- A `__swap` does not change the observed map (it moves a slot and
re-points the map in lockstep). -/
theorem observe_swap (h : MinHeap) (i j : Nat) (hI : HeapInv h) (m : Nat) :
    observe (MinHeap.swap h i j) m = observe h m := by
  obtain ⟨h1, h2⟩ := hI
  cases hhi : h.heap[i]? with
  | none =>
    rw [show MinHeap.swap h i j = h from by unfold MinHeap.swap; rw [hhi]]
  | some a =>
    cases hhj : h.heap[j]? with
    | none =>
      rw [show MinHeap.swap h i j = h from by
        unfold MinHeap.swap; rw [hhi, hhj]]
    | some b =>
      have ha := h2 i a hhi
      have hb := h2 j b hhj
      rw [observe_def, observe_def, swap_lookup h i j a b hhi hhj m]
      by_cases hma : a.anchor_player.id = m
      · rw [if_pos hma]
        show (MinHeap.swap h i j).heap[j]? = _
        rw [swap_getElem h i j a b hhi hhj, if_pos rfl, ← hma, ha]
        exact hhi.symm
      · rw [if_neg hma]
        by_cases hmb : b.anchor_player.id = m
        · rw [if_pos hmb]
          have hji : j ≠ i := by
            intro hji
            rw [hji, hhi] at hhj
            exact hma ((Option.some_inj.mp hhj) ▸ hmb)
          show (MinHeap.swap h i j).heap[i]? = _
          rw [swap_getElem h i j a b hhi hhj, if_neg hji, if_pos rfl, ← hmb, hb]
          exact hhj.symm
        · rw [if_neg hmb]
          cases hlm : alist_lookup h.index_map m with
          | none => rfl
          | some idx =>
            obtain ⟨g, hg, hgid⟩ := h1 m idx hlm
            have hidxj : j ≠ idx := by
              intro e
              rw [← e, hhj] at hg
              exact hmb ((Option.some_inj.mp hg) ▸ hgid)
            have hidxi : i ≠ idx := by
              intro e
              rw [← e, hhi] at hg
              exact hma ((Option.some_inj.mp hg) ▸ hgid)
            show (MinHeap.swap h i j).heap[idx]? = _
            rw [swap_getElem h i j a b hhi hhj, if_neg hidxj, if_neg hidxi]

/-- Sifting up only swaps, so it does not change the observed map. -/
theorem observe_sift_up_fuel (fuel : Nat) :
    ∀ (h : MinHeap) (index : Nat), HeapInv h →
    ∀ m, observe (MinHeap.sift_up_fuel fuel h index) m = observe h m := by
  induction fuel with
  | zero => intro h index _ m; rfl
  | succ fuel ih =>
    intro h index hI m
    simp only [MinHeap.sift_up_fuel]
    split
    · rfl
    · split
      · rw [ih _ _ (HeapInv_swap _ _ _ hI), observe_swap _ _ _ hI]
      · rfl

theorem observe_sift_up (h : MinHeap) (index : Nat) (hI : HeapInv h)
    (m : Nat) : observe (MinHeap.sift_up h index) m = observe h m :=
  observe_sift_up_fuel _ h index hI m

/-- Sifting down only swaps, so it does not change the observed map. -/
theorem observe_sift_down_fuel (fuel : Nat) :
    ∀ (h : MinHeap) (index : Nat), HeapInv h →
    ∀ m, observe (MinHeap.sift_down_fuel fuel h index) m = observe h m := by
  induction fuel with
  | zero => intro h index _ m; rfl
  | succ fuel ih =>
    intro h index hI m
    unfold MinHeap.sift_down_fuel
    split
    · split
      · rw [ih _ _ (HeapInv_swap _ _ _ hI), observe_swap _ _ _ hI]
      · rw [ih _ _ (HeapInv_swap _ _ _ hI), observe_swap _ _ _ hI]
    · split
      · rw [ih _ _ (HeapInv_swap _ _ _ hI), observe_swap _ _ _ hI]
      · rfl

theorem observe_sift_down (h : MinHeap) (index : Nat) (hI : HeapInv h)
    (m : Nat) : observe (MinHeap.sift_down h index) m = observe h m :=
  observe_sift_down_fuel _ h index hI m

theorem observe_update_position (h : MinHeap) (index : Nat) (hI : HeapInv h)
    (m : Nat) : observe (MinHeap.update_position h index) m = observe h m := by
  simp only [MinHeap.update_position]
  split
  · exact observe_sift_down _ _ hI m
  · split
    · exact observe_sift_up _ _ hI m
    · exact observe_sift_down _ _ hI m

/-- Overwriting a mapped anchor's slot preserves the invariant. -/
theorem HeapInv_set_state (h : MinHeap) (pid : Nat) (g : CandidateGame)
    (hgid : g.anchor_player.id = pid) (index : Nat)
    (hl : alist_lookup h.index_map pid = some index) (hI : HeapInv h) :
    HeapInv ⟨h.heap.set index g, h.index_map⟩ := by
  obtain ⟨h1, h2⟩ := hI
  obtain ⟨gold, hgold, hgoldid⟩ := h1 pid index hl
  have hlen : index < h.heap.length := getElem?_some_lt hgold
  constructor
  · intro m idx hml
    obtain ⟨g0, hg0, hg0id⟩ := h1 m idx hml
    by_cases hii : index = idx
    · subst hii
      have e : gold = g0 := Option.some_inj.mp (hgold.symm.trans hg0)
      have hmp : m = pid := by rw [← hg0id, ← e, hgoldid]
      refine ⟨g, ?_, by rw [hgid, hmp]⟩
      show (h.heap.set index g)[index]? = some g
      exact List.getElem?_set_self hlen
    · refine ⟨g0, ?_, hg0id⟩
      show (h.heap.set index g)[idx]? = some g0
      rw [List.getElem?_set_ne hii]
      exact hg0
  · intro n g' hg'
    rw [show (⟨h.heap.set index g, h.index_map⟩ : MinHeap).heap =
      h.heap.set index g from rfl] at hg'
    by_cases hii : index = n
    · subst hii
      rw [List.getElem?_set_self hlen] at hg'
      have e : g = g' := Option.some_inj.mp hg'
      rw [← e, hgid]
      exact hl
    · rw [List.getElem?_set_ne hii] at hg'
      exact h2 n g' hg'

/-- Overwriting a mapped anchor's slot updates the observed map at
exactly that anchor. -/
theorem observe_set_state (h : MinHeap) (pid : Nat) (g : CandidateGame)
    (index : Nat) (hl : alist_lookup h.index_map pid = some index)
    (hI : HeapInv h) (m : Nat) :
    observe ⟨h.heap.set index g, h.index_map⟩ m =
    if m = pid then some g else observe h m := by
  obtain ⟨h1, h2⟩ := hI
  obtain ⟨gold, hgold, hgoldid⟩ := h1 pid index hl
  have hlen : index < h.heap.length := getElem?_some_lt hgold
  rw [observe_mk]
  by_cases hm : m = pid
  · rw [if_pos hm, hm, hl]
    show (h.heap.set index g)[index]? = some g
    exact List.getElem?_set_self hlen
  · rw [if_neg hm, observe_def]
    cases hlm : alist_lookup h.index_map m with
    | none => rfl
    | some idx =>
      have hii : index ≠ idx := by
        intro e
        obtain ⟨g0, hg0, hg0id⟩ := h1 m idx hlm
        rw [← e, hgold] at hg0
        exact hm (by rw [← hg0id, ← Option.some_inj.mp hg0, hgoldid])
      show (h.heap.set index g)[idx]? = h.heap[idx]?
      rw [List.getElem?_set_ne hii]

theorem observe_update_existing (h : MinHeap) (pid : Nat) (g : CandidateGame)
    (index : Nat) (hgid : g.anchor_player.id = pid)
    (hl : alist_lookup h.index_map pid = some index) (hI : HeapInv h)
    (m : Nat) :
    observe (MinHeap.update_existing h pid g) m =
    if m = pid then some g else observe h m := by
  unfold MinHeap.update_existing
  rw [hl]
  rw [observe_update_position _ _ (HeapInv_set_state h pid g hgid index hl hI)]
  exact observe_set_state h pid g index hl hI m

/-- Appending a fresh anchor preserves the invariant. -/
theorem HeapInv_append_state (h : MinHeap) (g : CandidateGame)
    (hl : alist_lookup h.index_map g.anchor_player.id = none)
    (hI : HeapInv h) :
    HeapInv ⟨h.heap ++ [g],
      alist_set h.index_map g.anchor_player.id h.heap.length⟩ := by
  obtain ⟨h1, h2⟩ := hI
  constructor
  · intro m idx hml
    rw [show (⟨h.heap ++ [g], alist_set h.index_map g.anchor_player.id
        h.heap.length⟩ : MinHeap).index_map =
        alist_set h.index_map g.anchor_player.id h.heap.length from rfl,
      alist_lookup_set] at hml
    by_cases hm : g.anchor_player.id = m
    · rw [if_pos hm] at hml
      obtain rfl : h.heap.length = idx := Option.some_inj.mp hml
      exact ⟨g, List.getElem?_concat_length h.heap g, hm⟩
    · rw [if_neg hm] at hml
      obtain ⟨g0, hg0, hg0id⟩ := h1 m idx hml
      refine ⟨g0, ?_, hg0id⟩
      show (h.heap ++ [g])[idx]? = some g0
      rw [List.getElem?_append_left (getElem?_some_lt hg0)]
      exact hg0
  · intro n g' hg'
    rw [show (⟨h.heap ++ [g], alist_set h.index_map g.anchor_player.id
        h.heap.length⟩ : MinHeap).heap = h.heap ++ [g] from rfl] at hg'
    show alist_lookup (alist_set h.index_map g.anchor_player.id
      h.heap.length) g'.anchor_player.id = some n
    rw [alist_lookup_set]
    by_cases hn : n < h.heap.length
    · rw [List.getElem?_append_left hn] at hg'
      have hold := h2 n g' hg'
      have hne : g.anchor_player.id ≠ g'.anchor_player.id := by
        intro e
        rw [← e, hl] at hold
        exact Option.noConfusion hold
      rw [if_neg hne]
      exact hold
    · rw [List.getElem?_append_right (Nat.le_of_not_lt hn)] at hg'
      have hlt : n - h.heap.length < 1 := by simpa using getElem?_some_lt hg'
      have hn' : n = h.heap.length := by omega
      have hn0 : n - h.heap.length = 0 := by omega
      rw [hn0] at hg'
      have e : g = g' := Option.some_inj.mp (by simpa using hg')
      rw [← e, if_pos rfl, hn']

/-- Appending a fresh anchor adds exactly one observed entry. -/
theorem observe_append_state (h : MinHeap) (g : CandidateGame)
    (_hl : alist_lookup h.index_map g.anchor_player.id = none)
    (hI : HeapInv h) (m : Nat) :
    observe ⟨h.heap ++ [g],
      alist_set h.index_map g.anchor_player.id h.heap.length⟩ m =
    if m = g.anchor_player.id then some g else observe h m := by
  rw [observe_mk, alist_lookup_set]
  by_cases hm : g.anchor_player.id = m
  · rw [if_pos hm, if_pos hm.symm]
    show (h.heap ++ [g])[h.heap.length]? = some g
    exact List.getElem?_concat_length h.heap g
  · rw [if_neg hm, if_neg (fun e => hm e.symm), observe_def]
    cases hlm : alist_lookup h.index_map m with
    | none => rfl
    | some idx =>
      obtain ⟨g0, hg0, _⟩ := hI.1 m idx hlm
      show (h.heap ++ [g])[idx]? = h.heap[idx]?
      rw [List.getElem?_append_left (getElem?_some_lt hg0)]

/-- `push` updates the observed map at exactly the game's anchor id. -/
theorem observe_push (h : MinHeap) (g : CandidateGame) (hI : HeapInv h)
    (m : Nat) :
    observe (MinHeap.push h g) m =
    if m = g.anchor_player.id then some g else observe h m := by
  simp only [MinHeap.push]
  cases hl : alist_lookup h.index_map g.anchor_player.id with
  | some i => exact observe_update_existing h _ g i rfl hl hI m
  | none =>
    rw [show (h.heap ++ [g]).length - 1 = h.heap.length from by simp]
    rw [observe_sift_up _ _ (HeapInv_append_state h g hl hI)]
    exact observe_append_state h g hl hI m

/-- Popping the last slot and deleting its id removes exactly that
observed entry. -/
theorem observe_droplast_del (h : MinHeap) (g : CandidateGame)
    (hg : h.heap.getLast? = some g) (hI : HeapInv h) (m : Nat) :
    observe ⟨h.heap.dropLast, alist_del h.index_map g.anchor_player.id⟩ m =
    if m = g.anchor_player.id then none else observe h m := by
  rw [observe_mk, alist_lookup_del]
  rw [List.getLast?_eq_getElem?] at hg
  by_cases hm : g.anchor_player.id = m
  · rw [if_pos hm, if_pos hm.symm]
  · rw [if_neg hm, if_neg (fun e => hm e.symm), observe_def]
    cases hlm : alist_lookup h.index_map m with
    | none => rfl
    | some idx =>
      obtain ⟨g0, hg0, hg0id⟩ := hI.1 m idx hlm
      have hne : idx ≠ h.heap.length - 1 := by
        intro e
        rw [e, hg] at hg0
        exact hm (by rw [← hg0id, ← Option.some_inj.mp hg0])
      show h.heap.dropLast[idx]? = h.heap[idx]?
      rw [List.getElem?_dropLast,
        if_pos (by have := getElem?_some_lt hg0; omega)]

/-- `remove` deletes exactly the given anchor id from the observed map. -/
theorem observe_remove (h : MinHeap) (pid : Nat) (hI : HeapInv h) (m : Nat) :
    observe (MinHeap.remove h pid) m = if m = pid then none else observe h m := by
  unfold MinHeap.remove
  cases hl : alist_lookup h.index_map pid with
  | none =>
    by_cases hm : m = pid
    · rw [if_pos hm, observe_def, hm, hl]
    · rw [if_neg hm]
  | some index =>
    obtain ⟨ga, hga, hgaid⟩ := hI.1 pid index hl
    have hlen : index < h.heap.length := getElem?_some_lt hga
    simp only [MinHeap.remove_at_index]
    split
    · next hil =>
      split
      · next game hgl =>
        have hgame : game = ga := by
          rw [List.getLast?_eq_getElem?, ← hil, hga] at hgl
          exact (Option.some_inj.mp hgl).symm
        rw [observe_droplast_del h game hgl hI m, hgame, hgaid]
      · next hnone =>
        exfalso
        have : h.heap = [] := List.getLast?_eq_none_iff.mp hnone
        rw [this] at hga
        exact Option.noConfusion hga
    · next hil =>
      have hIs := HeapInv_swap h index (h.heap.length - 1) hI
      split
      · next removed hgl =>
        have hb : ∃ b, h.heap[h.heap.length - 1]? = some b := by
          cases hbv : h.heap[h.heap.length - 1]? with
          | none =>
            exact absurd (List.getElem?_eq_none_iff.mp hbv) (by omega)
          | some b => exact ⟨b, rfl⟩
        obtain ⟨b, hbv⟩ := hb
        have hrem : removed = ga := by
          rw [List.getLast?_eq_getElem?, MinHeap.swap_heap_length,
            swap_getElem h index (h.heap.length - 1) ga b hga hbv,
            if_pos rfl] at hgl
          exact (Option.some_inj.mp hgl).symm
        rw [observe_update_position _ _
          (HeapInv_droplast_del _ removed hgl hIs)]
        rw [observe_droplast_del _ removed hgl hIs m]
        rw [hrem, hgaid]
        by_cases hm : m = pid
        · rw [if_pos hm, if_pos hm]
        · rw [if_neg hm, if_neg hm,
            observe_swap h index (h.heap.length - 1) hI m]
      · next hnone =>
        exfalso
        have he : (MinHeap.swap h index (h.heap.length - 1)).heap = [] :=
          List.getLast?_eq_none_iff.mp hnone
        have hlen0 : h.heap.length = 0 := by
          have := congrArg List.length he
          rwa [MinHeap.swap_heap_length, List.length_nil] at this
        omega

/-! ### The best-game computation as a function of the pool's contents -/

/-- `slice.indices` on already-clamped bounds. -/
theorem slice_indices_of_le (lo hi : Int) (n : Nat) (h1 : 0 ≤ lo)
    (h2 : lo ≤ n) (h3 : 0 ≤ hi) (h4 : hi ≤ n) :
    SortedSet.slice_indices lo hi n = (lo.toNat, hi.toNat) := by
  unfold SortedSet.slice_indices
  rw [if_neg (by omega), if_neg (by omega)]
  simp only [Prod.mk.injEq]
  constructor <;> omega

/-- An element never counts itself among its strict predecessors. -/
theorem countP_keyLt_lt_length {a : Player} : ∀ {l : List Player},
    a ∈ l → l.countP (fun x => decide (keyLt x a)) < l.length := by
  intro l
  induction l with
  | nil => intro h; simp at h
  | cons x xs ih =>
    intro h
    have hle : xs.countP (fun y => decide (keyLt y a)) ≤ xs.length :=
      List.countP_le_length _
    have hz : (if (false = true) then 1 else 0) = 0 := by simp
    have ho : (if (true = true) then 1 else 0) = 1 := by simp
    simp only [List.countP_cons, List.length_cons]
    rcases List.mem_cons.mp h with h | h
    · rw [show (decide (keyLt x a)) = false from by
        rw [← h]; exact decide_eq_false (keyLt_irrefl a), hz]
      omega
    · have hxs := ih h
      by_cases hx : keyLt x a
      · rw [decide_eq_true hx, ho]
        omega
      · rw [decide_eq_false hx, hz]
        omega

/-- `_calculate_best_game_including_player`, expressed over the pool's
in-order contents: rank by key, rank window above the anchor, then the
enumeration loop. -/
def calcL (cfg : Config) (l : List Player) (a : Player) :
    Except String (Option CandidateGame) :=
  let r := l.countP (fun x => decide (keyLt x a))
  let w := (l.drop (r + 1)).take
    (min l.length (r + 1 + skill_window cfg) - (r + 1))
  if w.length < required_players cfg then .ok none
  else cb_loop cfg a (combinations w (required_players cfg)) none none

/-- On a well-formed pool, the best-game computation is a function of the
in-order contents alone. -/
theorem calc_eq_calcL {cfg : Config} {t : AVLTree} {a : Player}
    (hs : SortedT t) (hsz : sizeOK t = true)
    (hv : a ∈ SortedSet.inorder t) :
    calculate_best_game_including_player cfg t a =
      calcL cfg (SortedSet.inorder t) a := by
  have hr : SortedSet.index t a
      = .ok ((SortedSet.inorder t).countP (fun x => decide (keyLt x a))) :=
    index_eq hs hsz ⟨a, hv, ⟨rfl, rfl⟩⟩
  have hrlt : (SortedSet.inorder t).countP (fun x => decide (keyLt x a))
      < (SortedSet.inorder t).length := countP_keyLt_lt_length hv
  simp only [calculate_best_game_including_player,
    containsP_of_mem hs hv, not_true, if_false, hr, Bind.bind, Except.bind,
    length_eq hsz, sliceP_eq hsz]
  rw [slice_indices_of_le _ _ _ (by omega) (by push_cast; omega)
    (by omega) (by push_cast; omega)]
  simp only [Int.toNat_natCast]
  rfl

/-! ### Window stability under pool insertion -/

/-- A fresh key is inserted at its rank. -/
theorem keyInsert_eq_rank_split {p : Player} : ∀ {l : List Player},
    l.Pairwise keyLt → (∀ x ∈ l, ¬ keyEq x p) →
    keyInsert l p = l.take (l.countP (fun x => decide (keyLt x p)))
      ++ p :: l.drop (l.countP (fun x => decide (keyLt x p))) := by
  intro l
  induction l with
  | nil => intro _ _; rfl
  | cons x xs ih =>
    intro hp hf
    rw [List.pairwise_cons] at hp
    unfold keyInsert
    by_cases h1 : keyLt p x
    · rw [if_pos h1]
      have hz : (x :: xs).countP (fun y => decide (keyLt y p)) = 0 := by
        refine List.countP_eq_zero.mpr ?_
        intro y hy
        rcases List.mem_cons.mp hy with hy | hy
        · simpa [hy] using keyLt_asymm h1
        · simp only [decide_eq_true_eq]
          intro hyp
          exact keyLt_asymm h1 (keyLt_trans (hp.1 y hy) hyp)
      rw [hz]
      rfl
    · rw [if_neg h1]
      by_cases h2 : keyLt x p
      · rw [if_pos h2]
        have hc : (x :: xs).countP (fun y => decide (keyLt y p))
            = xs.countP (fun y => decide (keyLt y p)) + 1 := by
          rw [List.countP_cons]
          simp [h2]
        rw [hc, ih hp.2 (fun y hy => hf y (List.mem_cons_of_mem x hy))]
        rfl
      · rcases keyLt_trichotomy x p with h | h | h
        · exact absurd h h2
        · exact absurd h (hf x (List.mem_cons_self x xs))
        · exact absurd h h1

/-- In a sorted list, every member sits at its rank. -/
theorem sorted_getElem_rank {a : Player} : ∀ {l : List Player},
    l.Pairwise keyLt → a ∈ l →
    l[l.countP (fun x => decide (keyLt x a))]? = some a := by
  intro l
  induction l with
  | nil => intro _ h; simp at h
  | cons x xs ih =>
    intro hp ha
    rw [List.pairwise_cons] at hp
    rcases List.mem_cons.mp ha with h | h
    · subst h
      have hz : (a :: xs).countP (fun y => decide (keyLt y a)) = 0 := by
        refine List.countP_eq_zero.mpr ?_
        intro y hy
        rcases List.mem_cons.mp hy with hy | hy
        · simp only [decide_eq_true_eq, hy]
          exact keyLt_irrefl a
        · simp only [decide_eq_true_eq]
          exact keyLt_asymm (hp.1 y hy)
      rw [hz, List.getElem?_cons_zero]
    · have hc : (x :: xs).countP (fun y => decide (keyLt y a))
          = xs.countP (fun y => decide (keyLt y a)) + 1 := by
        rw [List.countP_cons]
        simp [hp.1 a h]
      rw [hc, List.getElem?_cons_succ]
      exact ih hp.2 h

/-- Counting after a fresh-key insert. -/
theorem countP_keyInsert_fresh {l : List Player} {p : Player}
    (hf : ∀ x ∈ l, ¬ keyEq x p) (q : Player → Bool) :
    (keyInsert l p).countP q = l.countP q + (if q p then 1 else 0) := by
  rw [(keyInsert_perm_fresh hf).countP_congr (fun x _ => rfl), List.countP_cons]

theorem length_keyInsert_fresh {l : List Player} {p : Player}
    (hf : ∀ x ∈ l, ¬ keyEq x p) :
    (keyInsert l p).length = l.length + 1 := by
  rw [(keyInsert_perm_fresh hf).length_eq]
  rfl

theorem mem_keyInsert_of_mem {l : List Player} {p a : Player}
    (hf : ∀ x ∈ l, ¬ keyEq x p) (ha : a ∈ l) : a ∈ keyInsert l p :=
  (keyInsert_perm_fresh hf).symm.subset (List.mem_cons_of_mem p ha)

theorem self_mem_keyInsert {l : List Player} {p : Player}
    (hf : ∀ x ∈ l, ¬ keyEq x p) : p ∈ keyInsert l p :=
  (keyInsert_perm_fresh hf).symm.subset (List.mem_cons_self p l)

/-- A member whose rank lies in a slice belongs to the slice. -/
theorem mem_slice_of_rank {l : List Player} (hp : l.Pairwise keyLt)
    {a : Player} (ha : a ∈ l) (s e : Nat)
    (hs : s ≤ l.countP (fun x => decide (keyLt x a)))
    (he : l.countP (fun x => decide (keyLt x a)) < e) :
    a ∈ (l.drop s).take (e - s) := by
  have hget : ((l.drop s).take (e - s))[l.countP
      (fun x => decide (keyLt x a)) - s]? = some a := by
    rw [List.getElem?_take_of_lt (by omega), List.getElem?_drop,
      show s + (l.countP (fun x => decide (keyLt x a)) - s)
        = l.countP (fun x => decide (keyLt x a)) from by omega]
    exact sorted_getElem_rank hp ha
  exact List.getElem?_mem hget

/-- Strict rank growth along the key order. -/
theorem countP_keyLt_strict {a p : Player} (hap : keyLt a p) :
    ∀ {l : List Player}, a ∈ l →
    l.countP (fun x => decide (keyLt x a))
      < l.countP (fun x => decide (keyLt x p)) := by
  intro l
  induction l with
  | nil => intro h; simp at h
  | cons x xs ih =>
    intro h
    have hz : (if (false = true) then 1 else 0) = 0 := by simp
    have ho : (if (true = true) then 1 else 0) = 1 := by simp
    have hmono : xs.countP (fun y => decide (keyLt y a))
        ≤ xs.countP (fun y => decide (keyLt y p)) :=
      List.countP_mono_left (fun y _ hy =>
        decide_eq_true (keyLt_trans (of_decide_eq_true hy) hap))
    simp only [List.countP_cons]
    rcases List.mem_cons.mp h with h | h
    · subst h
      rw [decide_eq_false (keyLt_irrefl a), decide_eq_true hap, hz, ho]
      omega
    · have hxs := ih h
      by_cases hx : keyLt x a
      · rw [decide_eq_true hx, decide_eq_true (keyLt_trans hx hap), ho]
        omega
      · rw [decide_eq_false hx, hz]
        by_cases hxp : keyLt x p
        · rw [decide_eq_true hxp, ho]
          omega
        · rw [decide_eq_false hxp, hz]
          omega

/-- **Window stability.**  Inserting a fresh-key player `p` into a sorted
pool leaves the best-game computation of any anchor `a` outside the
affected range `[rank(p) - W, rank(p))` unchanged: insertions strictly
below an anchor shift its rank without touching the players above it, and
insertions at least `W` ranks above it land beyond its window. -/
theorem calcL_keyInsert_stable (cfg : Config) {l : List Player} {p a : Player}
    (hp : l.Pairwise keyLt) (hf : ∀ x ∈ l, ¬ keyEq x p) (ha : a ∈ l)
    (hout : a ∉ ((keyInsert l p).drop
        (l.countP (fun x => decide (keyLt x p)) - skill_window cfg)).take
        (l.countP (fun x => decide (keyLt x p))
          - (l.countP (fun x => decide (keyLt x p)) - skill_window cfg))) :
    calcL cfg (keyInsert l p) a = calcL cfg l a := by
  have hfa : ¬ keyEq a p := hf a ha
  have hsplit := keyInsert_eq_rank_split hp hf
  have hlen := length_keyInsert_fresh hf
  have hrp_le : l.countP (fun x => decide (keyLt x p)) ≤ l.length :=
    List.countP_le_length _
  have hra_lt : l.countP (fun x => decide (keyLt x a)) < l.length :=
    countP_keyLt_lt_length ha
  rcases keyLt_trichotomy a p with hap | hkeq | hpa
  · -- `p` strictly above `a`: `hout` forces the insertion beyond the window
    have hra' : (keyInsert l p).countP (fun x => decide (keyLt x a))
        = l.countP (fun x => decide (keyLt x a)) := by
      rw [countP_keyInsert_fresh hf, decide_eq_false (keyLt_asymm hap)]
      simp
    have hralt : l.countP (fun x => decide (keyLt x a))
        < l.countP (fun x => decide (keyLt x p)) := countP_keyLt_strict hap ha
    have hbeyond : l.countP (fun x => decide (keyLt x a)) + skill_window cfg
        < l.countP (fun x => decide (keyLt x p)) := by
      by_contra hc
      exact hout (by
        refine mem_slice_of_rank (keyInsert_sorted hp)
          (mem_keyInsert_of_mem hf ha) _ _ ?_ ?_
        · rw [hra']; omega
        · rw [hra']; omega)
    have hW1 : min (keyInsert l p).length
        (l.countP (fun x => decide (keyLt x a)) + 1 + skill_window cfg)
        - (l.countP (fun x => decide (keyLt x a)) + 1) = skill_window cfg := by
      rw [hlen]; omega
    have hW2 : min l.length (l.countP (fun x => decide (keyLt x a)) + 1
        + skill_window cfg) - (l.countP (fun x => decide (keyLt x a)) + 1)
        = skill_window cfg := by omega
    have hdrop : (keyInsert l p).drop
        (l.countP (fun x => decide (keyLt x a)) + 1)
        = (l.drop (l.countP (fun x => decide (keyLt x a)) + 1)).take
            (l.countP (fun x => decide (keyLt x p))
              - (l.countP (fun x => decide (keyLt x a)) + 1))
          ++ p :: l.drop (l.countP (fun x => decide (keyLt x p))) := by
      rw [hsplit, List.drop_append_eq_append_drop, List.drop_take,
        List.length_take,
        show l.countP (fun x => decide (keyLt x a)) + 1
          - min (l.countP (fun x => decide (keyLt x p))) l.length
          = 0 from by omega, List.drop_zero]
    have htake : ((l.drop (l.countP (fun x => decide (keyLt x a)) + 1)).take
          (l.countP (fun x => decide (keyLt x p))
            - (l.countP (fun x => decide (keyLt x a)) + 1))
        ++ p :: l.drop (l.countP (fun x => decide (keyLt x p)))).take
          (skill_window cfg)
        = (l.drop (l.countP (fun x => decide (keyLt x a)) + 1)).take
          (skill_window cfg) := by
      rw [List.take_append_of_le_length
        (by rw [List.length_take, List.length_drop]; omega), List.take_take,
        show min (skill_window cfg) (l.countP (fun x => decide (keyLt x p))
          - (l.countP (fun x => decide (keyLt x a)) + 1))
          = skill_window cfg from by omega]
    simp only [calcL]
    rw [hra', hW1, hW2, hdrop, htake]
  · exact absurd hkeq hfa
  · -- `p` strictly below `a`: the window above `a` is untouched
    have hra' : (keyInsert l p).countP (fun x => decide (keyLt x a))
        = l.countP (fun x => decide (keyLt x a)) + 1 := by
      rw [countP_keyInsert_fresh hf, decide_eq_true hpa]
      simp
    have hrp_le_ra : l.countP (fun x => decide (keyLt x p))
        ≤ l.countP (fun x => decide (keyLt x a)) :=
      List.countP_mono_left (fun y _ hy =>
        decide_eq_true (keyLt_trans (of_decide_eq_true hy) hpa))
    have hW : min (keyInsert l p).length
        (l.countP (fun x => decide (keyLt x a)) + 1 + 1 + skill_window cfg)
        - (l.countP (fun x => decide (keyLt x a)) + 1 + 1)
        = min l.length (l.countP (fun x => decide (keyLt x a)) + 1
          + skill_window cfg)
          - (l.countP (fun x => decide (keyLt x a)) + 1) := by
      rw [hlen]; omega
    have hdrop : (keyInsert l p).drop
        (l.countP (fun x => decide (keyLt x a)) + 1 + 1)
        = l.drop (l.countP (fun x => decide (keyLt x a)) + 1) := by
      rw [hsplit, List.drop_append_eq_append_drop,
        List.drop_eq_nil_of_le (by
          rw [List.length_take]; omega),
        List.nil_append, List.length_take,
        show l.countP (fun x => decide (keyLt x a)) + 1 + 1
          - min (l.countP (fun x => decide (keyLt x p))) l.length
          = (l.countP (fun x => decide (keyLt x a)) + 1
            - l.countP (fun x => decide (keyLt x p))) + 1 from by omega,
        List.drop_succ_cons, List.drop_drop,
        show l.countP (fun x => decide (keyLt x p))
          + (l.countP (fun x => decide (keyLt x a)) + 1
            - l.countP (fun x => decide (keyLt x p)))
          = l.countP (fun x => decide (keyLt x a)) + 1 from by omega]
    simp only [calcL]
    rw [hra', hW, hdrop]

/-! ### The enumeration never fails (exact strategy; greedy with p = 1) -/

theorem pairwise_keyLt_getElem? {l : List Player} (hp : l.Pairwise keyLt)
    {i j : Nat} {x y : Player} (hx : l[i]? = some x) (hy : l[j]? = some y)
    (hij : i < j) : keyLt x y := by
  obtain ⟨hi, hgi⟩ := List.getElem?_eq_some.mp hx
  obtain ⟨hj, hgj⟩ := List.getElem?_eq_some.mp hy
  have := List.pairwise_iff_getElem.mp hp i j hi hj hij
  rw [hgi, hgj] at this
  exact this

theorem team_p_skill_ok (team : List Player) (p : PNorm) (h : team ≠ []) :
    ∃ v, team_p_skill team p = .ok v := by
  cases p with
  | one => exact ⟨_, rfl⟩
  | inf =>
    cases team with
    | nil => exact absurd rfl h
    | cons t ts => exact ⟨_, rfl⟩

theorem punion_ne_nil {x : List Player} (y : List Player) (h : x ≠ []) :
    punion x y ≠ [] := by
  unfold punion
  cases x with
  | nil => exact absurd rfl h
  | cons a as => simp

theorem punion_singleton_ne_nil (c : List Player) (a : Player) :
    punion c [a] ≠ [] := by
  unfold punion
  cases c with
  | nil => simp [pmem]
  | cons x xs => simp

theorem q_uniformity_ok (gp : List Player) (q : PNorm) (h : gp ≠ []) :
    ∃ v, q_uniformity gp q = .ok v := by
  cases gp with
  | nil => exact absurd rfl h
  | cons z zs =>
    cases q with
    | one =>
      unfold q_uniformity mean_skill
      rw [if_neg (by simp), if_neg (by simp)]
      exact ⟨_, rfl⟩
    | inf =>
      unfold q_uniformity mean_skill
      rw [if_neg (by simp)]
      exact ⟨_, rfl⟩

/-- `_create_candidate_game` succeeds on two non-empty teams (and records
the arguments). -/
theorem create_candidate_game_ok (cfg : Config) (a : Player)
    (tx ty : List Player) (hx : tx ≠ []) (hy : ty ≠ []) :
    ∃ g, create_candidate_game cfg a tx ty = .ok g := by
  obtain ⟨vx, hvx⟩ := team_p_skill_ok tx cfg.p_norm hx
  obtain ⟨vy, hvy⟩ := team_p_skill_ok ty cfg.p_norm hy
  obtain ⟨vq, hvq⟩ :=
    q_uniformity_ok (punion tx ty) cfg.q_norm (punion_ne_nil ty hx)
  refine ⟨⟨a, tx, ty, cfg.fairness_weight * |vx - vy| + vq, none⟩, ?_⟩
  simp [create_candidate_game, mkCandidateGame, imbalance, p_fairness,
    Bind.bind, Except.bind, hvx, hvy, hvq, pure, Except.pure]

/-- The set difference `R - (c ∪ {a})` as a filter, for a fresh anchor. -/
theorem pdiff_punion_filter {R c : List Player} {a : Player}
    (hanchor : ∀ p ∈ R, p.id ≠ a.id) (hndR : (R.map Player.id).Nodup)
    (hcsub : c.Sublist R) :
    pdiff R (punion c [a]) = R.filter (fun p => decide (p ∉ c)) := by
  have hpm : pmem a c = false := by
    rw [Bool.eq_false_iff]
    intro hp
    obtain ⟨q, hq, hqe⟩ := pmem_iff.mp hp
    exact hanchor q (hcsub.subset hq) hqe
  have hX : punion c [a] = c ++ [a] := by
    have hkeep : (!(pmem a c)) = true := by rw [hpm]; rfl
    simp [punion, hkeep]
  unfold pdiff
  apply List.filter_congr
  intro p hp
  have hpa : (a.id == p.id) = false := by
    simpa using fun he => hanchor p hp he.symm
  have hmem : pmem p (punion c [a]) = pmem p c := by
    rw [hX]
    simp only [pmem, List.any_append, List.any_cons, List.any_nil,
      Bool.or_false]
    rw [hpa]
    simp
  rw [hmem]
  by_cases hpc : p ∈ c
  · simp [pmem_of_mem hpc, hpc]
  · have hnone : pmem p c = false := by
      rw [Bool.eq_false_iff]
      intro hq
      obtain ⟨q, hq', hqe⟩ := pmem_iff.mp hq
      have hqR : q ∈ R := hcsub.subset hq'
      have hqp : q = p := nodup_ids_distinct hndR hqR hp hqe
      exact hpc (hqp ▸ hq')
    simp [hnone, hpc]

/-- The brute-force inner loop succeeds whenever every enumerated
candidate game does. -/
theorem bf_loop_ok (cfg : Config) (a : Player) (R : List Player) :
    ∀ (cs : List (List Player)) (best : Option CandidateGame)
      (minv : Option ℚ) (n : Nat),
    (∀ c ∈ cs, ∃ g, create_candidate_game cfg a (punion c [a])
        (pdiff R (punion c [a])) = .ok g) →
    ∃ res, bf_loop cfg a R cs best minv n = .ok res := by
  intro cs
  induction cs with
  | nil => intro best minv n _; exact ⟨_, rfl⟩
  | cons c rest ih =>
    intro best minv n hcs
    obtain ⟨g, hg⟩ := hcs c (by simp)
    unfold bf_loop
    rw [hg]
    simp only [Bind.bind, Except.bind]
    split
    · split
      · exact ⟨_, rfl⟩
      · exact ih _ _ _ (fun c' hc' => hcs c' (by simp [hc']))
    · split
      · exact ⟨_, rfl⟩
      · exact ih _ _ _ (fun c' hc' => hcs c' (by simp [hc']))

/-- `_brute_force_partition` succeeds on a fresh-id candidate set of the
right size. -/
theorem brute_force_ok (cfg : Config) (a : Player) (R : List Player)
    (hk : 1 ≤ cfg.team_size) (hR : R.length = 2 * cfg.team_size - 1)
    (hnd : ((a :: R).map Player.id).Nodup) :
    ∃ res, brute_force_partition cfg a R = .ok res := by
  simp only [List.map_cons, List.nodup_cons, List.mem_map] at hnd
  have hanchor : ∀ p ∈ R, p.id ≠ a.id := fun p hp he => hnd.1 ⟨p, hp, he⟩
  have hndR : (R.map Player.id).Nodup := hnd.2
  unfold brute_force_partition
  refine bf_loop_ok cfg a R _ none none 0 ?_
  intro c hc
  obtain ⟨hclen, hcsub⟩ := mem_combinations R (cfg.team_size - 1) c hc
  refine create_candidate_game_ok cfg a _ _ (punion_singleton_ne_nil c a) ?_
  rw [pdiff_punion_filter hanchor hndR hcsub]
  intro hnil
  have := congrArg List.length hnil
  rw [length_filter_not_mem_sublist hcsub (hndR.of_map _),
    List.length_nil, hR, hclen] at this
  omega

/-- With `p = 1` both team p-skills are plain sums, so the greedy
assignment loop never fails. -/
theorem greedy_loop_one_ok (cfg : Config) (hp : cfg.p_norm = PNorm.one) :
    ∀ (L X Y : List Player), ∃ r, greedy_loop cfg L X Y = .ok r := by
  intro L
  induction L with
  | nil => intro X Y; exact ⟨_, rfl⟩
  | cons p rest ih =>
    intro X Y
    unfold greedy_loop
    split
    · rw [hp]
      simp only [p_fairness, team_p_skill, Bind.bind, Except.bind]
      split
      · exact ih _ _
      · exact ih _ _
    · split
      · exact ih _ _
      · exact ih _ _

/-- `_greedy_balanced_partition` succeeds under the 1-norm on a fresh-id
candidate set of the right size: every player is routed, both teams come
out of the loop with `k` players, and the game construction succeeds on
the two non-empty teams. -/
theorem greedy_ok (cfg : Config) (a : Player) (R : List Player)
    (hk : 1 ≤ cfg.team_size) (hp : cfg.p_norm = PNorm.one)
    (hR : R.length = 2 * cfg.team_size - 1)
    (hnd : ((a :: R).map Player.id).Nodup) :
    ∃ res, greedy_balanced_partition cfg a R = .ok res := by
  have hanchor : ∀ p ∈ R, p.id ≠ a.id := by
    simp only [List.map_cons, List.nodup_cons, List.mem_map] at hnd
    exact fun p hp' he => hnd.1 ⟨p, hp', he⟩
  have hpu : punion [a] R = a :: R := by
    unfold punion
    have hfilter : R.filter (fun p => !(pmem p [a])) = R := by
      rw [List.filter_eq_self]
      intro p hp'
      simp only [pmem, List.any_cons, List.any_nil, Bool.or_false,
        Bool.not_eq_true']
      simpa using fun he => hanchor p hp' he.symm
    rw [hfilter]
    rfl
  have hperm : (SortedSet.inorder (List.foldl SortedSet.add .leaf
      (punion [a] R))).Perm (a :: R) := by
    rw [hpu, inorder_foldl_add _ .leaf (by simp [SortedT, SortedSet.inorder])]
    refine (foldl_keyInsert_perm _ [] ?_).trans (by simp)
    simp only [List.nil_append]
    exact (List.pairwise_map.mp hnd).imp (fun hne hkeq => hne hkeq.2)
  have hrevperm : ((SortedSet.inorder (List.foldl SortedSet.add .leaf
      (punion [a] R))).reverse).Perm (a :: R) :=
    (List.reverse_perm _).trans hperm
  have hlen : (SortedSet.inorder (List.foldl SortedSet.add .leaf
      (punion [a] R))).reverse.length = 2 * cfg.team_size := by
    rw [hrevperm.length_eq]
    simp [hR]
    omega
  obtain ⟨⟨tx, ty⟩, hloop⟩ := greedy_loop_one_ok cfg hp
    (SortedSet.inorder (List.foldl SortedSet.add .leaf
      (punion [a] R))).reverse [] []
  obtain ⟨h1, h2, _⟩ := greedy_loop_spec cfg _ [] [] tx ty
    (by simp) (by simp) (by simpa using hlen) hloop
  have htx : tx ≠ [] := by
    intro hn
    rw [hn] at h1
    simp only [List.length_nil] at h1
    omega
  have hty : ty ≠ [] := by
    intro hn
    rw [hn] at h2
    simp only [List.length_nil] at h2
    omega
  obtain ⟨g, hcr⟩ := create_candidate_game_ok cfg a tx ty htx hty
  refine ⟨(some g, some g.imbalance, 1), ?_⟩
  unfold greedy_balanced_partition
  rw [hloop]
  simp only [Bind.bind, Except.bind]
  rw [show create_candidate_game cfg a (tx, ty).1 (tx, ty).2 = .ok g from hcr]

/-- The enumeration loop of the best-game search succeeds, and any best
game it tracks is anchored at the player, whenever the configured
partition solver does so on every enumerated candidate set. -/
theorem cb_loop_ok (cfg : Config) (a : Player) :
    ∀ (rs : List (List Player)) (best : Option CandidateGame)
      (minv : Option ℚ),
    (∀ r ∈ rs, (∃ res, partition_solver cfg a r = .ok res) ∧
        (∀ g v m, partition_solver cfg a r = .ok (some g, v, m) →
          g.anchor_player = a)) →
    (∀ g, best = some g → g.anchor_player = a) →
    ∃ v, cb_loop cfg a rs best minv = .ok v ∧
      (∀ g, v = some g → g.anchor_player = a) := by
  intro rs
  induction rs with
  | nil => intro best minv _ hbest; exact ⟨best, rfl, hbest⟩
  | cons r rest ih =>
    intro best minv hrs hbest
    obtain ⟨⟨res, hps⟩, hshape⟩ := hrs r (by simp)
    unfold cb_loop
    split
    · exact ⟨best, rfl, hbest⟩
    · rw [hps]
      simp only [Bind.bind, Except.bind]
      split
      · refine ih _ _ (fun r' hr' => hrs r' (by simp [hr'])) ?_
        intro g hg
        exact hshape g res.2.1 res.2.2 (by rw [hps, ← hg])
      · exact ih _ _ (fun r' hr' => hrs r' (by simp [hr'])) hbest

/-- The best-game search over a sorted duplicate-free list never fails —
with the exact strategy for either norm, and with the greedy strategy
under the 1-norm — and its result is anchored at the player. -/
theorem calcL_ok (cfg : Config) {l : List Player} (a : Player)
    (hk : 1 ≤ cfg.team_size) (hst : cfg.approximate = false ∨ cfg.p_norm = PNorm.one)
    (hnd : (l.map Player.id).Nodup) (hp : l.Pairwise keyLt) (ha : a ∈ l) :
    ∃ v, calcL cfg l a = .ok v ∧ (∀ g, v = some g → g.anchor_player = a) := by
  simp only [calcL]
  split
  · exact ⟨none, rfl, by simp⟩
  · refine cb_loop_ok cfg a _ none none ?_ (by simp)
    intro r hr
    obtain ⟨hrlen, hrsub⟩ := mem_combinations _ _ r hr
    have hrlen' : r.length = 2 * cfg.team_size - 1 := by rw [hrlen]; rfl
    have hwsub : ((l.drop (l.countP (fun x => decide (keyLt x a)) + 1)).take
        (min l.length (l.countP (fun x => decide (keyLt x a)) + 1
          + skill_window cfg)
          - (l.countP (fun x => decide (keyLt x a)) + 1))).Sublist l :=
      (List.take_sublist _ _).trans (List.drop_sublist _ _)
    have hrsubl : r.Sublist l := hrsub.trans hwsub
    have hrknd : (r.map Player.id).Nodup := ((hrsubl.map _).nodup) hnd
    have haw : ∀ x ∈ (l.drop
        (l.countP (fun x => decide (keyLt x a)) + 1)).take
        (min l.length (l.countP (fun x => decide (keyLt x a)) + 1
          + skill_window cfg)
          - (l.countP (fun x => decide (keyLt x a)) + 1)), keyLt a x := by
      intro x hx
      have hx' : x ∈ l.drop (l.countP (fun y => decide (keyLt y a)) + 1) :=
        (List.take_sublist _ _).subset hx
      obtain ⟨i, hi⟩ := List.getElem?_of_mem hx'
      rw [List.getElem?_drop] at hi
      exact pairwise_keyLt_getElem? hp (sorted_getElem_rank hp ha) hi (by omega)
    have hanr : ∀ q ∈ r, q.id ≠ a.id := by
      intro q hq he
      have hqw := hrsub.subset hq
      have hql : q ∈ l := hrsubl.subset hq
      have heq : q = a := nodup_ids_distinct hnd hql ha he
      exact keyLt_irrefl a (heq ▸ haw q hqw)
    have hacons : ((a :: r).map Player.id).Nodup := by
      simp only [List.map_cons, List.nodup_cons, List.mem_map]
      refine ⟨?_, hrknd⟩
      rintro ⟨q, hq, hqe⟩
      exact hanr q hq hqe
    cases hA : cfg.approximate with
    | false =>
      have hpsr : partition_solver cfg a r
          = brute_force_partition cfg a r := by
        unfold partition_solver
        rw [hA]
        simp
      rw [hpsr]
      exact ⟨brute_force_ok cfg a r hk hrlen' hacons,
        fun g v m hbr =>
          (brute_force_game_shape cfg a r hk hrlen' hacons g v m hbr).1⟩
    | true =>
      have hp1 : cfg.p_norm = PNorm.one := by
        rcases hst with h | h
        · rw [hA] at h
          exact absurd h (by simp)
        · exact h
      have hpsr : partition_solver cfg a r
          = greedy_balanced_partition cfg a r := by
        unfold partition_solver
        rw [hA]
        simp
      rw [hpsr]
      exact ⟨greedy_ok cfg a r hk hp1 hrlen' hacons,
        fun g v m hbr =>
          (greedy_game_shape cfg a r hrlen' hk hacons g v m hbr).1⟩

/-- The pool is well formed: sorted by key with consistent cached sizes
and pairwise-distinct player ids. -/
def poolOK (t : AVLTree) : Prop :=
  SortedT t ∧ sizeOK t = true ∧
  ((SortedSet.inorder t).map Player.id).Nodup

/-- The best-game computation on a well-formed pool never fails with the
exact strategy, nor with the greedy strategy under the 1-norm. -/
theorem calc_ok (cfg : Config) {t : AVLTree} (a : Player)
    (hk : 1 ≤ cfg.team_size) (hst : cfg.approximate = false ∨ cfg.p_norm = PNorm.one)
    (hpo : poolOK t) (ha : a ∈ SortedSet.inorder t) :
    ∃ v, calculate_best_game_including_player cfg t a = .ok v ∧
      (∀ g, v = some g → g.anchor_player = a) := by
  obtain ⟨hs, hsz, hnd⟩ := hpo
  rw [calc_eq_calcL hs hsz ha]
  exact calcL_ok cfg a hk hst hnd hs ha

/-! ### The refresh loop, observationally -/

/-- A manager state is consistent: well-formed pool, agreeing heap index
map, and a heap that observes exactly the best game of every pool member
(absent for every id with no pool member). -/
def Consistent (cfg : Config) (s : MState) : Prop :=
  poolOK s.players ∧ HeapInv s.candidate_games ∧
  (∀ a ∈ SortedSet.inorder s.players,
    calculate_best_game_including_player cfg s.players a =
      .ok (observe s.candidate_games a.id)) ∧
  (∀ m : Nat, (∀ a ∈ SortedSet.inorder s.players, a.id ≠ m) →
    observe s.candidate_games m = none)

theorem Consistent_empty (cfg : Config) : Consistent cfg MState.empty := by
  refine ⟨⟨List.Pairwise.nil, rfl, List.nodup_nil⟩, HeapInv_empty, ?_, ?_⟩
  · intro a ha
    exact absurd ha (by simp [MState.empty, SortedSet.inorder])
  · intro m _
    rfl

theorem pairwise_not_keyEq_of_nodup_ids {l : List Player}
    (hnd : (l.map Player.id).Nodup) :
    l.Pairwise (fun a b => ¬ keyEq a b) := by
  have h := List.pairwise_map.mp hnd
  exact h.imp (fun hne he => hne he.2)

/-- One pass of the refresh loop on a fixed pool re-points the observed
heap map at exactly the processed anchors. -/
theorem ucg_loop_spec (cfg : Config) (t : AVLTree)
    (ms : List CandidateGame) :
    ∀ (L : List Player) (h : MinHeap), HeapInv h →
    (L.map Player.id).Nodup →
    (∀ a ∈ L, ∃ v, calculate_best_game_including_player cfg t a = .ok v ∧
        (∀ g, v = some g → g.anchor_player = a)) →
    ∃ h', ucg_loop cfg ⟨t, h, ms⟩ L = .ok ⟨t, h', ms⟩ ∧ HeapInv h' ∧
      (∀ m, (∀ a ∈ L, a.id ≠ m) → observe h' m = observe h m) ∧
      (∀ a ∈ L, calculate_best_game_including_player cfg t a
        = .ok (observe h' a.id)) := by
  intro L
  induction L with
  | nil =>
    intro h hI _ _
    exact ⟨h, rfl, hI, fun m _ => rfl, by simp⟩
  | cons a rest ih =>
    intro h hI hnd hok
    obtain ⟨v, hv, hshape⟩ := hok a (by simp)
    simp only [List.map_cons, List.nodup_cons, List.mem_map] at hnd
    have hrestnd : (rest.map Player.id).Nodup := hnd.2
    have haid : ∀ b ∈ rest, b.id ≠ a.id := fun b hb he => hnd.1 ⟨b, hb, he⟩
    unfold ucg_loop
    rw [hv]
    simp only [Bind.bind, Except.bind]
    cases v with
    | some g =>
      have hganchor : g.anchor_player = a := hshape g rfl
      obtain ⟨h', hrun, hI', hunt, hdone⟩ :=
        ih (h.push g) (HeapInv_push h g hI) hrestnd
          (fun b hb => hok b (by simp [hb]))
      refine ⟨h', hrun, hI', ?_, ?_⟩
      · intro m hm
        rw [hunt m (fun b hb => hm b (by simp [hb])), observe_push h g hI m,
          if_neg (fun e => (hm a (by simp)) (by rw [hganchor] at e; exact e.symm))]
      · intro b hb
        rcases List.mem_cons.mp hb with hb | hb
        · subst hb
          rw [hunt b.id (fun c hc => haid c hc), observe_push h g hI b.id,
            if_pos (by rw [hganchor])]
          exact hv
        · exact hdone b hb
    | none =>
      by_cases hc : MinHeap.containsId h a.id = true
      · rw [hc]
        obtain ⟨h', hrun, hI', hunt, hdone⟩ :=
          ih (MinHeap.remove h a.id) (HeapInv_remove h a.id hI) hrestnd
            (fun b hb => hok b (by simp [hb]))
        refine ⟨h', hrun, hI', ?_, ?_⟩
        · intro m hm
          rw [hunt m (fun b hb => hm b (by simp [hb])),
            observe_remove h a.id hI m,
            if_neg (fun e => (hm a (by simp)) e.symm)]
        · intro b hb
          rcases List.mem_cons.mp hb with hb | hb
          · subst hb
            rw [hunt b.id (fun c hc => haid c hc),
              observe_remove h b.id hI b.id, if_pos rfl]
            exact hv
          · exact hdone b hb
      · rw [Bool.not_eq_true] at hc
        rw [hc]
        have hnone : observe h a.id = none := by
          rw [observe_def]
          cases hl : alist_lookup h.index_map a.id with
          | none => rfl
          | some i =>
            exfalso
            have : MinHeap.containsId h a.id = true := by
              unfold MinHeap.containsId
              rw [hl]
              rfl
            rw [hc] at this
            exact Bool.noConfusion this
        obtain ⟨h', hrun, hI', hunt, hdone⟩ :=
          ih h hI hrestnd (fun b hb => hok b (by simp [hb]))
        refine ⟨h', hrun, hI', ?_, ?_⟩
        · intro m hm
          exact hunt m (fun b hb => hm b (by simp [hb]))
        · intro b hb
          rcases List.mem_cons.mp hb with hb | hb
          · subst hb
            rw [hunt b.id (fun c hc => haid c hc), hnone]
            exact hv
          · exact hdone b hb

/-- `_update_candidate_games_for_list`: on a fixed pool, the refresh
re-points the observed heap map at exactly the affected anchors, setting
each to its freshly computed best game. -/
theorem update_list_spec (cfg : Config) (t : AVLTree) (h : MinHeap)
    (ms : List CandidateGame) (aff : List Player) (hI : HeapInv h)
    (hnd : (aff.map Player.id).Nodup)
    (hok : ∀ a ∈ aff, ∃ v,
      calculate_best_game_including_player cfg t a = .ok v ∧
        (∀ g, v = some g → g.anchor_player = a)) :
    ∃ h', update_candidate_games_for_list cfg ⟨t, h, ms⟩ aff
        = .ok ⟨t, h', ms⟩ ∧ HeapInv h' ∧
      (∀ m, (∀ a ∈ aff, a.id ≠ m) → observe h' m = observe h m) ∧
      (∀ a ∈ aff, calculate_best_game_including_player cfg t a
        = .ok (observe h' a.id)) := by
  have hperm : (SortedSet.inorder
      (List.foldl SortedSet.add .leaf aff)).Perm aff := by
    rw [inorder_foldl_add aff .leaf List.Pairwise.nil]
    simpa using foldl_keyInsert_perm aff []
      (by simpa using pairwise_not_keyEq_of_nodup_ids hnd)
  obtain ⟨h', hrun, hI', hunt, hdone⟩ :=
    ucg_loop_spec cfg t ms _ h hI
      ((hperm.map Player.id).nodup_iff.mpr hnd)
      (fun a haL => hok a (hperm.subset haL))
  exact ⟨h', hrun, hI',
    fun m hm => hunt m (fun a haL => hm a (hperm.subset haL)),
    fun a haA => hdone a (hperm.symm.subset haA)⟩

/-! ### A single non-bulk insertion preserves consistency -/

/-- The affected-below window of a freshly inserted player: the players at
ranks `[rank(p) - W, rank(p))` of the new pool contents. -/
def affectedBelow (cfg : Config) (l : List Player) (p : Player) : List Player :=
  ((keyInsert l p).drop (l.countP (fun x => decide (keyLt x p))
      - skill_window cfg)).take
    (l.countP (fun x => decide (keyLt x p))
      - (l.countP (fun x => decide (keyLt x p)) - skill_window cfg))

theorem affectedBelow_sublist (cfg : Config) (l : List Player) (p : Player) :
    (affectedBelow cfg l p).Sublist (keyInsert l p) :=
  (List.take_sublist _ _).trans (List.drop_sublist _ _)

/-- Every affected player sits strictly below the inserted player, so it
is an old pool member with a different id. -/
theorem affectedBelow_mem (cfg : Config) {l : List Player} {p : Player}
    (hp : l.Pairwise keyLt) (hf : ∀ x ∈ l, ¬ keyEq x p) :
    ∀ x ∈ affectedBelow cfg l p, keyLt x p ∧ x ∈ l := by
  intro x hx
  have hrpF : (keyInsert l p).countP (fun y => decide (keyLt y p))
      = l.countP (fun y => decide (keyLt y p)) := by
    rw [countP_keyInsert_fresh hf, decide_eq_false (keyLt_irrefl p)]
    simp
  have hget : (keyInsert l p)[(keyInsert l p).countP
      (fun y => decide (keyLt y p))]? = some p :=
    sorted_getElem_rank (keyInsert_sorted hp) (self_mem_keyInsert hf)
  obtain ⟨i, hi⟩ := List.getElem?_of_mem hx
  have hilt : i < l.countP (fun y => decide (keyLt y p))
      - (l.countP (fun y => decide (keyLt y p)) - skill_window cfg) := by
    have hlt := getElem?_some_lt hi
    rw [affectedBelow, List.length_take] at hlt
    omega
  rw [affectedBelow, List.getElem?_take_of_lt hilt, List.getElem?_drop] at hi
  have hget' : (keyInsert l p)[l.countP
      (fun y => decide (keyLt y p))]? = some p := by
    rw [← hrpF]
    exact hget
  have hxp : keyLt x p :=
    pairwise_keyLt_getElem? (keyInsert_sorted hp) hi hget' (by omega)
  refine ⟨hxp, ?_⟩
  rcases mem_keyInsert (List.getElem?_mem hi) with h | h
  · exact h
  · exact absurd (h ▸ hxp) (keyLt_irrefl p)

/-- Refreshing the affected window after a fresh insertion restores
consistency, given a heap that already carries the new player's best
game and is otherwise unchanged. -/
theorem refresh_establishes_consistent (cfg : Config) (σ : MState)
    (p : Player) (hk : 1 ≤ cfg.team_size) (hst : cfg.approximate = false ∨ cfg.p_norm = PNorm.one)
    (hC : Consistent cfg σ)
    (hfresh : ∀ x ∈ SortedSet.inorder σ.players, x.id ≠ p.id)
    (h2 : MinHeap) (v : Option CandidateGame) (hI2 : HeapInv h2)
    (hv : calculate_best_game_including_player cfg
      (SortedSet.add σ.players p) p = .ok v)
    (hobs2 : ∀ m, observe h2 m
      = if m = p.id then v else observe σ.candidate_games m) :
    ∃ h3, update_candidate_games_for_list cfg
        ⟨SortedSet.add σ.players p, h2, σ.created_matches⟩
        (affectedBelow cfg (SortedSet.inorder σ.players) p)
      = .ok ⟨SortedSet.add σ.players p, h3, σ.created_matches⟩
      ∧ Consistent cfg
        ⟨SortedSet.add σ.players p, h3, σ.created_matches⟩ := by
  obtain ⟨⟨hs, hsz, hnd⟩, hI, hval, hnonm⟩ := hC
  have hfkey : ∀ x ∈ SortedSet.inorder σ.players, ¬ keyEq x p :=
    fun x hx hk' => hfresh x hx hk'.2
  have hin1 : SortedSet.inorder (SortedSet.add σ.players p)
      = keyInsert (SortedSet.inorder σ.players) p := inorder_insert _ p hs
  have hs1 : SortedT (SortedSet.add σ.players p) := SortedT_insert hs
  have hsz1 : sizeOK (SortedSet.add σ.players p) = true := sizeOK_insert hsz
  have hnd1 : ((SortedSet.inorder (SortedSet.add σ.players p)).map
      Player.id).Nodup := by
    rw [hin1]
    refine ((keyInsert_perm_fresh hfkey).map Player.id).nodup_iff.mpr ?_
    simp only [List.map_cons, List.nodup_cons, List.mem_map]
    refine ⟨?_, hnd⟩
    rintro ⟨q, hq, hqe⟩
    exact hfresh q hq hqe
  have hpo1 : poolOK (SortedSet.add σ.players p) := ⟨hs1, hsz1, hnd1⟩
  have hAmem := affectedBelow_mem cfg hs hfkey
  have hAid : ∀ x ∈ affectedBelow cfg (SortedSet.inorder σ.players) p,
      x.id ≠ p.id := fun x hx => hfresh x (hAmem x hx).2
  have hAnd : ((affectedBelow cfg (SortedSet.inorder σ.players) p).map
      Player.id).Nodup := by
    refine (((affectedBelow_sublist cfg _ p).map Player.id).nodup) ?_
    rw [← hin1]
    exact hnd1
  have hAin1 : ∀ a ∈ affectedBelow cfg (SortedSet.inorder σ.players) p,
      a ∈ SortedSet.inorder (SortedSet.add σ.players p) := by
    intro a ha
    rw [hin1]
    exact (affectedBelow_sublist cfg _ p).subset ha
  obtain ⟨h3, hrun3, hI3, hunt3, hdone3⟩ :=
    update_list_spec cfg (SortedSet.add σ.players p) h2 σ.created_matches
      (affectedBelow cfg (SortedSet.inorder σ.players) p) hI2 hAnd
      (fun a ha => calc_ok cfg a hk hst hpo1 (hAin1 a ha))
  refine ⟨h3, hrun3, hpo1, hI3, ?_, ?_⟩
  · intro a ha
    rw [hin1] at ha
    by_cases haA : a ∈ affectedBelow cfg (SortedSet.inorder σ.players) p
    · exact hdone3 a haA
    · rcases mem_keyInsert ha with hal | hap
      · -- an untouched old member: its window did not change
        have hane : a.id ≠ p.id := hfresh a hal
        have hAa : ∀ x ∈ affectedBelow cfg (SortedSet.inorder σ.players) p,
            x.id ≠ a.id := by
          intro x hx he
          exact haA ((nodup_ids_distinct hnd (hAmem x hx).2 hal he) ▸ hx)
        rw [hunt3 a.id hAa, hobs2 a.id, if_neg hane]
        have hamem1 : a ∈ SortedSet.inorder (SortedSet.add σ.players p) := by
          rw [hin1]
          exact mem_keyInsert_of_mem hfkey hal
        rw [calc_eq_calcL hs1 hsz1 hamem1, hin1]
        rw [calcL_keyInsert_stable cfg hs hfkey hal haA]
        rw [← calc_eq_calcL hs hsz hal]
        exact hval a hal
      · -- the inserted player: the heap already carries its best game
        subst hap
        rw [hunt3 a.id (fun x hx => hAid x hx), hobs2 a.id, if_pos rfl]
        exact hv
  · intro m hm
    rw [hin1] at hm
    have hAm : ∀ x ∈ affectedBelow cfg (SortedSet.inorder σ.players) p,
        x.id ≠ m := fun x hx =>
      hm x ((affectedBelow_sublist cfg _ p).subset hx)
    rw [hunt3 m hAm, hobs2 m,
      if_neg (fun e => hm p (self_mem_keyInsert hfkey) e.symm)]
    exact hnonm m (fun a ha => hm a (mem_keyInsert_of_mem hfkey ha))

/-- The rank of the freshly inserted player, and the affected slice, as
returned by `_insert_player`'s pool queries. -/
theorem insert_queries (cfg : Config) (σ : MState) (p : Player)
    (hs : SortedT σ.players) (hsz : sizeOK σ.players = true)
    (hfkey : ∀ x ∈ SortedSet.inorder σ.players, ¬ keyEq x p) :
    SortedSet.index (SortedSet.add σ.players p) p
      = .ok ((SortedSet.inorder σ.players).countP
          (fun x => decide (keyLt x p)))
    ∧ sliceP (SortedSet.add σ.players p)
        (max 0 (((SortedSet.inorder σ.players).countP
          (fun x => decide (keyLt x p)) : Int) - skill_window cfg))
        ((SortedSet.inorder σ.players).countP (fun x => decide (keyLt x p)))
      = .ok (affectedBelow cfg (SortedSet.inorder σ.players) p) := by
  have hin1 : SortedSet.inorder (SortedSet.add σ.players p)
      = keyInsert (SortedSet.inorder σ.players) p := inorder_insert _ p hs
  have hs1 : SortedT (SortedSet.add σ.players p) := SortedT_insert hs
  have hsz1 : sizeOK (SortedSet.add σ.players p) = true := sizeOK_insert hsz
  have hmemp : p ∈ SortedSet.inorder (SortedSet.add σ.players p) := by
    rw [hin1]
    exact self_mem_keyInsert hfkey
  have hrpF : (keyInsert (SortedSet.inorder σ.players) p).countP
      (fun x => decide (keyLt x p))
      = (SortedSet.inorder σ.players).countP (fun x => decide (keyLt x p)) := by
    rw [countP_keyInsert_fresh hfkey, decide_eq_false (keyLt_irrefl p)]
    simp
  have hrp_le : (SortedSet.inorder σ.players).countP
      (fun x => decide (keyLt x p))
      ≤ (SortedSet.inorder σ.players).length := List.countP_le_length _
  constructor
  · rw [index_eq hs1 hsz1 ⟨p, hmemp, ⟨rfl, rfl⟩⟩, hin1, hrpF]
  · rw [sliceP_eq hsz1, length_eq hsz1, hin1, length_keyInsert_fresh hfkey,
      slice_indices_of_le _ _ _ (le_max_left _ _) (by push_cast; omega)
        (by omega) (by push_cast; omega),
      show (max 0 (((SortedSet.inorder σ.players).countP
          (fun x => decide (keyLt x p)) : Int) - skill_window cfg)).toNat
        = (SortedSet.inorder σ.players).countP (fun x => decide (keyLt x p))
          - skill_window cfg from by omega,
      Int.toNat_natCast]
    rfl

/-- `_insert_player` in bulk mode: pure pool insertion plus the affected
window; the heap and match list are untouched. -/
theorem insert_player_bulk_spec (cfg : Config) (σ : MState) (p : Player)
    (hs : SortedT σ.players) (hsz : sizeOK σ.players = true)
    (hfkey : ∀ x ∈ SortedSet.inorder σ.players, ¬ keyEq x p) :
    insert_player cfg σ p true
      = .ok (⟨SortedSet.add σ.players p, σ.candidate_games,
          σ.created_matches⟩,
        affectedBelow cfg (SortedSet.inorder σ.players) p) := by
  obtain ⟨hindex, haff⟩ := insert_queries cfg σ p hs hsz hfkey
  simp [insert_player, Bind.bind, Except.bind, hindex, haff]

/-- `_insert_player` (non-bulk): no error, the pool gains exactly the new
player, the match list is unchanged, and consistency is restored. -/
theorem insert_player_spec (cfg : Config) (σ : MState) (p : Player)
    (hk : 1 ≤ cfg.team_size) (hst : cfg.approximate = false ∨ cfg.p_norm = PNorm.one)
    (hC : Consistent cfg σ)
    (hfresh : ∀ x ∈ SortedSet.inorder σ.players, x.id ≠ p.id) :
    ∃ h3, insert_player cfg σ p false
        = .ok (⟨SortedSet.add σ.players p, h3, σ.created_matches⟩,
            affectedBelow cfg (SortedSet.inorder σ.players) p)
      ∧ Consistent cfg ⟨SortedSet.add σ.players p, h3,
          σ.created_matches⟩ := by
  obtain ⟨⟨hs, hsz, hnd⟩, hI, hval, hnonm⟩ := hC
  have hfkey : ∀ x ∈ SortedSet.inorder σ.players, ¬ keyEq x p :=
    fun x hx hk' => hfresh x hx hk'.2
  obtain ⟨hindex, haff⟩ := insert_queries cfg σ p hs hsz hfkey
  have hin1 : SortedSet.inorder (SortedSet.add σ.players p)
      = keyInsert (SortedSet.inorder σ.players) p := inorder_insert _ p hs
  have hs1 : SortedT (SortedSet.add σ.players p) := SortedT_insert hs
  have hsz1 : sizeOK (SortedSet.add σ.players p) = true := sizeOK_insert hsz
  have hnd1 : ((SortedSet.inorder (SortedSet.add σ.players p)).map
      Player.id).Nodup := by
    rw [hin1]
    refine ((keyInsert_perm_fresh hfkey).map Player.id).nodup_iff.mpr ?_
    simp only [List.map_cons, List.nodup_cons, List.mem_map]
    refine ⟨?_, hnd⟩
    rintro ⟨q, hq, hqe⟩
    exact hfresh q hq hqe
  have hmemp : p ∈ SortedSet.inorder (SortedSet.add σ.players p) := by
    rw [hin1]
    exact self_mem_keyInsert hfkey
  obtain ⟨v, hv, hvshape⟩ :=
    calc_ok cfg p hk hst ⟨hs1, hsz1, hnd1⟩ hmemp
  cases v with
  | some g =>
    have hganchor : g.anchor_player = p := hvshape g rfl
    have hobs2 : ∀ m, observe (σ.candidate_games.push g) m
        = if m = p.id then some g else observe σ.candidate_games m := by
      intro m
      rw [observe_push _ g hI m, hganchor]
    obtain ⟨h3, hrun3, hcons⟩ := refresh_establishes_consistent cfg σ p hk
      hst ⟨⟨hs, hsz, hnd⟩, hI, hval, hnonm⟩ hfresh
      (σ.candidate_games.push g) (some g) (HeapInv_push _ g hI) hv hobs2
    refine ⟨h3, ?_, hcons⟩
    simp [insert_player, Bind.bind, Except.bind, hindex, haff, hv, hrun3]
  | none =>
    have hobs2 : ∀ m, observe σ.candidate_games m
        = if m = p.id then none else observe σ.candidate_games m := by
      intro m
      by_cases hm : m = p.id
      · rw [if_pos hm, hm]
        exact hnonm p.id (fun a ha => hfresh a ha)
      · rw [if_neg hm]
    obtain ⟨h3, hrun3, hcons⟩ := refresh_establishes_consistent cfg σ p hk
      hst ⟨⟨hs, hsz, hnd⟩, hI, hval, hnonm⟩ hfresh
      σ.candidate_games none hI hv hobs2
    refine ⟨h3, ?_, hcons⟩
    simp [insert_player, Bind.bind, Except.bind, hindex, haff, hv, hrun3]

/-! ### The bulk-insertion loop -/

theorem mem_punion_left {x : Player} {A : List Player} (B : List Player)
    (h : x ∈ A) : x ∈ punion A B :=
  List.mem_append_left _ h

theorem mem_punion {x : Player} {A B : List Player} (h : x ∈ punion A B) :
    x ∈ A ∨ x ∈ B := by
  unfold punion at h
  rcases List.mem_append.mp h with h | h
  · exact Or.inl h
  · exact Or.inr (List.mem_filter.mp h).1

theorem punion_ids_nodup {A B : List Player}
    (hA : (A.map Player.id).Nodup) (hB : (B.map Player.id).Nodup) :
    ((punion A B).map Player.id).Nodup := by
  unfold punion
  rw [List.map_append, List.nodup_append]
  refine ⟨hA, ((List.filter_sublist B).map Player.id).nodup hB, ?_⟩
  intro i hiA hiB
  rw [List.mem_map] at hiA hiB
  obtain ⟨y, hy, hye⟩ := hiB
  have hymem := List.mem_filter.mp hy
  obtain ⟨x, hx, hxe⟩ := hiA
  have : pmem y A = true := pmem_iff.mpr ⟨x, hx, by rw [hxe, hye]⟩
  simp [this] at hymem

theorem mem_foldl_keyInsert {x : Player} : ∀ {ps l : List Player},
    x ∈ List.foldl keyInsert l ps → x ∈ l ∨ x ∈ ps := by
  intro ps
  induction ps with
  | nil => intro l h; exact Or.inl h
  | cons p rest ih =>
    intro l h
    rcases ih h with h | h
    · rcases mem_keyInsert h with h | h
      · exact Or.inl h
      · exact Or.inr (by simp [h])
    · exact Or.inr (by simp [h])

theorem mem_foldl_keyInsert_of_mem : ∀ {ps l : List Player},
    (∀ q ∈ ps, ∀ x ∈ l, ¬ keyEq x q) →
    (ps.map Player.id).Nodup →
    (∀ q ∈ ps, ∀ x ∈ l, x.id ≠ q.id) →
    ∀ {x : Player}, x ∈ l ∨ x ∈ ps → x ∈ List.foldl keyInsert l ps := by
  intro ps
  induction ps with
  | nil =>
    intro l _ _ _ x h
    rcases h with h | h
    · exact h
    · simp at h
  | cons p rest ih =>
    intro l hfresh hnd hids x h
    simp only [List.map_cons, List.nodup_cons, List.mem_map] at hnd
    have hfp : ∀ y ∈ l, ¬ keyEq y p :=
      fun y hy => hfresh p (by simp) y hy
    have hstep : ∀ q ∈ rest, ∀ y ∈ keyInsert l p, ¬ keyEq y q := by
      intro q hq y hy
      rcases mem_keyInsert hy with hy | hy
      · exact hfresh q (by simp [hq]) y hy
      · subst hy
        intro hk'
        exact hnd.1 ⟨q, hq, hk'.2.symm⟩
    have hstep2 : ∀ q ∈ rest, ∀ y ∈ keyInsert l p, y.id ≠ q.id := by
      intro q hq y hy
      rcases mem_keyInsert hy with hy | hy
      · exact hids q (by simp [hq]) y hy
      · subst hy
        intro he
        exact hnd.1 ⟨q, hq, he.symm⟩
    refine ih hstep hnd.2 hstep2 ?_
    rcases h with h | h
    · exact Or.inl (mem_keyInsert_of_mem hfp h)
    · rcases List.mem_cons.mp h with h | h
      · refine Or.inl ?_
        rw [h]
        exact self_mem_keyInsert hfp
      · exact Or.inr h

/-- The bulk loop inserts into the pool only, accumulates the affected
windows, and leaves every anchor with an id outside the accumulated set
in place with an unchanged best-game computation. -/
theorem bulk_insert_loop_spec (cfg : Config) :
    ∀ (ps : List Player) (σ : MState) (acc : List Player),
    poolOK σ.players →
    (ps.map Player.id).Nodup →
    (∀ q ∈ ps, ∀ x ∈ SortedSet.inorder σ.players, x.id ≠ q.id) →
    (acc.map Player.id).Nodup →
    (∀ x ∈ acc, x ∈ SortedSet.inorder σ.players ∨ x ∈ ps) →
    ∃ s1 acc',
      bulk_insert_loop cfg σ acc ps = .ok (s1, acc') ∧
      s1.candidate_games = σ.candidate_games ∧
      s1.created_matches = σ.created_matches ∧
      SortedSet.inorder s1.players
        = List.foldl keyInsert (SortedSet.inorder σ.players) ps ∧
      poolOK s1.players ∧
      (acc'.map Player.id).Nodup ∧
      (∀ x ∈ acc', x ∈ SortedSet.inorder s1.players) ∧
      (∀ x ∈ acc, x ∈ acc') ∧
      (∀ a ∈ SortedSet.inorder σ.players,
        (∀ y ∈ acc', y.id ≠ a.id) →
        a ∈ SortedSet.inorder s1.players ∧
        calcL cfg (SortedSet.inorder s1.players) a
          = calcL cfg (SortedSet.inorder σ.players) a) := by
  intro ps
  induction ps with
  | nil =>
    intro σ acc hpo _ _ haccnd haccm
    refine ⟨σ, acc, rfl, rfl, rfl, rfl, hpo, haccnd, ?_, fun x h => h,
      fun a ha _ => ⟨ha, rfl⟩⟩
    intro x hx
    rcases haccm x hx with h | h
    · exact h
    · simp at h
  | cons p rest ih =>
    intro σ acc hpo hnd hids haccnd haccm
    obtain ⟨hs, hsz, hndl⟩ := hpo
    simp only [List.map_cons, List.nodup_cons, List.mem_map] at hnd
    have hfkey : ∀ x ∈ SortedSet.inorder σ.players, ¬ keyEq x p :=
      fun x hx hk' => hids p (by simp) x hx hk'.2
    have hbulk := insert_player_bulk_spec cfg σ p hs hsz hfkey
    have hin1 : SortedSet.inorder (SortedSet.add σ.players p)
        = keyInsert (SortedSet.inorder σ.players) p := inorder_insert _ p hs
    have hnd1 : ((SortedSet.inorder (SortedSet.add σ.players p)).map
        Player.id).Nodup := by
      rw [hin1]
      refine ((keyInsert_perm_fresh hfkey).map Player.id).nodup_iff.mpr ?_
      simp only [List.map_cons, List.nodup_cons, List.mem_map]
      refine ⟨?_, hndl⟩
      rintro ⟨q, hq, hqe⟩
      exact hids p (by simp) q hq hqe
    have hpo1 : poolOK (SortedSet.add σ.players p) :=
      ⟨SortedT_insert hs, sizeOK_insert hsz, hnd1⟩
    have hAmem := affectedBelow_mem cfg hs hfkey
    have hAnd : ((affectedBelow cfg (SortedSet.inorder σ.players) p).map
        Player.id).Nodup := by
      refine (((affectedBelow_sublist cfg _ p).map Player.id).nodup) ?_
      rw [← hin1]
      exact hnd1
    have hids1 : ∀ q ∈ rest, ∀ x ∈
        SortedSet.inorder (SortedSet.add σ.players p), x.id ≠ q.id := by
      intro q hq x hx
      rw [hin1] at hx
      rcases mem_keyInsert hx with hx | hx
      · exact hids q (by simp [hq]) x hx
      · subst hx
        intro he
        exact hnd.1 ⟨q, hq, he.symm⟩
    have haccnd1 : ((punion acc
        (affectedBelow cfg (SortedSet.inorder σ.players) p)).map
        Player.id).Nodup := punion_ids_nodup haccnd hAnd
    have haccm1 : ∀ x ∈ punion acc
        (affectedBelow cfg (SortedSet.inorder σ.players) p),
        x ∈ SortedSet.inorder (SortedSet.add σ.players p) ∨ x ∈ rest := by
      intro x hx
      rcases mem_punion hx with hx | hx
      · rcases haccm x hx with hx | hx
        · exact Or.inl (by rw [hin1]; exact mem_keyInsert_of_mem hfkey hx)
        · rcases List.mem_cons.mp hx with hx | hx
          · exact Or.inl (by rw [hin1, hx]; exact self_mem_keyInsert hfkey)
          · exact Or.inr hx
      · refine Or.inl ?_
        rw [hin1]
        exact mem_keyInsert_of_mem hfkey (hAmem x hx).2
    obtain ⟨s1, acc', hrun, hheap, hmat, hpool, hpo', hacc'nd, hacc'm,
      haccgrow, hstable⟩ :=
      ih ⟨SortedSet.add σ.players p, σ.candidate_games,
          σ.created_matches⟩
        (punion acc (affectedBelow cfg (SortedSet.inorder σ.players) p))
        hpo1 hnd.2 hids1 haccnd1 haccm1
    refine ⟨s1, acc', ?_, hheap, hmat, ?_, hpo', hacc'nd, hacc'm, ?_, ?_⟩
    · unfold bulk_insert_loop
      rw [hbulk]
      simp only [Bind.bind, Except.bind]
      exact hrun
    · rw [hpool, List.foldl_cons, hin1]
    · intro x hx
      exact haccgrow _ (mem_punion_left _ hx)
    · intro a ha hout
      have hout1 : ∀ y ∈ punion acc
          (affectedBelow cfg (SortedSet.inorder σ.players) p),
          y.id ≠ a.id := fun y hy => hout y (haccgrow y hy)
      have hnotaff : a ∉ affectedBelow cfg (SortedSet.inorder σ.players) p := by
        intro haA
        exact hout1 a (List.mem_append_right _ (by
          unfold punion at *
          exact List.mem_filter.mpr ⟨haA, by
            simp only [Bool.not_eq_true']
            rw [Bool.eq_false_iff]
            intro hpm
            obtain ⟨q, hq, hqe⟩ := pmem_iff.mp hpm
            exact hout1 q (mem_punion_left _ hq) hqe⟩)) rfl
      have ha1 : a ∈ SortedSet.inorder (SortedSet.add σ.players p) := by
        rw [hin1]
        exact mem_keyInsert_of_mem hfkey ha
      obtain ⟨hafin, hcalc⟩ := hstable a ha1 hout
      refine ⟨hafin, ?_⟩
      rw [hcalc, hin1]
      exact calcL_keyInsert_stable cfg hs hfkey ha hnotaff

/-- `_insert_players`: no error, the pool contents gain exactly the new
players, the match list is unchanged, and consistency is restored. -/
theorem insert_players_spec (cfg : Config) (σ : MState) (S : List Player)
    (hk : 1 ≤ cfg.team_size) (hst : cfg.approximate = false ∨ cfg.p_norm = PNorm.one)
    (hC : Consistent cfg σ)
    (hSnd : (S.map Player.id).Nodup)
    (hSfresh : ∀ q ∈ S, ∀ x ∈ SortedSet.inorder σ.players, x.id ≠ q.id) :
    ∃ s2, insert_players cfg σ S = .ok s2 ∧
      Consistent cfg s2 ∧
      SortedSet.inorder s2.players
        = List.foldl keyInsert (SortedSet.inorder σ.players) S ∧
      s2.created_matches = σ.created_matches := by
  obtain ⟨hpo, hI, hval, hnonm⟩ := hC
  obtain ⟨s1, acc', hrun, hheap, hmat, hpool, hpo', hacc'nd, hacc'm,
    haccgrow, hstable⟩ :=
    bulk_insert_loop_spec cfg S σ S hpo hSnd hSfresh hSnd
      (fun x hx => Or.inr hx)
  have hs1eta : s1 = ⟨s1.players, σ.candidate_games, σ.created_matches⟩ := by
    rw [← hheap, ← hmat]
  obtain ⟨h3, hrun3, hI3, hunt3, hdone3⟩ :=
    update_list_spec cfg s1.players σ.candidate_games σ.created_matches acc'
      hI hacc'nd (fun a ha => calc_ok cfg a hk hst hpo' (hacc'm a ha))
  have hpoolmem : ∀ a ∈ SortedSet.inorder σ.players,
      a ∈ SortedSet.inorder s1.players := by
    intro a ha
    rw [hpool]
    exact mem_foldl_keyInsert_of_mem
      (fun q hq x hx hk' => hSfresh q hq x hx hk'.2) hSnd hSfresh (Or.inl ha)
  refine ⟨⟨s1.players, h3, σ.created_matches⟩, ?_, ?_, hpool, rfl⟩
  · simp only [insert_players, Bind.bind, Except.bind, hrun]
    rw [hs1eta]
    exact hrun3
  · refine ⟨hpo', hI3, ?_, ?_⟩
    · intro a ha
      by_cases hid : ∃ y ∈ acc', y.id = a.id
      · obtain ⟨y, hy, hye⟩ := hid
        have hyp : y ∈ SortedSet.inorder s1.players := hacc'm y hy
        have : y = a := nodup_ids_distinct hpo'.2.2 hyp ha hye
        exact hdone3 a (this ▸ hy)
      · have hout : ∀ y ∈ acc', y.id ≠ a.id :=
          fun y hy he => hid ⟨y, hy, he⟩
        have hal : a ∈ SortedSet.inorder σ.players := by
          have := hpool ▸ ha
          rcases mem_foldl_keyInsert this with h | h
          · exact h
          · exact absurd rfl (hout a (haccgrow a h))
        obtain ⟨_, hcalc⟩ := hstable a hal hout
        rw [calc_eq_calcL hpo'.1 hpo'.2.1 ha, hcalc,
          ← calc_eq_calcL hpo.1 hpo.2.1 hal, hunt3 a.id hout]
        exact hval a hal
    · intro m hm
      have hmacc : ∀ y ∈ acc', y.id ≠ m := fun y hy => hm y (hacc'm y hy)
      rw [hunt3 m hmacc]
      exact hnonm m (fun a ha => hm a (hpoolmem a ha))

/-- Issuing the same insertions one at a time through the public
single-insert entry point. -/
def seq_insert (cfg : Config) (s : MState) (ps : List Player) :
    Except String MState :=
  ps.foldlM (fun s' p => insert_player_manually cfg s' p) s

theorem seq_insert_spec (cfg : Config) :
    ∀ (S : List Player) (σ : MState),
    1 ≤ cfg.team_size →
    cfg.approximate = false ∨ cfg.p_norm = PNorm.one →
    Consistent cfg σ →
    (S.map Player.id).Nodup →
    (∀ q ∈ S, ∀ x ∈ SortedSet.inorder σ.players, x.id ≠ q.id) →
    ∃ s2, seq_insert cfg σ S = .ok s2 ∧
      Consistent cfg s2 ∧
      SortedSet.inorder s2.players
        = List.foldl keyInsert (SortedSet.inorder σ.players) S ∧
      s2.created_matches = σ.created_matches := by
  intro S
  induction S with
  | nil => intro σ _ _ hC _ _; exact ⟨σ, rfl, hC, rfl, rfl⟩
  | cons p rest ih =>
    intro σ hk hst hC hnd hfr
    have hs := hC.1.1
    simp only [List.map_cons, List.nodup_cons, List.mem_map] at hnd
    obtain ⟨h3, hrun, hcons⟩ := insert_player_spec cfg σ p hk hst hC
      (fun x hx => hfr p (by simp) x hx)
    have hfkey : ∀ x ∈ SortedSet.inorder σ.players, ¬ keyEq x p :=
      fun x hx hk' => hfr p (by simp) x hx hk'.2
    have hin1 : SortedSet.inorder (SortedSet.add σ.players p)
        = keyInsert (SortedSet.inorder σ.players) p := inorder_insert _ p hs
    have hfr1 : ∀ q ∈ rest, ∀ x ∈ SortedSet.inorder
        (SortedSet.add σ.players p), x.id ≠ q.id := by
      intro q hq x hx
      rw [hin1] at hx
      rcases mem_keyInsert hx with hx | hx
      · exact hfr q (by simp [hq]) x hx
      · subst hx
        intro he
        exact hnd.1 ⟨q, hq, he.symm⟩
    obtain ⟨s2, hrun2, hcons2, hpool2, hmat2⟩ :=
      ih ⟨SortedSet.add σ.players p, h3, σ.created_matches⟩
        hk hst hcons hnd.2 hfr1
    refine ⟨s2, ?_, hcons2, ?_, hmat2⟩
    · simp only [seq_insert, List.foldlM_cons]
      have hman : insert_player_manually cfg σ p
          = .ok ⟨SortedSet.add σ.players p, h3, σ.created_matches⟩ := by
        simp [insert_player_manually, hrun, Except.map]
      rw [hman]
      simpa only [seq_insert] using hrun2
    · rw [hpool2, List.foldl_cons, hin1]

/-- A sorted fold of fresh-key insertions stays sorted. -/
theorem foldl_keyInsert_sorted : ∀ (ps l : List Player),
    l.Pairwise keyLt → (List.foldl keyInsert l ps).Pairwise keyLt := by
  intro ps
  induction ps with
  | nil => intro l h; exact h
  | cons p rest ih => intro l h; exact ih _ (keyInsert_sorted h)

/-- Two sorted fresh folds over permuted insertion lists coincide. -/
theorem foldl_keyInsert_perm_eq {l S S' : List Player}
    (hl : l.Pairwise keyLt)
    (hpairS : (l ++ S).Pairwise (fun a b => ¬ keyEq a b))
    (hperm : S'.Perm S) :
    List.foldl keyInsert l S = List.foldl keyInsert l S' := by
  haveI : IsAntisymm Player keyLt :=
    ⟨fun a b h1 h2 => absurd h1 (keyLt_asymm h2)⟩
  have hsymm : ∀ a b : Player, ¬ keyEq a b → ¬ keyEq b a := by
    intro a b hab hba
    exact hab (by unfold keyEq at *; omega)
  have happ : (l ++ S').Perm (l ++ S) :=
    List.Perm.append_left l hperm
  have hpairS' : (l ++ S').Pairwise (fun a b => ¬ keyEq a b) :=
    (happ.pairwise_iff (hsymm _ _)).mpr hpairS
  exact List.eq_of_perm_of_sorted
    ((foldl_keyInsert_perm S l hpairS).trans
      (happ.symm.trans (foldl_keyInsert_perm S' l hpairS').symm))
    (foldl_keyInsert_sorted S l hl) (foldl_keyInsert_sorted S' l hl)

/-- **C4 (amended).**  From any consistent manager state, and under
either partition strategy (the greedy one taken with `p = 1`, since with
`p = ∞` it raises unconditionally), bulk-inserting a fresh set of players
is observationally equivalent to inserting them one at a time in any
order: both runs succeed, the final pool contents agree, the final heaps
store the same game for every anchor id, and the match lists agree.
(The heap's backing array layout may differ — see the counterexample.) -/
theorem C4_bulk_insert_equiv (cfg : Config) (σ : MState)
    (S S' : List Player)
    (hk : 1 ≤ cfg.team_size) (hst : cfg.approximate = false ∨ cfg.p_norm = PNorm.one)
    (hC : Consistent cfg σ)
    (hnd : (S.map Player.id).Nodup)
    (hfr : ∀ q ∈ S, ∀ x ∈ SortedSet.inorder σ.players, x.id ≠ q.id)
    (hperm : S'.Perm S) :
    ∃ sb ss, insert_players cfg σ S = .ok sb ∧
      seq_insert cfg σ S' = .ok ss ∧
      SortedSet.inorder sb.players = SortedSet.inorder ss.players ∧
      (∀ m : Nat, observe sb.candidate_games m
        = observe ss.candidate_games m) ∧
      sb.created_matches = ss.created_matches := by
  obtain ⟨sb, hrb, hCb, hpb, hmb⟩ :=
    insert_players_spec cfg σ S hk hst hC hnd hfr
  have hnd' : (S'.map Player.id).Nodup :=
    ((hperm.map Player.id).nodup_iff).mpr hnd
  have hfr' : ∀ q ∈ S', ∀ x ∈ SortedSet.inorder σ.players, x.id ≠ q.id :=
    fun q hq => hfr q (hperm.subset hq)
  obtain ⟨ss, hrq, hCq, hpq, hmq⟩ :=
    seq_insert_spec cfg S' σ hk hst hC hnd' hfr'
  have hpairS : ((SortedSet.inorder σ.players) ++ S).Pairwise
      (fun a b => ¬ keyEq a b) := by
    rw [List.pairwise_append]
    refine ⟨pairwise_not_keyEq_of_nodup_ids hC.1.2.2,
      pairwise_not_keyEq_of_nodup_ids hnd, ?_⟩
    intro x hx q hq hk'
    exact hfr q hq x hx hk'.2
  have hpools : SortedSet.inorder sb.players
      = SortedSet.inorder ss.players := by
    rw [hpb, hpq]
    exact foldl_keyInsert_perm_eq hC.1.1 hpairS hperm
  refine ⟨sb, ss, hrb, hrq, hpools, ?_, hmb.trans hmq.symm⟩
  intro m
  obtain ⟨hpob, hIb, hvalb, hnonb⟩ := hCb
  obtain ⟨hpoq, hIq, hvalq, hnonq⟩ := hCq
  by_cases hm : ∃ a ∈ SortedSet.inorder sb.players, a.id = m
  · obtain ⟨a, ha, hae⟩ := hm
    have haq : a ∈ SortedSet.inorder ss.players := hpools ▸ ha
    have h1 := hvalb a ha
    have h2 := hvalq a haq
    rw [calc_eq_calcL hpob.1 hpob.2.1 ha, hpools,
      ← calc_eq_calcL hpoq.1 hpoq.2.1 haq] at h1
    rw [h1] at h2
    rw [← hae]
    exact Except.ok.inj h2
  · have hmb' : ∀ a ∈ SortedSet.inorder sb.players, a.id ≠ m :=
      fun a ha he => hm ⟨a, ha, he⟩
    rw [hnonb m hmb', hnonq m (fun a ha => hmb' a (hpools.symm ▸ ha))]

/-! ### C4: concrete divergence of the heap arrays, and the witness -/

/-- Five players of descending skill (spec §8 configuration) whose bulk
and one-at-a-time insertions produce heaps with equal contents but
different array layouts: the two surviving anchors tie at imbalance 10,
so the array keeps whichever push order the run used. -/
def listS5 : List Player :=
  [mkP 0 1040, mkP 1 1030, mkP 2 1020, mkP 3 1010, mkP 4 1000]

/-- **C4, counterexample to the literal claim.**  Bulk insertion of five
players of descending skill, and the same insertions issued one at a
time in the same order, both succeed with identical pool contents and
match lists and the same two heap entries (anchors 4 and 3, tied at
imbalance 10) — but the final heap arrays hold the two tied entries in
different orders, so the literal final heap states are not equal; only
the observable heap content coincides. -/
theorem C4_counterexample :
    (insert_players cfgA MState.empty listS5).map
        (fun s => s.candidate_games.heap.map
          (fun g => (g.anchor_player.id, g.imbalance)))
      = .ok [(4, 10), (3, 10)] ∧
    (seq_insert cfgA MState.empty listS5).map
        (fun s => s.candidate_games.heap.map
          (fun g => (g.anchor_player.id, g.imbalance)))
      = .ok [(3, 10), (4, 10)] ∧
    ([((4 : Nat), (10 : ℚ)), (3, 10)]).Perm [(3, 10), (4, 10)] ∧
    ¬ ([((4 : Nat), (10 : ℚ)), (3, 10)] = [(3, 10), (4, 10)]) ∧
    (insert_players cfgA MState.empty listS5).map
        (fun s => ((SortedSet.inorder s.players).map
          (fun p => (p.id, p.skill)), s.created_matches))
      = .ok ([(4, 1000), (3, 1010), (2, 1020), (1, 1030), (0, 1040)], []) ∧
    (seq_insert cfgA MState.empty listS5).map
        (fun s => ((SortedSet.inorder s.players).map
          (fun p => (p.id, p.skill)), s.created_matches))
      = .ok ([(4, 1000), (3, 1010), (2, 1020), (1, 1030), (0, 1040)], []) := by
  refine ⟨?_, ?_, ?_, ?_, ?_, ?_⟩
  · with_unfolding_all rfl
  · with_unfolding_all rfl
  · with_unfolding_all decide
  · with_unfolding_all decide
  · with_unfolding_all rfl
  · with_unfolding_all rfl

def listW2 : List Player := [mkP 0 1000, mkP 1 1010]

/-- The greedy configuration under the 1-norm, covered by the amended
claim alongside the exact one. -/
def cfgG : Config := ⟨2, .one, .one, 1 / 10, true⟩

theorem C4_witness :
    ∃ sb ss, insert_players cfgG MState.empty listW2 = .ok sb ∧
      seq_insert cfgG MState.empty [mkP 1 1010, mkP 0 1000] = .ok ss ∧
      SortedSet.inorder sb.players = SortedSet.inorder ss.players ∧
      (∀ m : Nat, observe sb.candidate_games m
        = observe ss.candidate_games m) ∧
      sb.created_matches = ss.created_matches :=
  C4_bulk_insert_equiv cfgG MState.empty listW2 [mkP 1 1010, mkP 0 1000]
    (by decide) (Or.inr rfl) (Consistent_empty cfgG) (by decide)
    (by decide) (by decide)
